import Mathlib

/-! # libini: in-place INI tokenizer and lookup (`src/ini.c`, `src/ini.h`)

Shallow embedding.  The byte buffer `ini->data[0 .. end]` is a `List Nat`
(one entry per byte, the sentinel NUL included); a C pointer into it is the
`Nat` index of the byte it points at.  A read is `rd` (out of the list it yields 0), a write
is `List.set`.  A `const char *` argument that lives outside the buffer (the
`section` and `key` arguments) is the list of the bytes it points at; reading
past the end of such a list yields the terminating NUL.

Byte values used below:
`0` NUL, `9` TAB, `10` LF, `13` CR, `32` space, `34` double quote, `59` `;`,
`61` `=`, `91` `[`, `92` backslash, `93` `]`, `110` `n`, `114` `r`, `116` `t`.
-/

namespace Ini

/-! ## Data model (`ini.h`) -/

/-- The struct `ini_file`: `data` is the memory the pointer `ini->data` points
at, `end_` is the offset `ini->end - ini->data`. -/
structure ini_file where
  data : List Nat
  end_ : Nat
deriving DecidableEq, Repr

/-- The struct `ini_value`.  The C union is kept as one field per member; a
typed accessor only ever writes its own member, the others stay at the zero
that `memset` put there.  `String` is a pointer into the buffer (`none` is the
null pointer).  The `Decimal` member is not modelled. -/
structure ini_value where
  ok : Bool
  Integer : Int
  String : Option Nat
  Boolean : Bool
deriving DecidableEq, Repr

/-- The byte read `*p` for the pointer at offset `p` of the memory `data`. -/
def rd (data : List Nat) (p : Nat) : Nat := data.getD p 0

/-! ## libc functions used by the source -/

/-- The libc `tolower` in the C locale. -/
def tolower (c : Nat) : Nat := if 65 ≤ c ∧ c ≤ 90 then c + 32 else c

/-- The libc `strlen` of the C string that starts at the head of `s`. -/
def strlen : List Nat → Nat
  | [] => 0
  | c :: s => if c = 0 then 0 else strlen s + 1

/-- The libc `strcspn`: length of the initial segment of the C string `s`
that has no byte of `reject`. -/
def strcspn (reject : List Nat) : List Nat → Nat
  | [] => 0
  | c :: s => if c = 0 ∨ c ∈ reject then 0 else strcspn reject s + 1

/-- The text of the C string that starts at the head of `s` (its bytes up to,
not including, the first NUL). -/
def cstr : List Nat → List Nat
  | [] => []
  | c :: s => if c = 0 then [] else c :: cstr s

/-- The libc `strcmp(a, b) == 0`. -/
def streq (a b : List Nat) : Bool := cstr a == cstr b

/-! ## `ini.c`: helpers -/

/-- Source `strcmpci`: `bool d = tolower(*a) - tolower(*b)` is true when the
two folded bytes differ; the loop returns `d == 0` as soon as `d` is set or
`*a` is NUL. -/
def strcmpci : List Nat → List Nat → Bool
  | [], b =>
    let d : Bool := ((tolower 0 : Int) - (tolower (b.headD 0) : Int)) != 0
    !d
  | x :: a, b =>
    let d : Bool := ((tolower x : Int) - (tolower (b.headD 0) : Int)) != 0
    if d || x == 0 then !d else strcmpci a b.tail

/-- The `while (p < ini->end && *p == 0) p++` loop of `next`; the first
argument bounds the number of iterations. -/
def next_loop (data : List Nat) (end_ : Nat) : Nat → Nat → Nat
  | 0, p => p
  | fuel + 1, p =>
    if p < end_ ∧ rd data p = 0 then next_loop data end_ fuel (p + 1) else p

/-- Source `next`. The loop runs at most `end - p` times. -/
def next (ini : ini_file) (p : Nat) : Nat :=
  let p := p + strlen (ini.data.drop p)
  next_loop ini.data ini.end_ (ini.end_ - p) p

/-- The loop of `trim_back` started at index `n` (at or after `ini->data`). -/
def trim_back_from (data : List Nat) : Nat → List Nat
  | 0 =>
    if rd data 0 = 32 ∨ rd data 0 = 9 ∨ rd data 0 = 13 then data.set 0 0
    else data
  | n + 1 =>
    if rd data (n + 1) = 32 ∨ rd data (n + 1) = 9 ∨ rd data (n + 1) = 13 then
      trim_back_from (data.set (n + 1) 0) n
    else data

/-- Source `trim_back`.  The pointer may be one before `ini->data` (offset
`-1`), where the guard `p >= ini->data` fails at once. -/
def trim_back (data : List Nat) (p : Int) : List Nat :=
  match p with
  | Int.ofNat n => trim_back_from data n
  | Int.negSucc _ => data

/-- The loop of `discard_line`; the first `Nat` bounds the iterations. -/
def discard_loop (end_ : Nat) : Nat → List Nat → Nat → List Nat × Nat
  | 0, data, p => (data, p)
  | fuel + 1, data, p =>
    if p < end_ ∧ rd data p ≠ 10 then discard_loop end_ fuel (data.set p 0) (p + 1)
    else (data, p)

/-- Source `discard_line`: returns the new memory and the returned pointer.
The loop runs at most `end - p` times. -/
def discard_line (data : List Nat) (end_ : Nat) (p : Nat) : List Nat × Nat :=
  discard_loop end_ (end_ - p) data p

/-- The loop of `unescape_quoted_value` with read head `p` and write head `q`;
the first `Nat` bounds the iterations. -/
def unescape_loop (end_ : Nat) : Nat → List Nat → Nat → Nat → List Nat × Nat
  | 0, data, _, q => (data, q)
  | fuel + 1, data, p, q =>
    let c := rd data p
    if p < end_ ∧ c ≠ 34 ∧ c ≠ 13 ∧ c ≠ 10 then
      if c = 92 then
        let e := rd data (p + 1)
        if e = 114 then unescape_loop end_ fuel (data.set q 13) (p + 2) (q + 1)
        else if e = 110 then unescape_loop end_ fuel (data.set q 10) (p + 2) (q + 1)
        else if e = 116 then unescape_loop end_ fuel (data.set q 9) (p + 2) (q + 1)
        else if e = 13 ∨ e = 10 ∨ e = 0 then (data, q)
        else unescape_loop end_ fuel (data.set q e) (p + 2) (q + 1)
      else unescape_loop end_ fuel (data.set q c) (p + 1) (q + 1)
    else (data, q)

/-- Source `unescape_quoted_value`: `p` points at the opening quote; returns
the new memory and the write head `q`.  The loop runs at most `end - (p+1)`
times. -/
def unescape_quoted_value (data : List Nat) (end_ : Nat) (p : Nat) : List Nat × Nat :=
  unescape_loop end_ (end_ - (p + 1)) data (p + 1) p

/-- The `do { *p++ = 0; } while (*p == ' ' || *p == CR || *p == TAB)` loop of
`split_data`; the first `Nat` bounds the iterations. -/
def eq_loop : Nat → List Nat → Nat → List Nat × Nat
  | 0, data, p => (data, p)
  | fuel + 1, data, p =>
    let data := data.set p 0
    let p := p + 1
    if rd data p = 32 ∨ rd data p = 13 ∨ rd data p = 9 then eq_loop fuel data p
    else (data, p)

/-- The `default:` arm of the `switch` in `split_data`, after the `do ... while`
loop: `p` is at the first byte after `=` and the white space that follows it;
the value is missing, quoted or plain. -/
def split_value (data : List Nat) (end_ : Nat) (line_start p : Nat) : List Nat × Nat :=
  if rd data p = 10 ∨ rd data p = 0 then discard_line data end_ line_start
  else if rd data p = 34 then
    let value_start := p
    let u := unescape_quoted_value data end_ p
    if u.2 = value_start then discard_line u.1 end_ line_start
    else discard_line u.1 end_ u.2
  else
    let p := p + strcspn [10] (data.drop p)
    (trim_back data ((p : Int) - 1), p)

/-- The `default:` arm of the `switch` in `split_data`: a candidate
key/value line that starts at `line_start`. -/
def split_default (data : List Nat) (end_ : Nat) (line_start : Nat) : List Nat × Nat :=
  let p := line_start + strcspn [61, 10] (data.drop line_start)
  if rd data p ≠ 61 then discard_line data end_ line_start
  else
    let data := trim_back data ((p : Int) - 1)
    let r := eq_loop (data.length - p) data p
    split_value r.1 end_ line_start r.2

/-- One iteration of the `while (p < ini->end)` loop of `split_data` (the
`switch (*p)`), from memory `data` and cursor `p` to the new memory and
cursor. -/
def split_step (data : List Nat) (end_ : Nat) (p : Nat) : List Nat × Nat :=
  let c := rd data p
  if c = 13 ∨ c = 10 ∨ c = 9 ∨ c = 32 then (data.set p 0, p + 1)
  else if c = 0 then (data, p + 1)
  else if c = 91 then
    let p := p + strcspn [93, 10] (data.drop p)
    (data.set p 0, p)
  else if c = 59 then discard_line data end_ p
  else split_default data end_ p

/-- The `while (p < ini->end)` loop of `split_data`; the first `Nat` bounds
the iterations. -/
def split_loop (end_ : Nat) : Nat → List Nat → Nat → List Nat
  | 0, data, _ => data
  | fuel + 1, data, p =>
    if p < end_ then
      let r := split_step data end_ p
      split_loop end_ fuel r.1 r.2
    else data

/-- Source `split_data`.  Every iteration moves the cursor forward, so the
loop runs at most `end` times. -/
def split_data (ini : ini_file) : ini_file :=
  { ini with data := split_loop ini.end_ ini.end_ ini.data 0 }

/-- Source `ini_load` on its success path, from the bytes read from the file:
the buffer is the file content followed by the sentinel NUL, `end` points at
the sentinel, and the buffer is tokenized. -/
def ini_load (content : List Nat) : ini_file :=
  split_data { data := content ++ [0], end_ := content.length }

/-! ## `ini.c`: lookup -/

/-- The test `!section || strcmpci(section, current_section)` of `ini_get`. -/
def section_matches : Option (List Nat) → List Nat → Bool
  | none, _ => true
  | some s, cur => strcmpci s cur

/-- The `while (p < ini->end)` loop of `ini_get`; `cur` is the C string
`current_section` points at; the first `Nat` bounds the iterations. -/
def ini_get_loop (ini : ini_file) (sec : Option (List Nat)) (key : List Nat) :
    Nat → List Nat → Nat → Option Nat
  | 0, _, _ => none
  | fuel + 1, cur, p =>
    if p < ini.end_ then
      if rd ini.data p = 91 then
        ini_get_loop ini sec key fuel (ini.data.drop (p + 1)) (next ini p)
      else
        let val := next ini p
        if section_matches sec cur && strcmpci (ini.data.drop p) key then some val
        else ini_get_loop ini sec key fuel cur (next ini val)
    else none

/-- Source `ini_get`: `sec = none` is the null `section` pointer; the result
is the returned pointer (`none` for `NULL`).  Every iteration moves `p`
forward, so the loop runs at most `end - p` times. -/
def ini_get (ini : ini_file) (sec : Option (List Nat)) (key : List Nat) : Option Nat :=
  let p := if rd ini.data 0 = 0 then next ini 0 else 0
  ini_get_loop ini sec key (ini.end_ - p) [] p

/-- The text of the value `ini_get` returns, when it returns one. -/
def ini_get_text (ini : ini_file) (sec : Option (List Nat)) (key : List Nat) :
    Option (List Nat) :=
  (ini_get ini sec key).map (fun p => cstr (ini.data.drop p))

/-! ## `ini.c`: typed accessors -/

/-- The libc `isspace` in the C locale. -/
def isspace (c : Nat) : Bool := c = 32 ∨ (9 ≤ c ∧ c ≤ 13)

/-- The libc `isdigit`. -/
def isdigit (c : Nat) : Bool := 48 ≤ c ∧ c ≤ 57

/-- Number of leading `isspace` bytes of `s`. -/
def count_space : List Nat → Nat
  | [] => 0
  | c :: s => if isspace c then count_space s + 1 else 0

/-- Reads the decimal digits at the head of `s`: the number they denote on top
of the accumulator `acc`, and how many digits were read. -/
def scan_digits (acc : Nat) : List Nat → Nat × Nat
  | [] => (acc, 0)
  | c :: s =>
    if isdigit c then
      let r := scan_digits (acc * 10 + (c - 48)) s
      (r.1, r.2 + 1)
    else (acc, 0)

/-- What `strtoll(s, &eptr, 10)` hands back: the returned value, the offset
`eptr - s`, and whether `errno` was set (to `ERANGE`). -/
structure strtoll_result where
  value : Int
  consumed : Nat
  erange : Bool
deriving DecidableEq, Repr

/-- `LLONG_MAX` for a 64-bit `long long`. -/
def LLONG_MAX : Int := 2 ^ 63 - 1

/-- `LLONG_MIN` for a 64-bit `long long`. -/
def LLONG_MIN : Int := -(2 ^ 63)

/-- The libc `strtoll(s, &eptr, 10)` as the C standard describes it: skip
white space, take an optional sign and then the longest run of decimal digits;
with no digit nothing is consumed and the value is 0; a value outside
`long long` is clamped and sets `errno`.  (`errno` is not set when nothing
was converted, as in glibc.) -/
def strtoll (s : List Nat) : strtoll_result :=
  let ws := count_space s
  let s1 := s.drop ws
  let sign := if s1.headD 0 = 45 ∨ s1.headD 0 = 43 then 1 else 0
  let r := scan_digits 0 (s1.drop sign)
  if r.2 = 0 then { value := 0, consumed := 0, erange := false }
  else
    let x : Int := if s1.headD 0 = 45 then -(r.1 : Int) else (r.1 : Int)
    if x > LLONG_MAX then { value := LLONG_MAX, consumed := ws + sign + r.2, erange := true }
    else if x < LLONG_MIN then { value := LLONG_MIN, consumed := ws + sign + r.2, erange := true }
    else { value := x, consumed := ws + sign + r.2, erange := false }

/-- Conversion of a `long long` to the 32-bit `int` member `Integer` on
assignment: the value is reduced modulo `2^32` into `[-2^31, 2^31)`. -/
def int_of_long_long (v : Int) : Int := (v + 2 ^ 31) % 2 ^ 32 - 2 ^ 31

/-- The `ini_value` after `memset(&result, 0, sizeof(result))` and
`result.ok = false`. -/
def zero_value : ini_value := { ok := false, Integer := 0, String := none, Boolean := false }

/-- Source `ini_getint`. -/
def ini_getint (ini : ini_file) (tablename : Option (List Nat)) (key : List Nat) : ini_value :=
  match ini_get ini tablename key with
  | none => zero_value
  | some s =>
    let r := strtoll (ini.data.drop s)
    { zero_value with
      Integer := int_of_long_long r.value
      ok := if r.erange || rd (ini.data.drop s) r.consumed != 0 then false else true }

/-- Source `ini_getbool`. -/
def ini_getbool (ini : ini_file) (tablename : Option (List Nat)) (key : List Nat) : ini_value :=
  match ini_get ini tablename key with
  | none => zero_value
  | some s =>
    if streq (ini.data.drop s) [116, 114, 117, 101] then
      { zero_value with ok := true, Boolean := true }
    else if streq (ini.data.drop s) [102, 97, 108, 115, 101] then
      { zero_value with ok := true, Boolean := false }
    else zero_value

/-- Source `ini_getstring`. -/
def ini_getstring (ini : ini_file) (tablename : Option (List Nat)) (key : List Nat) : ini_value :=
  match ini_get ini tablename key with
  | none => zero_value
  | some s => { zero_value with String := some s, ok := true }

/-- What `strtod(s, &eptr)` hands back, for a type `δ` that stands for
`double`: the returned value, the offset `eptr - s`, and whether `errno` was
set. -/
structure strtod_result (δ : Type) where
  value : δ
  consumed : Nat
  erange : Bool

/-- Source `ini_getdecimal`.  The libc function `strtod` is a parameter, as is
the type `δ` of `double` with its zero `z`.  The result is the `ini_value`
together with its `Decimal` member, which the structure above does not
carry. -/
def ini_getdecimal {δ : Type} (strtod : List Nat → strtod_result δ) (z : δ) (ini : ini_file)
    (tablename : Option (List Nat)) (key : List Nat) : ini_value × δ :=
  match ini_get ini tablename key with
  | none => (zero_value, z)
  | some s =>
    let r := strtod (ini.data.drop s)
    ({ zero_value with
        ok := if r.erange || rd (ini.data.drop s) r.consumed != 0 then false else true },
      r.value)

/-! ## Vocabulary of the specification -/

/-- An ASCII letter. -/
def is_letter (c : Nat) : Bool := (65 ≤ c ∧ c ≤ 90) ∨ (97 ≤ c ∧ c ≤ 122)

/-- The two texts differ only in the case of ASCII letters. -/
def same_up_to_case : List Nat → List Nat → Bool
  | [], [] => true
  | x :: a, y :: b =>
    (x == y || (is_letter x && is_letter y && tolower x == tolower y)) && same_up_to_case a b
  | _, _ => false

/-- An optional section argument differs only in the case of ASCII letters. -/
def same_section_up_to_case : Option (List Nat) → Option (List Nat) → Bool
  | none, none => true
  | some a, some b => same_up_to_case a b
  | _, _ => false

/-! ## Vocabulary of the specification, continued -/

/-- A space, a tab or a carriage return: the bytes `trim_back` removes and the
`do ... while` loop after `=` skips. -/
def is_blank (c : Nat) : Bool := c = 32 ∨ c = 9 ∨ c = 13

/-- A padding of spaces, tabs and carriage returns. -/
def pad_ok (P : List Nat) : Bool := P.all is_blank

/-- A key text: not empty, without NUL, line feed or `=`, its first byte not a
blank, `[` or `;`, its last byte not a blank. -/
def key_ok (K : List Nat) : Bool :=
  K ≠ [] && K.all (fun c => c ≠ 0 && c ≠ 10 && c ≠ 61) &&
    !is_blank (rd K 0) && rd K 0 ≠ 91 && rd K 0 ≠ 59 && !is_blank (rd K (K.length - 1))

/-- An unquoted value text: not empty, without NUL or line feed, its first
byte not a blank or a double quote, its last byte not a blank. -/
def value_ok (V : List Nat) : Bool :=
  V ≠ [] && V.all (fun c => c ≠ 0 && c ≠ 10) &&
    !is_blank (rd V 0) && rd V 0 ≠ 34 && !is_blank (rd V (V.length - 1))

/-- The byte that ends a line at offset `n` of a buffer with end `e`: a line
feed inside the buffer, or the sentinel NUL at the end of the buffer. -/
def line_end (t e n : Nat) : Prop := (t = 10 ∧ e = n + 1) ∨ (t = 0 ∧ e = n)

/-- The byte `unescape_quoted_value` writes for the escape sequence backslash
`x` (the `switch` on the byte after the backslash). -/
def escape_char (x : Nat) : Nat :=
  if x = 114 then 13 else if x = 110 then 10 else if x = 116 then 9 else x

/-- What `unescape_quoted_value` leaves as value text, as a function of the
bytes `S` that follow the opening quote on the line: reading stops at a double
quote, a carriage return, a line feed, the end of the line, or at a backslash
followed by a carriage return, a line feed, a NUL or the end of the line. -/
def unquote : List Nat → List Nat
  | [] => []
  | c :: S =>
    if c = 34 ∨ c = 13 ∨ c = 10 then []
    else if c = 92 then
      match S with
      | [] => []
      | x :: r => if x = 13 ∨ x = 10 ∨ x = 0 then [] else escape_char x :: unquote r
    else c :: unquote S

/-- The escape mapping of the specification, on the body of a quoted value:
backslash-r is CR, backslash-n is LF, backslash-t is TAB, backslash-quote is a
double quote, backslash-backslash is one backslash, backslash-X for any other X
is X, every other byte is copied. -/
def decode : List Nat → List Nat
  | [] => []
  | [c] => [c]
  | c :: x :: r =>
    if c = 92 then
      (if x = 114 then 13 else if x = 110 then 10 else if x = 116 then 9
        else if x = 34 then 34 else if x = 92 then 92 else x) :: decode r
    else c :: decode (x :: r)

/-- The body of a quoted value: the bytes between the opening quote and the
first unescaped double quote, with no raw CR, LF or NUL.  (So every backslash
is followed by a byte of the body, and no other byte is a double quote.) -/
def quoted_body_ok : List Nat → Bool
  | [] => true
  | [c] => c ≠ 92 && c ≠ 34 && c ≠ 13 && c ≠ 10 && c ≠ 0
  | c :: x :: r =>
    if c = 92 then (x ≠ 13 && x ≠ 10 && x ≠ 0) && quoted_body_ok r
    else (c ≠ 34 && c ≠ 13 && c ≠ 10 && c ≠ 0) && quoted_body_ok (x :: r)

/-- The text of a line after its leading blanks is empty, or its first byte is
neither a blank, `[` nor `;`: the first non-blank byte of the line, if any, is
neither `[` nor `;`. -/
def first_ok (body : List Nat) : Bool :=
  body.isEmpty || (!is_blank (rd body 0) && rd body 0 ≠ 91 && rd body 0 ≠ 59)

/-- The malformed key/value lines of the specification, on the text `body` of a
line after its leading blanks: (a) it has no `=`, or (b) it has nothing but
blanks after its first `=`, or (c) it has an empty quoted value `""` (after
optional blanks) after its first `=`. -/
def malformed_body (body : List Nat) : Prop :=
  61 ∉ body ∨
  (∃ pre pad3, body = pre ++ 61 :: pad3 ∧ 61 ∉ pre ∧ pad_ok pad3 = true) ∨
  (∃ pre pad3 G, body = pre ++ 61 :: (pad3 ++ 34 :: 34 :: G) ∧ 61 ∉ pre ∧ pad_ok pad3 = true)

/-- The block `A` is made of whole lines: it is empty or ends in a line feed. -/
def whole_lines (A : List Nat) : Prop := A = [] ∨ ∃ A0, A = A0 ++ [10]

/-- The text `rest` starts at a line end: it is empty or starts with a line
feed. -/
def at_line_end (rest : List Nat) : Prop := rest = [] ∨ ∃ r, rest = 10 :: r

/-- A byte the main loop of `split_data` steps over inside a line: a blank, or
a NUL that is already there. -/
def is_skipped (c : Nat) : Bool := is_blank c || c = 0

/-- A line the tokenizer ignores, given as its leading skipped bytes `pad` and
the text `body` that follows them: `body` is empty, or its first byte is `;`
(a comment), or `body` has no `=` and its first byte is not `[`. -/
def ignored_line (pad body : List Nat) : Bool :=
  pad.all is_skipped && !body.contains 10 &&
    (body.isEmpty ||
      (!is_skipped (rd body 0) && (rd body 0 = 59 || (!body.contains 61 && rd body 0 ≠ 91))))

/-- A line of a well-formed file: a section header `[name]`, or a key/value
line `pad key pad = pad value pad` with an unquoted value. -/
inductive ini_line where
  | header (name : List Nat)
  | pair (pad1 key pad2 pad3 value pad4 : List Nat)
deriving DecidableEq, Repr

/-- The bytes of a line, without its line feed. -/
def render_line : ini_line → List Nat
  | .header name => [91] ++ name ++ [93]
  | .pair pad1 key pad2 pad3 value pad4 => pad1 ++ key ++ pad2 ++ [61] ++ pad3 ++ value ++ pad4

/-- The bytes of a file made of the given lines, each followed by a line
feed. -/
def render : List ini_line → List Nat
  | [] => []
  | l :: ls => render_line l ++ [10] ++ render ls

/-- A section name has no NUL, line feed or `]`; a key/value line has a
well-formed key, a well-formed unquoted value, and blanks as padding. -/
def line_ok : ini_line → Bool
  | .header name => name.all (fun c => c ≠ 0 && c ≠ 10 && c ≠ 93)
  | .pair pad1 key pad2 pad3 value pad4 =>
    pad_ok pad1 && key_ok key && pad_ok pad2 && pad_ok pad3 && value_ok value && pad_ok pad4

/-- Equality of two texts up to the case of ASCII letters. -/
def eq_ignoring_case (a b : List Nat) : Bool := a.map tolower == b.map tolower

/-- The section argument of a lookup accepts the enclosing section `cur`:
any section when the argument is absent, else equality up to case. -/
def ref_section_ok : Option (List Nat) → List Nat → Bool
  | none, _ => true
  | some s, cur => eq_ignoring_case s cur

/-- The reference lookup of the specification: the value of the earliest line,
in file order, whose key equals the requested key up to case and whose
enclosing section is accepted by the section argument; `cur` is the section
that encloses the first line of the list. -/
def ref_lookup (sec : Option (List Nat)) (key : List Nat) :
    List Nat → List ini_line → Option (List Nat)
  | _, [] => none
  | _, .header name :: ls => ref_lookup sec key name ls
  | cur, .pair _ k _ _ v _ :: ls =>
    if ref_section_ok sec cur && eq_ignoring_case k key then some v
    else ref_lookup sec key cur ls

/-- The tokens a well-formed line leaves in the buffer. -/
def line_tokens : ini_line → List (List Nat)
  | .header name => [91 :: name]
  | .pair _ k _ _ v _ => [k, v]

/-- A text without its leading blanks. -/
def strip_left (l : List Nat) : List Nat := l.dropWhile is_blank

/-- A text without its trailing blanks. -/
def strip_right (l : List Nat) : List Nat := (l.reverse.dropWhile is_blank).reverse

/-- The key segment of a line: the text before its first `=`, with leading and
trailing spaces, tabs and carriage returns removed. -/
def key_segment (line : List Nat) : List Nat :=
  strip_right (strip_left (line.takeWhile (fun c => c ≠ 61)))

/-- The first non-blank byte of a line (0 when the line is blank). -/
def first_nonblank (line : List Nat) : Nat := rd (strip_left line) 0

/-- The text made of the given lines, each followed by a line feed. -/
def unlines : List (List Nat) → List Nat
  | [] => []
  | l :: ls => l ++ [10] ++ unlines ls

/-- Reading the text of a line from the left, one byte: outside a section
header (`some false`) a blank changes nothing and `[` opens a header; inside a
header (`some true`) `]` closes it and any other byte belongs to it; any other
byte outside a header starts a comment or a key/value line (`none`), and
nothing after it counts. -/
def header_step : Option Bool → Nat → Option Bool
  | none, _ => none
  | some true, c => if c = 93 then some false else some true
  | some false, c => if is_blank c then some false else if c = 91 then some true else none

/-- The text is made of blanks and closed section headers `[...]` only. -/
def headers_only (pre : List Nat) : Bool := pre.foldl header_step (some false) == some false

/-! ## Vocabulary of the proofs -/

/-- The last byte of `Z`, if any, is not one that `trim_back` overwrites. -/
def closed_left (Z : List Nat) : Prop :=
  Z = [] ∨ ¬ (rd Z (Z.length - 1) = 32 ∨ rd Z (Z.length - 1) = 9 ∨ rd Z (Z.length - 1) = 13)

/-- The main loop of `split_data` run over a block of bytes `X` on its own
(the end of the buffer is the end of `X`).  Used for a block of whole lines,
whose last byte is a line feed. -/
def split_block (X : List Nat) : List Nat := split_loop X.length X.length X 0

/-- Number of NUL bytes at the head of `s`. -/
def lead_nul : List Nat → Nat
  | [] => 0
  | c :: s => if c = 0 then lead_nul s + 1 else 0

/-- The tokens of a buffer: its maximal runs of non-NUL bytes, in order. -/
def tokens : List Nat → List (List Nat)
  | [] => []
  | c :: s =>
    if c = 0 then tokens s
    else if rd s 0 = 0 then [c] :: tokens s
    else (c :: (tokens s).headD []) :: (tokens s).tail

/-- What the loop of `ini_get` computes, told on the list of tokens: a token
that starts with `[` sets the current section to the rest of the token; any
other token is a key whose value is the next token; the value of the first
key that matches is returned. -/
def tok_lookup (sec : Option (List Nat)) (key : List Nat) :
    List Nat → List (List Nat) → Option (List Nat)
  | _, [] => none
  | cur, [t] =>
    if rd t 0 = 91 then none
    else if section_matches sec cur && strcmpci t key then some []
    else none
  | cur, t :: v :: rest =>
    if rd t 0 = 91 then tok_lookup sec key t.tail (v :: rest)
    else if section_matches sec cur && strcmpci t key then some v
    else tok_lookup sec key cur rest

/-- The line `line` is tokenized to `img`: whether a line feed or the end of
the buffer follows it, the main loop of `split_data` turns `line` into `img`
and the byte after it into NUL. -/
def tokenizes_to (line img : List Nat) : Prop :=
  ∀ t e, line_end t e line.length → split_loop e e (line ++ [t]) 0 = img ++ [0]

/-! ## Instrumented runs -/

/-- What a run of `unescape_quoted_value` leaves behind: the memory, the write
head `q` (the returned pointer), the read head `p` at the moment the function
returns, and the writes `*q = ...` it made, each as the pair of `q` and `p` at
that write. -/
structure unescape_trace where
  data : List Nat
  q : Nat
  p : Nat
  writes : List (Nat × Nat)
deriving DecidableEq, Repr

/-- Adds a write at the front of the writes of a trace. -/
def unescape_trace.record (w : Nat × Nat) (t : unescape_trace) : unescape_trace :=
  { t with writes := w :: t.writes }

/-- The loop of `unescape_quoted_value` as in `unescape_loop`, recording each
write and the read head on return.  In the escape branch the read head has
been moved to the byte after the backslash (`p++`) when the write is made or
the function returns. -/
def unescape_run (end_ : Nat) : Nat → List Nat → Nat → Nat → unescape_trace
  | 0, data, p, q => { data := data, q := q, p := p, writes := [] }
  | fuel + 1, data, p, q =>
    let c := rd data p
    if p < end_ ∧ c ≠ 34 ∧ c ≠ 13 ∧ c ≠ 10 then
      if c = 92 then
        let e := rd data (p + 1)
        if e = 114 then (unescape_run end_ fuel (data.set q 13) (p + 2) (q + 1)).record (q, p + 1)
        else if e = 110 then
          (unescape_run end_ fuel (data.set q 10) (p + 2) (q + 1)).record (q, p + 1)
        else if e = 116 then
          (unescape_run end_ fuel (data.set q 9) (p + 2) (q + 1)).record (q, p + 1)
        else if e = 13 ∨ e = 10 ∨ e = 0 then { data := data, q := q, p := p + 1, writes := [] }
        else (unescape_run end_ fuel (data.set q e) (p + 2) (q + 1)).record (q, p + 1)
      else (unescape_run end_ fuel (data.set q c) (p + 1) (q + 1)).record (q, p)
    else { data := data, q := q, p := p, writes := [] }

/-- Source `unescape_quoted_value` with its trace: `p` points at the opening
quote. -/
def unescape_quoted_value_run (data : List Nat) (end_ : Nat) (p : Nat) : unescape_trace :=
  unescape_run end_ (end_ - (p + 1)) data (p + 1) p

/-! ## Bounds-checked runs

The tokenizer once more, with every access to the memory checked: a read or a
write at an index outside the memory gives `none`, and so does a loop that has
not come to its end when its iteration bound is used up. -/

/-- The read `*p`, checked: `none` when the index is outside the memory. -/
def rd_chk (data : List Nat) (p : Nat) : Option Nat :=
  if p < data.length then some (rd data p) else none

/-- The write `*p = v`, checked: `none` when the index is outside the
memory. -/
def wr_chk (data : List Nat) (p v : Nat) : Option (List Nat) :=
  if p < data.length then some (data.set p v) else none

/-- The libc `strcspn` reading the memory `s` from the pointer on, byte by
byte; `none` when it reads past the end of the memory. -/
def strcspn_chk (reject : List Nat) : List Nat → Option Nat
  | [] => none
  | c :: s => if c = 0 ∨ c ∈ reject then some 0 else (strcspn_chk reject s).map (· + 1)

/-- The loop of `trim_back`, checked. -/
def trim_back_from_chk (data : List Nat) : Nat → Option (List Nat)
  | 0 =>
    (rd_chk data 0).bind fun c =>
      if c = 32 ∨ c = 9 ∨ c = 13 then wr_chk data 0 0 else some data
  | n + 1 =>
    (rd_chk data (n + 1)).bind fun c =>
      if c = 32 ∨ c = 9 ∨ c = 13 then
        (wr_chk data (n + 1) 0).bind fun d => trim_back_from_chk d n
      else some data

/-- Source `trim_back`, checked.  At offset `-1` the guard `p >= ini->data`
fails before any access. -/
def trim_back_chk (data : List Nat) (p : Int) : Option (List Nat) :=
  match p with
  | Int.ofNat n => trim_back_from_chk data n
  | Int.negSucc _ => some data

/-- The loop of `discard_line`, checked. -/
def discard_loop_chk (end_ : Nat) : Nat → List Nat → Nat → Option (List Nat × Nat)
  | 0, data, p =>
    if p < end_ then (rd_chk data p).bind fun c => if c ≠ 10 then none else some (data, p)
    else some (data, p)
  | fuel + 1, data, p =>
    if p < end_ then
      (rd_chk data p).bind fun c =>
        if c ≠ 10 then (wr_chk data p 0).bind fun d => discard_loop_chk end_ fuel d (p + 1)
        else some (data, p)
    else some (data, p)

/-- Source `discard_line`, checked. -/
def discard_line_chk (data : List Nat) (end_ : Nat) (p : Nat) : Option (List Nat × Nat) :=
  discard_loop_chk end_ (end_ - p) data p

/-- The loop of `unescape_quoted_value`, checked. -/
def unescape_loop_chk (end_ : Nat) : Nat → List Nat → Nat → Nat → Option (List Nat × Nat)
  | 0, data, p, q =>
    if p < end_ then
      (rd_chk data p).bind fun c => if c ≠ 34 ∧ c ≠ 13 ∧ c ≠ 10 then none else some (data, q)
    else some (data, q)
  | fuel + 1, data, p, q =>
    if p < end_ then
      (rd_chk data p).bind fun c =>
        if c ≠ 34 ∧ c ≠ 13 ∧ c ≠ 10 then
          if c = 92 then
            (rd_chk data (p + 1)).bind fun e =>
              if e = 114 then
                (wr_chk data q 13).bind fun d => unescape_loop_chk end_ fuel d (p + 2) (q + 1)
              else if e = 110 then
                (wr_chk data q 10).bind fun d => unescape_loop_chk end_ fuel d (p + 2) (q + 1)
              else if e = 116 then
                (wr_chk data q 9).bind fun d => unescape_loop_chk end_ fuel d (p + 2) (q + 1)
              else if e = 13 ∨ e = 10 ∨ e = 0 then some (data, q)
              else (wr_chk data q e).bind fun d => unescape_loop_chk end_ fuel d (p + 2) (q + 1)
          else (wr_chk data q c).bind fun d => unescape_loop_chk end_ fuel d (p + 1) (q + 1)
        else some (data, q)
    else some (data, q)

/-- Source `unescape_quoted_value`, checked. -/
def unescape_quoted_value_chk (data : List Nat) (end_ : Nat) (p : Nat) :
    Option (List Nat × Nat) :=
  unescape_loop_chk end_ (end_ - (p + 1)) data (p + 1) p

/-- The `do ... while` loop of `split_data`, checked. -/
def eq_loop_chk : Nat → List Nat → Nat → Option (List Nat × Nat)
  | 0, _, _ => none
  | fuel + 1, data, p =>
    (wr_chk data p 0).bind fun d =>
      (rd_chk d (p + 1)).bind fun c =>
        if c = 32 ∨ c = 13 ∨ c = 9 then eq_loop_chk fuel d (p + 1) else some (d, p + 1)

/-- The value part of the `default:` arm of `split_data`, checked. -/
def split_value_chk (data : List Nat) (end_ : Nat) (line_start p : Nat) :
    Option (List Nat × Nat) :=
  (rd_chk data p).bind fun c =>
    if c = 10 ∨ c = 0 then discard_line_chk data end_ line_start
    else if c = 34 then
      (unescape_quoted_value_chk data end_ p).bind fun u =>
        if u.2 = p then discard_line_chk u.1 end_ line_start
        else discard_line_chk u.1 end_ u.2
    else
      (strcspn_chk [10] (data.drop p)).bind fun n =>
        (trim_back_chk data (((p + n : Nat) : Int) - 1)).map fun d => (d, p + n)

/-- The `default:` arm of `split_data`, checked. -/
def split_default_chk (data : List Nat) (end_ : Nat) (line_start : Nat) :
    Option (List Nat × Nat) :=
  (strcspn_chk [61, 10] (data.drop line_start)).bind fun n =>
    (rd_chk data (line_start + n)).bind fun c =>
      if c ≠ 61 then discard_line_chk data end_ line_start
      else
        (trim_back_chk data (((line_start + n : Nat) : Int) - 1)).bind fun d =>
          (eq_loop_chk (d.length - (line_start + n)) d (line_start + n)).bind fun r =>
            split_value_chk r.1 end_ line_start r.2

/-- One iteration of the main loop of `split_data`, checked. -/
def split_step_chk (data : List Nat) (end_ : Nat) (p : Nat) : Option (List Nat × Nat) :=
  (rd_chk data p).bind fun c =>
    if c = 13 ∨ c = 10 ∨ c = 9 ∨ c = 32 then (wr_chk data p 0).map fun d => (d, p + 1)
    else if c = 0 then some (data, p + 1)
    else if c = 91 then
      (strcspn_chk [93, 10] (data.drop p)).bind fun n =>
        (wr_chk data (p + n) 0).map fun d => (d, p + n)
    else if c = 59 then discard_line_chk data end_ p
    else split_default_chk data end_ p

/-- The main loop of `split_data`, checked; the result is the memory and the
cursor when the loop is left. -/
def split_loop_chk (end_ : Nat) : Nat → List Nat → Nat → Option (List Nat × Nat)
  | 0, data, p => if p < end_ then none else some (data, p)
  | fuel + 1, data, p =>
    if p < end_ then
      (split_step_chk data end_ p).bind fun r => split_loop_chk end_ fuel r.1 r.2
    else some (data, p)

/-- Source `split_data`, checked: the tokenized buffer and the final cursor. -/
def split_data_chk (ini : ini_file) : Option (ini_file × Nat) :=
  (split_loop_chk ini.end_ ini.end_ ini.data 0).map fun r => ({ ini with data := r.1 }, r.2)

/-- The values of the cursor `p` of the main loop of `split_data` at each test
of the guard `p < ini->end`, the last test included. -/
def split_cursors (end_ : Nat) : Nat → List Nat → Nat → List Nat
  | 0, _, p => [p]
  | fuel + 1, data, p =>
    if p < end_ then
      p :: split_cursors end_ fuel (split_step data end_ p).1 (split_step data end_ p).2
    else [p]

/-- The bytes the `switch (*p)` of the main loop of `split_data` dispatches on,
each with its index: one entry per iteration of the loop.  The entry `(i, 59)`
says that the `case ';'` arm ran at index `i`, that is, that the byte at `i`
was taken as the start of a comment; `(i, 91)` says the same of the `case '['`
arm and the start of a section header. -/
def split_dispatch (end_ : Nat) : Nat → List Nat → Nat → List (Nat × Nat)
  | 0, _, _ => []
  | fuel + 1, data, p =>
    if p < end_ then
      (p, rd data p) ::
        split_dispatch end_ fuel (split_step data end_ p).1 (split_step data end_ p).2
    else []

/-! # Lemmas -/

/-! ## Reading and writing the buffer -/

@[simp] theorem rd_nil (i : Nat) : rd [] i = 0 := by simp [rd]

@[simp] theorem rd_cons_zero (c : Nat) (s : List Nat) : rd (c :: s) 0 = c := rfl

@[simp] theorem rd_cons_succ (c : Nat) (s : List Nat) (i : Nat) :
    rd (c :: s) (i + 1) = rd s i := rfl

theorem rd_of_length_le {d : List Nat} {i : Nat} (h : d.length ≤ i) : rd d i = 0 := by
  simp [rd, List.getElem?_eq_none h]

theorem lt_length_of_rd_ne_zero {d : List Nat} {i : Nat} (h : rd d i ≠ 0) : i < d.length := by
  by_contra hlt
  exact h (rd_of_length_le (by omega))

theorem rd_append_left {X : List Nat} (Y : List Nat) {i : Nat} (h : i < X.length) :
    rd (X ++ Y) i = rd X i := by
  simp [rd, List.getElem?_append_left h]

theorem rd_append_right (X Y : List Nat) (i : Nat) :
    rd (X ++ Y) (X.length + i) = rd Y i := by
  simp [rd, List.getElem?_append_right]

theorem rd_drop (d : List Nat) (p i : Nat) : rd (d.drop p) i = rd d (p + i) := by
  simp [rd, List.getElem?_drop]

theorem rd_drop_zero (d : List Nat) (p : Nat) : rd (d.drop p) 0 = rd d p := by
  simpa using rd_drop d p 0

theorem rd_set_self {d : List Nat} {i : Nat} (v : Nat) (h : i < d.length) :
    rd (d.set i v) i = v := by
  simp [rd, h]

theorem rd_set_ne (d : List Nat) {i j : Nat} (v : Nat) (h : i ≠ j) :
    rd (d.set i v) j = rd d j := by
  simp [rd, List.getElem?_set_ne h]

theorem rd_set_zero (d : List Nat) (i j : Nat) :
    rd (d.set i 0) j = if i = j then 0 else rd d j := by
  by_cases h : i = j
  · subst h
    by_cases hl : i < d.length
    · simp [rd_set_self 0 hl]
    · simp [rd_of_length_le (d := d.set i 0) (by simpa using Nat.le_of_not_lt hl)]
  · simp [h, rd_set_ne d 0 h]

theorem headD_eq_rd (s : List Nat) : s.headD 0 = rd s 0 := by
  cases s <;> rfl

/-! ## Case folding: `strcmpci` does not see the case of ASCII letters -/

theorem sub_ne_zero_bool (a b : Nat) : (((a : Int) - (b : Int)) != 0) = (a != b) := by
  by_cases h : a = b
  · subst h; simp [bne]
  · have : (a : Int) - (b : Int) ≠ 0 := by omega
    simp [bne, h, this]

theorem tolower_eq_zero {x : Nat} : tolower x = 0 ↔ x = 0 := by
  unfold tolower; split <;> omega

theorem strcmpci_nil (b : List Nat) : strcmpci [] b = (b.headD 0 == 0) := by
  have h0 : tolower 0 = 0 := rfl
  simp only [strcmpci, sub_ne_zero_bool, h0]
  generalize b.headD 0 = y
  by_cases h : y = 0
  · subst h; rfl
  · have : ¬ 0 = tolower y := fun h' => h (tolower_eq_zero.1 h'.symm)
    simp [bne, h, this]

theorem strcmpci_cons (x : Nat) (a b : List Nat) :
    strcmpci (x :: a) b =
      if tolower x ≠ tolower (b.headD 0) then false
      else if x = 0 then true else strcmpci a b.tail := by
  simp only [strcmpci, sub_ne_zero_bool]
  generalize b.headD 0 = y
  by_cases h : tolower x = tolower y
  · by_cases h0 : x = 0
    · subst h0; simp [bne, h]
    · simp [bne, h, h0]
  · simp [bne, h]

theorem same_up_to_case_head {x y : Nat}
    (h : (x == y || (is_letter x && is_letter y && tolower x == tolower y)) = true) :
    tolower x = tolower y ∧ (x = 0 ↔ y = 0) := by
  simp only [Bool.or_eq_true, Bool.and_eq_true, beq_iff_eq, is_letter, decide_eq_true_eq] at h
  rcases h with h | ⟨⟨h1, h2⟩, h3⟩
  · subst h; simp
  · refine ⟨h3, ?_⟩; omega

theorem strcmpci_congr_left : ∀ (a a' b : List Nat), same_up_to_case a a' = true →
    strcmpci a b = strcmpci a' b
  | [], [], _, _ => rfl
  | [], _ :: _, _, h => by simp [same_up_to_case] at h
  | _ :: _, [], _, h => by simp [same_up_to_case] at h
  | x :: a, y :: a', b, h => by
    simp only [same_up_to_case, Bool.and_eq_true] at h
    obtain ⟨h1, h2⟩ := same_up_to_case_head h.1
    rw [strcmpci_cons, strcmpci_cons, h1, strcmpci_congr_left a a' b.tail h.2]
    simp only [h2]

theorem strcmpci_congr_right : ∀ (b a a' : List Nat), same_up_to_case a a' = true →
    strcmpci b a = strcmpci b a'
  | [], [], [], _ => rfl
  | [], [], _ :: _, h => by simp [same_up_to_case] at h
  | [], _ :: _, [], h => by simp [same_up_to_case] at h
  | [], x :: a, y :: a', h => by
    simp only [same_up_to_case, Bool.and_eq_true] at h
    obtain ⟨_, h2⟩ := same_up_to_case_head h.1
    simp only [strcmpci_nil, List.headD_cons]
    by_cases hx : x = 0
    · have := h2.1 hx; simp [hx, this]
    · have : ¬ y = 0 := fun hy => hx (h2.2 hy)
      simp [hx, this]
  | _ :: _, [], [], _ => rfl
  | _ :: _, [], _ :: _, h => by simp [same_up_to_case] at h
  | _ :: _, _ :: _, [], h => by simp [same_up_to_case] at h
  | z :: b, x :: a, y :: a', h => by
    simp only [same_up_to_case, Bool.and_eq_true] at h
    obtain ⟨h1, _⟩ := same_up_to_case_head h.1
    rw [strcmpci_cons, strcmpci_cons]
    simp only [List.headD_cons, List.tail_cons, h1, strcmpci_congr_right b a a' h.2]

theorem section_matches_congr (s s' : Option (List Nat)) (cur : List Nat)
    (hs : same_section_up_to_case s s' = true) :
    section_matches s' cur = section_matches s cur := by
  cases s with
  | none => cases s' with
    | none => rfl
    | some t => simp [same_section_up_to_case] at hs
  | some t => cases s' with
    | none => simp [same_section_up_to_case] at hs
    | some t' =>
      simp only [same_section_up_to_case] at hs
      exact (strcmpci_congr_left t t' cur hs).symm

theorem ini_get_loop_congr (ini : ini_file) (s s' : Option (List Nat)) (k k' : List Nat)
    (hs : same_section_up_to_case s s' = true) (hk : same_up_to_case k k' = true) :
    ∀ (fuel : Nat) (cur : List Nat) (p : Nat),
      ini_get_loop ini s' k' fuel cur p = ini_get_loop ini s k fuel cur p := by
  intro fuel
  induction fuel with
  | zero => intros; rfl
  | succ f ih =>
    intro cur p
    simp only [ini_get_loop]
    rw [ih, ih, strcmpci_congr_right _ k k' hk, section_matches_congr s s' cur hs]

/-! ## `strtoll` consumes a prefix of the text -/

theorem cstr_drop : ∀ (s : List Nat) (n : Nat), n ≤ (cstr s).length →
    cstr (s.drop n) = (cstr s).drop n
  | _, 0, _ => rfl
  | [], _ + 1, h => by simp [cstr] at h
  | c :: s, n + 1, h => by
    by_cases hc : c = 0
    · simp [cstr, hc] at h
    · simp only [cstr, hc, if_false, List.length_cons] at h
      simp only [List.drop_succ_cons, cstr, hc, if_false]
      exact cstr_drop s n (by omega)

theorem rd_cstr_length : ∀ (s : List Nat), rd s (cstr s).length = 0
  | [] => rfl
  | c :: s => by
    by_cases hc : c = 0
    · simp [cstr, hc]
    · simp only [cstr, hc, if_false, List.length_cons, rd_cons_succ]
      exact rd_cstr_length s

theorem rd_lt_cstr_length : ∀ (s : List Nat) (i : Nat), i < (cstr s).length →
    rd s i ≠ 0
  | [], _, h => by simp [cstr] at h
  | c :: s, i, h => by
    by_cases hc : c = 0
    · simp [cstr, hc] at h
    · simp only [cstr, hc, if_false, List.length_cons] at h
      cases i with
      | zero => simpa using hc
      | succ i =>
        simp only [rd_cons_succ]
        exact rd_lt_cstr_length s i (by omega)

theorem count_space_le : ∀ (s : List Nat), count_space s ≤ (cstr s).length
  | [] => by simp [count_space]
  | c :: s => by
    simp only [count_space]
    split
    · rename_i h
      have hc : c ≠ 0 := by
        intro h0; subst h0; simp [isspace] at h
      simp only [cstr, hc, if_false, List.length_cons]
      exact Nat.succ_le_succ (count_space_le s)
    · exact Nat.zero_le _

theorem scan_digits_le : ∀ (s : List Nat) (acc : Nat), (scan_digits acc s).2 ≤ (cstr s).length
  | [], _ => by simp [scan_digits]
  | c :: s, acc => by
    simp only [scan_digits]
    split
    · rename_i h
      have hc : c ≠ 0 := by
        intro h0; subst h0; simp [isdigit] at h
      simp only [cstr, hc, if_false, List.length_cons]
      exact Nat.succ_le_succ (scan_digits_le s _)
    · exact Nat.zero_le _

theorem sign_le (s : List Nat) :
    (if s.headD 0 = 45 ∨ s.headD 0 = 43 then 1 else 0) ≤ (cstr s).length := by
  cases s with
  | nil => simp
  | cons c s =>
    simp only [List.headD_cons]
    split
    · rename_i h
      have hc : c ≠ 0 := by omega
      simp [cstr, hc]
    · exact Nat.zero_le _

theorem strtoll_consumed_le (s : List Nat) : (strtoll s).consumed ≤ (cstr s).length := by
  have h1 := count_space_le s
  have h2 := sign_le (s.drop (count_space s))
  have h3 := scan_digits_le
    ((s.drop (count_space s)).drop
      (if (s.drop (count_space s)).headD 0 = 45 ∨ (s.drop (count_space s)).headD 0 = 43
        then 1 else 0)) 0
  rw [cstr_drop _ _ h2, cstr_drop _ _ h1] at h3
  rw [cstr_drop _ _ h1] at h2
  simp only [List.length_drop] at h2 h3
  unfold strtoll
  simp only
  generalize (if (s.drop (count_space s)).headD 0 = 45 ∨ (s.drop (count_space s)).headD 0 = 43
        then 1 else 0) = sg at h2 h3 ⊢
  generalize scan_digits 0 (List.drop sg (List.drop (count_space s) s)) = r at h3 ⊢
  split_ifs <;> simp only <;> omega

/-- The test `*eptr` of `ini_getint` is false exactly when the whole text was consumed. -/
theorem eptr_zero_iff (s : List Nat) :
    rd s (strtoll s).consumed = 0 ↔ (strtoll s).consumed = (cstr s).length := by
  constructor
  · intro h
    by_contra hne
    exact rd_lt_cstr_length s _ (lt_of_le_of_ne (strtoll_consumed_le s) hne) h
  · intro h; rw [h]; exact rd_cstr_length s

/-! ## Every helper keeps the buffer length and moves its pointer forward -/

theorem discard_loop_length (e : Nat) : ∀ (f : Nat) (d : List Nat) (p : Nat),
    (discard_loop e f d p).1.length = d.length
  | 0, _, _ => rfl
  | f + 1, d, p => by
    simp only [discard_loop]
    split
    · rw [discard_loop_length e f]; simp
    · rfl

theorem discard_loop_ge (e : Nat) : ∀ (f : Nat) (d : List Nat) (p : Nat),
    p ≤ (discard_loop e f d p).2
  | 0, _, _ => Nat.le_refl _
  | f + 1, d, p => by
    simp only [discard_loop]
    split
    · exact Nat.le_of_succ_le (discard_loop_ge e f _ _)
    · exact Nat.le_refl _

theorem discard_line_gt {d : List Nat} {e p : Nat} (hp : p < e) (hc : rd d p ≠ 10) :
    p < (discard_line d e p).2 := by
  unfold discard_line
  obtain ⟨f, hf⟩ : ∃ f, e - p = f + 1 := ⟨e - p - 1, by omega⟩
  rw [hf]
  simp only [discard_loop, hp, hc, ne_eq, not_false_eq_true, and_self, if_true]
  exact discard_loop_ge e f _ _

theorem trim_back_from_length : ∀ (n : Nat) (d : List Nat),
    (trim_back_from d n).length = d.length
  | 0, d => by
    simp only [trim_back_from]
    split <;> simp
  | n + 1, d => by
    simp only [trim_back_from]
    split
    · rw [trim_back_from_length n]; simp
    · rfl

theorem trim_back_length (d : List Nat) (i : Int) : (trim_back d i).length = d.length := by
  unfold trim_back
  split
  · exact trim_back_from_length _ _
  · rfl

/-- `trim_back` only overwrites spaces, tabs and carriage returns. -/
theorem rd_trim_back_from : ∀ (n : Nat) (d : List Nat) (k : Nat),
    ¬ (rd d k = 32 ∨ rd d k = 9 ∨ rd d k = 13) → rd (trim_back_from d n) k = rd d k
  | 0, d, k, hk => by
    simp only [trim_back_from]
    split
    · rename_i h
      rw [rd_set_zero]
      split
      · rename_i h0; subst h0; exact absurd h hk
      · rfl
    · rfl
  | n + 1, d, k, hk => by
    simp only [trim_back_from]
    split
    · rename_i h
      have hne : n + 1 ≠ k := fun h0 => by subst h0; exact hk h
      rw [rd_trim_back_from n _ k (by rw [rd_set_ne d 0 hne]; exact hk), rd_set_ne d 0 hne]
    · rfl

theorem rd_trim_back (d : List Nat) (i : Int) (k : Nat)
    (hk : ¬ (rd d k = 32 ∨ rd d k = 9 ∨ rd d k = 13)) : rd (trim_back d i) k = rd d k := by
  unfold trim_back
  split
  · exact rd_trim_back_from _ _ _ hk
  · rfl

theorem eq_loop_length : ∀ (f : Nat) (d : List Nat) (p : Nat),
    (eq_loop f d p).1.length = d.length
  | 0, _, _ => rfl
  | f + 1, d, p => by
    simp only [eq_loop]
    split
    · rw [eq_loop_length f]; simp
    · simp

theorem eq_loop_gt : ∀ (f : Nat) (d : List Nat) (p : Nat), p < (eq_loop (f + 1) d p).2
  | 0, d, p => by
    simp only [eq_loop]
    split <;> exact Nat.lt_succ_self _
  | f + 1, d, p => by
    rw [eq_loop]
    split
    · exact Nat.lt_of_succ_lt (eq_loop_gt f _ _)
    · exact Nat.lt_succ_self _

theorem rd_eq_loop_lt : ∀ (f : Nat) (d : List Nat) (p k : Nat), k < p →
    rd (eq_loop f d p).1 k = rd d k
  | 0, _, _, _, _ => rfl
  | f + 1, d, p, k, hk => by
    simp only [eq_loop]
    split
    · rw [rd_eq_loop_lt f _ _ k (by omega), rd_set_ne d 0 (by omega)]
    · simp only; rw [rd_set_ne d 0 (by omega)]

theorem rd_eq_loop_self : ∀ (f : Nat) (d : List Nat) (p : Nat),
    rd (eq_loop (f + 1) d p).1 p = 0 := by
  intro f d p
  rw [eq_loop]
  split
  · rw [rd_eq_loop_lt f _ _ p (by omega), rd_set_zero]; simp
  · rw [rd_set_zero]; simp

theorem unescape_loop_length (e : Nat) : ∀ (f : Nat) (d : List Nat) (p q : Nat),
    (unescape_loop e f d p q).1.length = d.length
  | 0, _, _, _ => rfl
  | f + 1, d, p, q => by
    simp only [unescape_loop]
    split_ifs <;> first | rfl | (rw [unescape_loop_length e f]; simp)

theorem unescape_loop_ge (e : Nat) : ∀ (f : Nat) (d : List Nat) (p q : Nat),
    q ≤ (unescape_loop e f d p q).2
  | 0, _, _, _ => Nat.le_refl _
  | f + 1, d, p, q => by
    simp only [unescape_loop]
    split_ifs <;> first | exact Nat.le_refl _ | exact Nat.le_of_succ_le (unescape_loop_ge e f _ _ _)

/-- When `unescape_quoted_value` hands back its starting position it has not
written anything. -/
theorem unescape_loop_eq (e : Nat) : ∀ (f : Nat) (d : List Nat) (p q : Nat),
    (unescape_loop e f d p q).2 = q → (unescape_loop e f d p q).1 = d
  | 0, _, _, _, _ => rfl
  | f + 1, d, p, q, h => by
    simp only [unescape_loop] at h ⊢
    split_ifs at h ⊢ <;>
      first
      | rfl
      | (have hge := unescape_loop_ge e f (d.set q 13) (p + 2) (q + 1); omega)
      | (have hge := unescape_loop_ge e f (d.set q 10) (p + 2) (q + 1); omega)
      | (have hge := unescape_loop_ge e f (d.set q 9) (p + 2) (q + 1); omega)
      | (have hge := unescape_loop_ge e f (d.set q (rd d (p + 1))) (p + 2) (q + 1); omega)
      | (have hge := unescape_loop_ge e f (d.set q (rd d p)) (p + 1) (q + 1); omega)

theorem strcspn_pos (rej : List Nat) (s : List Nat) (h0 : rd s 0 ≠ 0) (hr : rd s 0 ∉ rej) :
    0 < strcspn rej s := by
  cases s with
  | nil => simp at h0
  | cons c s =>
    simp only [rd_cons_zero] at h0 hr
    simp [strcspn, h0, hr]

theorem split_value_length (d : List Nat) (e ls p : Nat) :
    (split_value d e ls p).1.length = d.length := by
  unfold split_value discard_line unescape_quoted_value
  simp only
  split_ifs <;>
    simp only [discard_loop_length, unescape_loop_length, trim_back_length]

theorem split_default_length (d : List Nat) (e ls : Nat) :
    (split_default d e ls).1.length = d.length := by
  unfold split_default
  simp only
  split_ifs
  · exact discard_loop_length _ _ _ _
  · rw [split_value_length, eq_loop_length, trim_back_length]

theorem split_step_length (d : List Nat) (e p : Nat) :
    (split_step d e p).1.length = d.length := by
  unfold split_step
  simp only
  split_ifs <;>
    first
    | rfl
    | exact List.length_set _ _ _
    | exact discard_loop_length _ _ _ _
    | exact split_default_length _ _ _

theorem split_value_gt (d : List Nat) (e ls p : Nat) (hls : ls < e) (hp : ls < p)
    (hc : rd d ls ≠ 10) : ls < (split_value d e ls p).2 := by
  unfold split_value
  simp only
  split_ifs with h1 h2 h3
  · exact discard_line_gt hls hc
  · unfold unescape_quoted_value at h3 ⊢
    rw [unescape_loop_eq _ _ _ _ _ h3]
    exact discard_line_gt hls hc
  · unfold unescape_quoted_value discard_line
    have a2 := unescape_loop_ge e (e - (p + 1)) d (p + 1) p
    exact Nat.lt_of_lt_of_le (Nat.lt_of_lt_of_le hp a2) (discard_loop_ge _ _ _ _)
  · simp only; omega

theorem split_default_gt (d : List Nat) (e p : Nat) (hp : p < e)
    (hb : ¬ (rd d p = 32 ∨ rd d p = 9 ∨ rd d p = 13)) (hc : rd d p ≠ 10) :
    p < (split_default d e p).2 := by
  unfold split_default
  simp only
  split_ifs with h5
  · exact discard_line_gt hp hc
  · set p1 := p + strcspn [61, 10] (d.drop p) with hp1
    have h61 : rd d p1 = 61 := not_not.1 h5
    have hlen : p1 < d.length := lt_length_of_rd_ne_zero (by rw [h61]; decide)
    obtain ⟨f, hf⟩ : ∃ f, (trim_back d ((p1 : Int) - 1)).length - p1 = f + 1 :=
      ⟨d.length - p1 - 1, by rw [trim_back_length]; omega⟩
    rw [hf]
    have a1 := eq_loop_gt f (trim_back d ((p1 : Int) - 1)) p1
    refine split_value_gt _ _ _ _ hp (by omega) ?_
    by_cases hlt : p < p1
    · rw [rd_eq_loop_lt _ _ _ _ hlt, rd_trim_back _ _ _ hb]
      exact hc
    · have : p = p1 := by omega
      rw [this, rd_eq_loop_self]; decide

/-- Every iteration of the main loop of `split_data` moves the cursor forward. -/
theorem split_step_gt (d : List Nat) (e p : Nat) (hp : p < e) : p < (split_step d e p).2 := by
  unfold split_step
  simp only
  split_ifs with h1 h2 h3 h4
  · exact Nat.lt_succ_self _
  · exact Nat.lt_succ_self _
  · have := strcspn_pos [93, 10] (d.drop p) (by rw [rd_drop_zero]; exact h2)
      (by rw [rd_drop_zero, h3]; decide)
    simp only; omega
  · exact discard_line_gt hp (by rw [h4]; decide)
  · exact split_default_gt d e p hp (by omega) (by omega)

/-- Fuel beyond `end - p` does not change the result of the main loop. -/
theorem split_loop_fuel (e : Nat) : ∀ (f : Nat) (d : List Nat) (p : Nat), e - p ≤ f →
    split_loop e f d p = split_loop e (e - p) d p
  | 0, d, p, h => by
    have : e - p = 0 := by omega
    rw [this]
  | f + 1, d, p, h => by
    by_cases hp : p < e
    · obtain ⟨n, hn⟩ : ∃ n, e - p = n + 1 := ⟨e - p - 1, by omega⟩
      have hgt := split_step_gt d e p hp
      rw [hn]
      simp only [split_loop, hp, if_true]
      rw [split_loop_fuel e f _ _ (by omega), split_loop_fuel e n _ _ (by omega)]
    · have : e - p = 0 := by omega
      rw [this]
      simp [split_loop, hp]

/-! ## Shifting: a run that starts behind a prefix `Z` does not depend on `Z` -/

theorem set_shift (Z D : List Nat) (i v : Nat) :
    (Z ++ D).set (Z.length + i) v = Z ++ D.set i v := by
  rw [List.set_append_right _ _ (Nat.le_add_right _ _)]
  simp

theorem drop_shift (Z D : List Nat) (i : Nat) : (Z ++ D).drop (Z.length + i) = D.drop i :=
  List.drop_append i

theorem discard_loop_shift (Z : List Nat) (e : Nat) : ∀ (f : Nat) (D : List Nat) (p : Nat),
    discard_loop (Z.length + e) f (Z ++ D) (Z.length + p) =
      (Z ++ (discard_loop e f D p).1, Z.length + (discard_loop e f D p).2)
  | 0, _, _ => rfl
  | f + 1, D, p => by
    simp only [discard_loop, rd_append_right, Nat.add_lt_add_iff_left]
    split
    · rw [set_shift, Nat.add_assoc, discard_loop_shift Z e f]
    · rfl

theorem discard_line_shift (Z D : List Nat) (e p : Nat) :
    discard_line (Z ++ D) (Z.length + e) (Z.length + p) =
      (Z ++ (discard_line D e p).1, Z.length + (discard_line D e p).2) := by
  unfold discard_line
  rw [Nat.add_sub_add_left, discard_loop_shift]

theorem eq_loop_shift (Z : List Nat) : ∀ (f : Nat) (D : List Nat) (p : Nat),
    eq_loop f (Z ++ D) (Z.length + p) =
      (Z ++ (eq_loop f D p).1, Z.length + (eq_loop f D p).2)
  | 0, _, _ => rfl
  | f + 1, D, p => by
    simp only [eq_loop, set_shift, Nat.add_assoc, rd_append_right]
    split
    · exact eq_loop_shift Z f _ _
    · rfl

theorem unescape_loop_shift (Z : List Nat) (e : Nat) : ∀ (f : Nat) (D : List Nat) (p q : Nat),
    unescape_loop (Z.length + e) f (Z ++ D) (Z.length + p) (Z.length + q) =
      (Z ++ (unescape_loop e f D p q).1, Z.length + (unescape_loop e f D p q).2)
  | 0, _, _, _ => rfl
  | f + 1, D, p, q => by
    simp only [unescape_loop, set_shift, Nat.add_assoc, rd_append_right,
      Nat.add_lt_add_iff_left]
    split_ifs <;>
      first
      | rfl
      | exact unescape_loop_shift Z e f _ _ _

theorem unescape_quoted_value_shift (Z D : List Nat) (e p : Nat) :
    unescape_quoted_value (Z ++ D) (Z.length + e) (Z.length + p) =
      (Z ++ (unescape_quoted_value D e p).1, Z.length + (unescape_quoted_value D e p).2) := by
  unfold unescape_quoted_value
  rw [Nat.add_assoc, Nat.add_sub_add_left, unescape_loop_shift]

theorem trim_back_stop (Z D : List Nat) (hZ : closed_left Z) (i : Int)
    (hi : i = (Z.length : Int) - 1) : trim_back (Z ++ D) i = Z ++ D := by
  subst hi
  by_cases hnil : Z = []
  · subst hnil; rfl
  · have hZ : ¬ (rd Z (Z.length - 1) = 32 ∨ rd Z (Z.length - 1) = 9 ∨ rd Z (Z.length - 1) = 13) :=
      hZ.resolve_left hnil
    have hpos : 0 < Z.length := List.length_pos.2 hnil
    obtain ⟨n, hn⟩ : ∃ n, Z.length = n + 1 := ⟨Z.length - 1, by omega⟩
    have : ((Z.length : Int) - 1) = Int.ofNat n := by simp [hn]
    rw [this]
    have hr : rd (Z ++ D) n = rd Z (Z.length - 1) := by
      rw [rd_append_left D (by omega)]; congr 1; omega
    simp only [trim_back]
    cases n with
    | zero => simp only [trim_back_from, hr, hZ, if_false]
    | succ m => simp only [trim_back_from, hr, hZ, if_false]

theorem trim_back_from_shift (Z : List Nat) (hZ : closed_left Z) : ∀ (n : Nat) (D : List Nat),
    trim_back_from (Z ++ D) (Z.length + n) = Z ++ trim_back_from D n
  | 0, D => by
    have hr : rd (Z ++ D) (Z.length) = rd D 0 := rd_append_right Z D 0
    have hset : (Z ++ D).set Z.length 0 = Z ++ D.set 0 0 := set_shift Z D 0 0
    have hstop := trim_back_stop Z (D.set 0 0) hZ ((Z.length : Int) - 1) rfl
    cases hZl : Z.length with
    | zero =>
      rw [List.length_eq_zero] at hZl; subst hZl; rfl
    | succ m =>
      rw [hZl] at hr hset hstop
      simp only [Nat.add_zero, trim_back_from, hr]
      split
      · rw [hset]
        have : ((m + 1 : Nat) : Int) - 1 = Int.ofNat m := by simp
        rw [this] at hstop
        simpa only [trim_back] using hstop
      · rfl
  | n + 1, D => by
    have hr : rd (Z ++ D) (Z.length + (n + 1)) = rd D (n + 1) := rd_append_right Z D (n + 1)
    have ih := trim_back_from_shift Z hZ n (D.set (n + 1) 0)
    rw [← Nat.add_assoc] at hr ⊢
    simp only [trim_back_from, hr]
    split
    · rw [Nat.add_assoc, set_shift, ih]
    · rfl

theorem trim_back_shift (Z D : List Nat) (hZ : closed_left Z) (p : Nat) :
    trim_back (Z ++ D) (((Z.length + p : Nat) : Int) - 1) = Z ++ trim_back D ((p : Int) - 1) := by
  cases p with
  | zero =>
    rw [trim_back_stop Z D hZ _ (by simp)]
    rfl
  | succ n =>
    have h1 : (((Z.length + (n + 1) : Nat) : Int) - 1) = Int.ofNat (Z.length + n) := by
      simp; omega
    have h2 : (((n + 1 : Nat) : Int) - 1) = Int.ofNat n := by simp
    rw [h1, h2]
    simp only [trim_back]
    exact trim_back_from_shift Z hZ n D

theorem split_value_shift (Z D : List Nat) (hZ : closed_left Z) (e ls p : Nat) :
    split_value (Z ++ D) (Z.length + e) (Z.length + ls) (Z.length + p) =
      (Z ++ (split_value D e ls p).1, Z.length + (split_value D e ls p).2) := by
  unfold split_value
  simp only [rd_append_right, drop_shift, Nat.add_assoc, discard_line_shift,
    trim_back_shift Z _ hZ, unescape_quoted_value_shift, Nat.add_left_cancel_iff]
  split_ifs <;> rfl

theorem split_default_shift (Z D : List Nat) (hZ : closed_left Z) (e p : Nat) :
    split_default (Z ++ D) (Z.length + e) (Z.length + p) =
      (Z ++ (split_default D e p).1, Z.length + (split_default D e p).2) := by
  unfold split_default
  simp only [rd_append_right, drop_shift, Nat.add_assoc, discard_line_shift,
    trim_back_shift Z _ hZ, List.length_append, Nat.add_sub_add_left, eq_loop_shift,
    trim_back_length, split_value_shift Z _ hZ]
  split_ifs <;> rfl

theorem split_step_shift (Z D : List Nat) (hZ : closed_left Z) (e p : Nat) :
    split_step (Z ++ D) (Z.length + e) (Z.length + p) =
      (Z ++ (split_step D e p).1, Z.length + (split_step D e p).2) := by
  unfold split_step
  simp only [rd_append_right, drop_shift, set_shift, Nat.add_assoc, discard_line_shift,
    split_default_shift Z _ hZ]
  split_ifs <;> rfl

theorem split_loop_shift (Z : List Nat) (hZ : closed_left Z) (e : Nat) :
    ∀ (f : Nat) (D : List Nat) (p : Nat),
      split_loop (Z.length + e) f (Z ++ D) (Z.length + p) = Z ++ split_loop e f D p
  | 0, _, _ => rfl
  | f + 1, D, p => by
    simp only [split_loop, Nat.add_lt_add_iff_left, split_step_shift Z D hZ]
    split
    · exact split_loop_shift Z hZ e f _ _
    · rfl

/-! ## Locality: an iteration that starts at or before a line feed at `j`
does not look or write beyond `j` -/

theorem set_append_lt (X Y : List Nat) {i : Nat} (v : Nat) (h : i < X.length) :
    (X ++ Y).set i v = X.set i v ++ Y :=
  List.set_append_left i v h

theorem drop_append_le (X Y : List Nat) {p : Nat} (h : p ≤ X.length) :
    (X ++ Y).drop p = X.drop p ++ Y :=
  List.drop_append_of_le_length h

theorem strcspn_local (rej : List Nat) (h10 : 10 ∈ rej) : ∀ (S : List Nat) (i : Nat) (Y : List Nat),
    rd S i = 10 → strcspn rej (S ++ Y) = strcspn rej S ∧ strcspn rej S ≤ i
  | [], i, Y, h => by simp at h
  | c :: S, i, Y, h => by
    simp only [List.cons_append, strcspn]
    split
    · exact ⟨rfl, Nat.zero_le _⟩
    · rename_i hc
      cases i with
      | zero => simp only [rd_cons_zero] at h; subst h; exact absurd (Or.inr h10) hc
      | succ i =>
        obtain ⟨h1, h2⟩ := strcspn_local rej h10 S i Y (by simpa using h)
        exact ⟨by simp only [List.append_eq, h1], Nat.succ_le_succ h2⟩

theorem strcspn_local_at (rej : List Nat) (h10 : 10 ∈ rej) (X Y : List Nat) (p j : Nat)
    (hp : p ≤ j) (hj : rd X j = 10) :
    strcspn rej ((X ++ Y).drop p) = strcspn rej (X.drop p) ∧ p + strcspn rej (X.drop p) ≤ j := by
  have hjl : j < X.length := lt_length_of_rd_ne_zero (by rw [hj]; decide)
  rw [drop_append_le X Y (by omega)]
  obtain ⟨h1, h2⟩ := strcspn_local rej h10 (X.drop p) (j - p) Y
    (by rw [rd_drop]; rw [show p + (j - p) = j by omega]; exact hj)
  exact ⟨h1, by omega⟩

theorem discard_loop_local (j : Nat) : ∀ (n : Nat) (X : List Nat) (p : Nat),
    j ≤ p + n → p ≤ j → rd X j = 10 →
    ∃ X' p', X'.length = X.length ∧ p ≤ p' ∧ p' ≤ j ∧ rd X' j = 10 ∧
      ∀ (Y : List Nat) (e f : Nat), X.length ≤ e → j < p + f →
        discard_loop e f (X ++ Y) p = (X' ++ Y, p')
  | n, X, p, hn, hp, hj => by
    have hjl : j < X.length := lt_length_of_rd_ne_zero (by rw [hj]; decide)
    by_cases hc : rd X p = 10
    · refine ⟨X, p, rfl, Nat.le_refl _, hp, hj, ?_⟩
      intro Y e f he hf
      cases f with
      | zero => rfl
      | succ f => simp [discard_loop, rd_append_left Y (show p < X.length by omega), hc]
    · have hpj : p ≠ j := fun h => hc (h ▸ hj)
      cases n with
      | zero => omega
      | succ n =>
        obtain ⟨X', p', h1, h2, h3, h4, h5⟩ := discard_loop_local j n (X.set p 0) (p + 1)
          (by omega) (by omega) (by rw [rd_set_ne X 0 hpj]; exact hj)
        refine ⟨X', p', by simpa using h1, by omega, h3, h4, ?_⟩
        intro Y e f he hf
        cases f with
        | zero => omega
        | succ f =>
          have hlt : p < X.length := by omega
          simp only [discard_loop, rd_append_left Y hlt, hc, ne_eq, not_false_eq_true, and_true,
            show p < e by omega, if_true, set_append_lt X Y 0 hlt]
          exact h5 Y e f (by simpa using he) (by omega)

theorem eq_loop_local (j : Nat) : ∀ (n : Nat) (X : List Nat) (p : Nat),
    j ≤ p + n → p < j → rd X j = 10 →
    ∃ X' p', X'.length = X.length ∧ p < p' ∧ p' ≤ j ∧ rd X' j = 10 ∧
      (∀ k, k < p → rd X' k = rd X k) ∧ rd X' p = 0 ∧
      ∀ (Y : List Nat) (f : Nat), j < p + f → eq_loop f (X ++ Y) p = (X' ++ Y, p')
  | n, X, p, hn, hp, hj => by
    have hjl : j < X.length := lt_length_of_rd_ne_zero (by rw [hj]; decide)
    have hlt : p < X.length := by omega
    have hj1 : rd (X.set p 0) j = 10 := by rw [rd_set_ne X 0 (by omega)]; exact hj
    by_cases hb : rd (X.set p 0) (p + 1) = 32 ∨ rd (X.set p 0) (p + 1) = 13 ∨
        rd (X.set p 0) (p + 1) = 9
    · have hpj : p + 1 ≠ j := by
        intro h; rw [h, hj1] at hb; omega
      cases n with
      | zero => omega
      | succ n =>
        obtain ⟨X', p', h1, h2, h3, h4, h5, h6, h7⟩ := eq_loop_local j n (X.set p 0) (p + 1)
          (by omega) (by omega) hj1
        refine ⟨X', p', by simpa using h1, by omega, h3, h4, ?_, ?_, ?_⟩
        · intro k hk
          rw [h5 k (by omega), rd_set_ne X 0 (by omega)]
        · rw [h5 p (by omega), rd_set_zero]; simp
        · intro Y f hf
          cases f with
          | zero => omega
          | succ f =>
            simp only [eq_loop, set_append_lt X Y 0 hlt,
              rd_append_left Y (show p + 1 < (X.set p 0).length by simp; omega), hb, if_true]
            exact h7 Y f (by omega)
    · refine ⟨X.set p 0, p + 1, by simp, by omega, by omega, hj1, ?_, ?_, ?_⟩
      · intro k hk; rw [rd_set_ne X 0 (by omega)]
      · rw [rd_set_zero]; simp
      · intro Y f hf
        cases f with
        | zero => omega
        | succ f =>
          simp only [eq_loop, set_append_lt X Y 0 hlt,
            rd_append_left Y (show p + 1 < (X.set p 0).length by simp; omega), hb, if_false]

theorem trim_back_from_local : ∀ (n : Nat) (X Y : List Nat), n < X.length →
    trim_back_from (X ++ Y) n = trim_back_from X n ++ Y
  | 0, X, Y, h => by
    simp only [trim_back_from, rd_append_left Y h]
    split
    · exact set_append_lt X Y 0 h
    · rfl
  | n + 1, X, Y, h => by
    simp only [trim_back_from, rd_append_left Y h]
    split
    · rw [set_append_lt X Y 0 h, trim_back_from_local n _ Y (by simp; omega)]
    · rfl

theorem trim_back_local (X Y : List Nat) (p : Nat) (h : p ≤ X.length) :
    trim_back (X ++ Y) ((p : Int) - 1) = trim_back X ((p : Int) - 1) ++ Y := by
  cases p with
  | zero => rfl
  | succ n =>
    have h2 : (((n + 1 : Nat) : Int) - 1) = Int.ofNat n := by simp
    rw [h2]
    simp only [trim_back]
    exact trim_back_from_local n X Y (by omega)

theorem unescape_loop_local (j : Nat) : ∀ (n : Nat) (X : List Nat) (p q : Nat),
    j ≤ p + n → q < p → p ≤ j → rd X j = 10 →
    ∃ X' q', X'.length = X.length ∧ q ≤ q' ∧ q' < j ∧ rd X' j = 10 ∧
      (∀ k, k < q → rd X' k = rd X k) ∧ (q' = q → X' = X) ∧
      ∀ (Y : List Nat) (e f : Nat), X.length ≤ e → j < p + f →
        unescape_loop e f (X ++ Y) p q = (X' ++ Y, q')
  | n, X, p, q, hn, hq, hp, hj => by
    have hjl : j < X.length := lt_length_of_rd_ne_zero (by rw [hj]; decide)
    have hlt : p < X.length := by omega
    have hql : q < X.length := by omega
    -- the loop stops at once
    have stop : (¬ (rd X p ≠ 34 ∧ rd X p ≠ 13 ∧ rd X p ≠ 10) ∨
        (rd X p = 92 ∧ (rd X (p + 1) = 13 ∨ rd X (p + 1) = 10 ∨ rd X (p + 1) = 0))) →
        ∃ X' q', X'.length = X.length ∧ q ≤ q' ∧ q' < j ∧ rd X' j = 10 ∧
          (∀ k, k < q → rd X' k = rd X k) ∧ (q' = q → X' = X) ∧
          ∀ (Y : List Nat) (e f : Nat), X.length ≤ e → j < p + f →
            unescape_loop e f (X ++ Y) p q = (X' ++ Y, q') := by
      intro hs
      refine ⟨X, q, rfl, Nat.le_refl _, by omega, hj, fun _ _ => rfl, fun _ => rfl, ?_⟩
      intro Y e f he hf
      cases f with
      | zero => rfl
      | succ f =>
        rcases hs with hs | ⟨hs1, hs2⟩
        · simp only [unescape_loop, rd_append_left Y hlt]
          rw [if_neg (fun h => hs h.2)]
        · have hp1 : p + 1 < X.length := by
            by_contra hcon
            have : p = j := by omega
            rw [this, hj] at hs1; omega
          have h114 : ¬ rd X (p + 1) = 114 := by omega
          have h110 : ¬ rd X (p + 1) = 110 := by omega
          have h116 : ¬ rd X (p + 1) = 116 := by omega
          simp only [unescape_loop, rd_append_left Y hlt, rd_append_left Y hp1, hs1, hs2,
            h114, h110, h116, if_true, if_false]
          split <;> rfl
    by_cases hc : rd X p ≠ 34 ∧ rd X p ≠ 13 ∧ rd X p ≠ 10
    · have hpj : p < j := by
        rcases Nat.lt_or_ge p j with h | h
        · exact h
        · have : p = j := by omega
          rw [this, hj] at hc; omega
      cases n with
      | zero => omega
      | succ n =>
        -- one more byte is written at `q` and the loop goes on from `p'`
        have cont : ∀ (v p' : Nat), p < p' → p' ≤ p + 2 → p' ≤ j →
            (∀ (Y : List Nat) (e f : Nat), X.length ≤ e →
              unescape_loop e (f + 1) (X ++ Y) p q =
                unescape_loop e f (X.set q v ++ Y) p' (q + 1)) →
            ∃ X' q', X'.length = X.length ∧ q ≤ q' ∧ q' < j ∧ rd X' j = 10 ∧
              (∀ k, k < q → rd X' k = rd X k) ∧ (q' = q → X' = X) ∧
              ∀ (Y : List Nat) (e f : Nat), X.length ≤ e → j < p + f →
                unescape_loop e f (X ++ Y) p q = (X' ++ Y, q') := by
          intro v p' hp1 hp2 hp3 hstep
          obtain ⟨X', q', h1, h2, h3, h4, h5, _, h7⟩ := unescape_loop_local j n (X.set q v) p'
            (q + 1) (by omega) (by omega) hp3 (by rw [rd_set_ne X v (by omega)]; exact hj)
          refine ⟨X', q', by simpa using h1, by omega, h3, h4, ?_, fun h => by omega, ?_⟩
          · intro k hk; rw [h5 k (by omega), rd_set_ne X v (by omega)]
          · intro Y e f he hf
            cases f with
            | zero => omega
            | succ f =>
              rw [hstep Y e f he]
              exact h7 Y e f (by simpa using he) (by omega)
        by_cases h92 : rd X p = 92
        · have hp1 : p + 1 < X.length := by omega
          by_cases hs2 : rd X (p + 1) = 13 ∨ rd X (p + 1) = 10 ∨ rd X (p + 1) = 0
          · exact stop (Or.inr ⟨h92, hs2⟩)
          · have hp2 : p + 2 ≤ j := by
              by_contra hcon
              have : p + 1 = j := by omega
              rw [this, hj] at hs2; omega
            by_cases h114 : rd X (p + 1) = 114
            · refine cont 13 (p + 2) (by omega) (by omega) hp2 ?_
              intro Y e f he
              rw [unescape_loop]
              simp only [rd_append_left Y hlt, rd_append_left Y hp1, set_append_lt X Y _ hql]
              rw [if_pos ⟨by omega, hc⟩, if_pos h92, if_pos h114]
            · by_cases h110 : rd X (p + 1) = 110
              · refine cont 10 (p + 2) (by omega) (by omega) hp2 ?_
                intro Y e f he
                rw [unescape_loop]
                simp only [rd_append_left Y hlt, rd_append_left Y hp1, set_append_lt X Y _ hql]
                rw [if_pos ⟨by omega, hc⟩, if_pos h92, if_neg h114, if_pos h110]
              · by_cases h116 : rd X (p + 1) = 116
                · refine cont 9 (p + 2) (by omega) (by omega) hp2 ?_
                  intro Y e f he
                  rw [unescape_loop]
                  simp only [rd_append_left Y hlt, rd_append_left Y hp1, set_append_lt X Y _ hql]
                  rw [if_pos ⟨by omega, hc⟩, if_pos h92, if_neg h114, if_neg h110, if_pos h116]
                · refine cont (rd X (p + 1)) (p + 2) (by omega) (by omega) hp2 ?_
                  intro Y e f he
                  rw [unescape_loop]
                  simp only [rd_append_left Y hlt, rd_append_left Y hp1, set_append_lt X Y _ hql]
                  rw [if_pos ⟨by omega, hc⟩, if_pos h92, if_neg h114, if_neg h110, if_neg h116,
                    if_neg hs2]
        · refine cont (rd X p) (p + 1) (by omega) (by omega) (by omega) ?_
          intro Y e f he
          rw [unescape_loop]
          simp only [rd_append_left Y hlt, set_append_lt X Y _ hql]
          rw [if_pos ⟨by omega, hc⟩, if_neg h92]
    · exact stop (Or.inl hc)

theorem discard_line_local (X : List Nat) (p j : Nat) (hp : p ≤ j) (hj : rd X j = 10) :
    ∃ X' p', X'.length = X.length ∧ p ≤ p' ∧ p' ≤ j ∧ rd X' j = 10 ∧
      ∀ (Y : List Nat) (e : Nat), X.length ≤ e → discard_line (X ++ Y) e p = (X' ++ Y, p') := by
  have hjl : j < X.length := lt_length_of_rd_ne_zero (by rw [hj]; decide)
  obtain ⟨X', p', h1, h2, h3, h4, h5⟩ := discard_loop_local j (j - p) X p (by omega) hp hj
  exact ⟨X', p', h1, h2, h3, h4, fun Y e he => h5 Y e (e - p) he (by omega)⟩

theorem split_value_local (X : List Nat) (ls p j : Nat) (hls : ls ≤ j) (hp : p ≤ j)
    (hj : rd X j = 10) :
    ∃ X' p', X'.length = X.length ∧ p' ≤ j ∧ rd X' j = 10 ∧
      ∀ (Y : List Nat) (e : Nat), X.length ≤ e →
        split_value (X ++ Y) e ls p = (X' ++ Y, p') := by
  have hjl : j < X.length := lt_length_of_rd_ne_zero (by rw [hj]; decide)
  have hpl : p < X.length := by omega
  by_cases hv : rd X p = 10 ∨ rd X p = 0
  · obtain ⟨X', p', h1, _, h3, h4, h5⟩ := discard_line_local X ls j hls hj
    refine ⟨X', p', h1, h3, h4, fun Y e he => ?_⟩
    unfold split_value
    rw [rd_append_left Y hpl, if_pos hv]
    exact h5 Y e he
  · by_cases hq : rd X p = 34
    · have hpj : p < j := by
        rcases Nat.lt_or_ge p j with h | h
        · exact h
        · have : p = j := by omega
          rw [this, hj] at hq; omega
      obtain ⟨X3, q', g1, g2, g3, g4, _, g6, g7⟩ :=
        unescape_loop_local j (j - (p + 1)) X (p + 1) p (by omega) (by omega) (by omega) hj
      have hu : ∀ (Y : List Nat) (e : Nat), X.length ≤ e →
          unescape_quoted_value (X ++ Y) e p = (X3 ++ Y, q') := fun Y e he => by
        unfold unescape_quoted_value
        exact g7 Y e _ he (by omega)
      by_cases hqq : q' = p
      · obtain ⟨X', p', h1, _, h3, h4, h5⟩ := discard_line_local X3 ls j hls g4
        refine ⟨X', p', by rw [h1, g1], h3, h4, fun Y e he => ?_⟩
        unfold split_value
        rw [rd_append_left Y hpl, if_neg hv, if_pos hq]
        simp only [hu Y e he]
        rw [if_pos hqq]
        exact h5 Y e (by rw [g1]; exact he)
      · obtain ⟨X', p', h1, _, h3, h4, h5⟩ := discard_line_local X3 q' j (by omega) g4
        refine ⟨X', p', by rw [h1, g1], h3, h4, fun Y e he => ?_⟩
        unfold split_value
        rw [rd_append_left Y hpl, if_neg hv, if_pos hq]
        simp only [hu Y e he]
        rw [if_neg hqq]
        exact h5 Y e (by rw [g1]; exact he)
    · have hk := fun Y => strcspn_local_at [10] (by decide) X Y p j hp hj
      refine ⟨trim_back X (((p + strcspn [10] (X.drop p) : Nat) : Int) - 1),
        p + strcspn [10] (X.drop p), trim_back_length _ _, (hk []).2, ?_, fun Y e he => ?_⟩
      · rw [rd_trim_back _ _ _ (by rw [hj]; decide)]; exact hj
      · unfold split_value
        rw [rd_append_left Y hpl, if_neg hv, if_neg hq]
        simp only [(hk Y).1]
        rw [trim_back_local X Y _ (by have := (hk Y).2; omega)]

theorem split_default_local (X : List Nat) (p j : Nat) (hp : p ≤ j) (hj : rd X j = 10) :
    ∃ X' p', X'.length = X.length ∧ p' ≤ j ∧ rd X' j = 10 ∧
      ∀ (Y : List Nat) (e : Nat), X.length ≤ e →
        split_default (X ++ Y) e p = (X' ++ Y, p') := by
  have hjl : j < X.length := lt_length_of_rd_ne_zero (by rw [hj]; decide)
  have hk := fun Y => strcspn_local_at [61, 10] (by decide) X Y p j hp hj
  have hp1 := (hk []).2
  by_cases h61 : rd X (p + strcspn [61, 10] (X.drop p)) = 61
  · have hp1j : p + strcspn [61, 10] (X.drop p) < j := by
      rcases Nat.lt_or_ge (p + strcspn [61, 10] (X.drop p)) j with h | h
      · exact h
      · have : p + strcspn [61, 10] (X.drop p) = j := by omega
        rw [this, hj] at h61; omega
    have hj1 : rd (trim_back X (((p + strcspn [61, 10] (X.drop p) : Nat) : Int) - 1)) j = 10 := by
      rw [rd_trim_back _ _ _ (by rw [hj]; decide)]; exact hj
    obtain ⟨X2, p2, g1, g2, g3, g4, _, _, g7⟩ := eq_loop_local j (j - (p + strcspn [61, 10] (X.drop p)))
      (trim_back X (((p + strcspn [61, 10] (X.drop p) : Nat) : Int) - 1))
      (p + strcspn [61, 10] (X.drop p)) (by omega) hp1j hj1
    rw [trim_back_length] at g1
    obtain ⟨X', p', h1, h3, h4, h5⟩ := split_value_local X2 p p2 j hp g3 g4
    refine ⟨X', p', by rw [h1, g1], h3, h4, fun Y e he => ?_⟩
    unfold split_default
    simp only [(hk Y).1]
    rw [rd_append_left Y (by omega), if_neg (not_not.2 h61),
      trim_back_local X Y _ (by omega), g7 Y _ (by
        rw [List.length_append, trim_back_length]; omega)]
    exact h5 Y e (by rw [g1]; exact he)
  · obtain ⟨X', p', h1, _, h3, h4, h5⟩ := discard_line_local X p j hp hj
    refine ⟨X', p', h1, h3, h4, fun Y e he => ?_⟩
    unfold split_default
    simp only [(hk Y).1]
    rw [rd_append_left Y (by omega), if_pos h61]
    exact h5 Y e he

/-- One iteration of the main loop that starts at or before the line feed at
`j` ends at most one byte after it, and depends on the bytes up to `j` only. -/
theorem split_step_local (X : List Nat) (p j : Nat) (hp : p ≤ j) (hjl : j < X.length)
    (hj : rd X j = 10 ∨ (p = j ∧ rd X j = 0)) :
    ∃ X' p', X'.length = X.length ∧ p' ≤ j + 1 ∧
      (p' ≤ j → (rd X' j = 10 ∨ (p' = j ∧ rd X' j = 0))) ∧ (p' = j + 1 → rd X' j = 0) ∧
      ∀ (Y : List Nat) (e : Nat), X.length ≤ e → split_step (X ++ Y) e p = (X' ++ Y, p') := by
  have hpl : p < X.length := by omega
  by_cases h1 : rd X p = 13 ∨ rd X p = 10 ∨ rd X p = 9 ∨ rd X p = 32
  · refine ⟨X.set p 0, p + 1, by simp, by omega, ?_, ?_, fun Y e he => ?_⟩
    · intro h
      left
      rw [rd_set_ne X 0 (by omega)]
      rcases hj with hj | hj
      · exact hj
      · omega
    · intro h
      have : p = j := by omega
      rw [this, rd_set_zero]; simp
    · unfold split_step
      simp only [rd_append_left Y hpl]
      rw [if_pos h1, set_append_lt X Y 0 hpl]
  · by_cases h2 : rd X p = 0
    · refine ⟨X, p + 1, rfl, by omega, ?_, ?_, fun Y e he => ?_⟩
      · intro h
        rcases hj with hj | hj
        · exact Or.inl hj
        · omega
      · intro h
        have hpj : p = j := by omega
        rw [← hpj]; exact h2
      · unfold split_step
        simp only [rd_append_left Y hpl]
        rw [if_neg h1, if_pos h2]
    · have hj10 : rd X j = 10 := by
        rcases hj with hj | hj
        · exact hj
        · rw [hj.1] at h2; exact absurd hj.2 h2
      by_cases h3 : rd X p = 91
      · have hk := fun Y => strcspn_local_at [93, 10] (by decide) X Y p j hp hj10
        have hp1 := (hk []).2
        refine ⟨X.set (p + strcspn [93, 10] (X.drop p)) 0, p + strcspn [93, 10] (X.drop p),
          by simp, by omega, ?_, ?_, fun Y e he => ?_⟩
        · intro _
          by_cases hpj : p + strcspn [93, 10] (X.drop p) = j
          · right
            refine ⟨hpj, ?_⟩
            rw [hpj, rd_set_zero]; simp
          · left; rw [rd_set_ne X 0 hpj]; exact hj10
        · intro h; omega
        · unfold split_step
          simp only [rd_append_left Y hpl, (hk Y).1]
          rw [if_neg h1, if_neg h2, if_pos h3, set_append_lt X Y 0 (by omega)]
      · by_cases h4 : rd X p = 59
        · obtain ⟨X', p', g1, _, g3, g4, g5⟩ := discard_line_local X p j hp hj10
          refine ⟨X', p', g1, by omega, fun _ => Or.inl g4, fun h => by omega, fun Y e he => ?_⟩
          unfold split_step
          simp only [rd_append_left Y hpl]
          rw [if_neg h1, if_neg h2, if_neg h3, if_pos h4]
          exact g5 Y e he
        · obtain ⟨X', p', g1, g3, g4, g5⟩ := split_default_local X p j hp hj10
          refine ⟨X', p', g1, by omega, fun _ => Or.inl g4, fun h => by omega, fun Y e he => ?_⟩
          unfold split_step
          simp only [rd_append_left Y hpl]
          rw [if_neg h1, if_neg h2, if_neg h3, if_neg h4]
          exact g5 Y e he

/-- The main loop started at or before the line feed at `j` reaches `j + 1`
with a buffer that only differs up to `j`, in a way that does not depend on
what follows. -/
theorem split_loop_local (j : Nat) : ∀ (n : Nat) (X : List Nat) (p : Nat),
    j + 1 ≤ p + n → p ≤ j + 1 → j < X.length →
    (p ≤ j → (rd X j = 10 ∨ (p = j ∧ rd X j = 0))) →
    ∃ X', X'.length = X.length ∧ (p ≤ j → rd X' j = 0) ∧ (p = j + 1 → X' = X) ∧
      ∀ (Y : List Nat) (e : Nat), X.length ≤ e →
        split_loop e (e - p) (X ++ Y) p = split_loop e (e - (j + 1)) (X' ++ Y) (j + 1)
  | n, X, p, hn, hp, hjl, hj => by
    by_cases hpj : p = j + 1
    · subst hpj
      exact ⟨X, rfl, fun h => by omega, fun _ => rfl, fun Y e he => rfl⟩
    · have hple : p ≤ j := by omega
      obtain ⟨X1, p1, g1, g2, g3, g4, g5⟩ := split_step_local X p j hple hjl (hj hple)
      have hgt : p < p1 := by
        have := split_step_gt (X ++ []) X.length p (by omega)
        rw [g5 [] X.length (Nat.le_refl _)] at this
        exact this
      cases n with
      | zero => omega
      | succ n =>
        obtain ⟨X', k1, k2, k4, k3⟩ := split_loop_local j n X1 p1 (by omega) g2 (by omega) g3
        refine ⟨X', by rw [k1, g1], ?_, fun h => absurd h hpj, fun Y e he => ?_⟩
        · intro _
          by_cases hp1 : p1 ≤ j
          · exact k2 hp1
          · have h1 : p1 = j + 1 := by omega
            rw [k4 h1]; exact g4 h1
        · obtain ⟨m, hm⟩ : ∃ m, e - p = m + 1 := ⟨e - p - 1, by omega⟩
          rw [hm]
          simp only [split_loop, show p < e by omega, if_true, g5 Y e he]
          rw [split_loop_fuel e m _ _ (by omega)]
          exact k3 Y e (by rw [g1]; exact he)

/-! ## The tokenizer works block of lines by block of lines -/

theorem split_loop_length (e : Nat) : ∀ (f : Nat) (d : List Nat) (p : Nat),
    (split_loop e f d p).length = d.length
  | 0, _, _ => rfl
  | f + 1, d, p => by
    simp only [split_loop]
    split
    · rw [split_loop_length e f, split_step_length]
    · rfl

theorem split_block_length (X : List Nat) : (split_block X).length = X.length :=
  split_loop_length _ _ _ _

/-- A block of whole lines (its last byte is a line feed) is tokenized on its
own: whatever follows it in the buffer is tokenized as if it stood at the
start of a buffer. -/
theorem split_loop_append (X0 D : List Nat) (e : Nat) :
    split_loop ((X0 ++ [10]).length + e) ((X0 ++ [10]).length + e) ((X0 ++ [10]) ++ D) 0 =
      split_block (X0 ++ [10]) ++ split_loop e e D 0 ∧
    rd (split_block (X0 ++ [10])) X0.length = 0 := by
  have hjl : X0.length < (X0 ++ [10]).length := by simp
  have hj : rd (X0 ++ [10]) X0.length = 10 := by
    simpa using rd_append_right X0 [10] 0
  obtain ⟨X', k1, k2, _, k3⟩ := split_loop_local X0.length (X0.length + 1) (X0 ++ [10]) 0
    (by omega) (by omega) hjl (fun _ => Or.inl hj)
  have hX : split_block (X0 ++ [10]) = X' := by
    have := k3 [] (X0 ++ [10]).length (Nat.le_refl _)
    simp only [List.append_nil, Nat.sub_zero, List.length_append, List.length_singleton,
      Nat.sub_self] at this
    unfold split_block
    simpa [split_loop] using this
  have h0 : rd X' X0.length = 0 := k2 (Nat.zero_le _)
  refine ⟨?_, by rw [hX]; exact h0⟩
  have hcl : closed_left X' := by
    right
    have : X'.length - 1 = X0.length := by rw [k1]; simp
    rw [this, h0]; decide
  have := k3 D ((X0 ++ [10]).length + e) (by omega)
  rw [Nat.sub_zero] at this
  rw [this, hX]
  have hlen : (X0 ++ [10]).length = X'.length := k1.symm
  have e1 : X0.length + 1 = X'.length := by rw [k1]; simp
  rw [e1, hlen, Nat.add_sub_cancel_left]
  have := split_loop_shift X' hcl e e D 0
  rw [Nat.add_zero] at this
  rw [split_loop_fuel _ _ _ _ (by omega)] at this
  rw [← this, Nat.add_sub_cancel_left]

theorem closed_left_split_block (X0 : List Nat) : closed_left (split_block (X0 ++ [10])) := by
  right
  have h := (split_loop_append X0 [] 0).2
  have : (split_block (X0 ++ [10])).length - 1 = X0.length := by
    rw [split_block_length]; simp
  rw [this, h]; decide

/-- Loading `X ++ C`, where `X` is a block of whole lines, tokenizes `X` and `C`
separately. -/
theorem ini_load_append (X0 C : List Nat) :
    (ini_load ((X0 ++ [10]) ++ C)).data = split_block (X0 ++ [10]) ++ (ini_load C).data := by
  have := (split_loop_append X0 (C ++ [0]) C.length).1
  simp only [ini_load, split_data]
  rw [← this]
  simp only [List.length_append, List.append_assoc, Nat.add_assoc]

theorem ini_load_end (C : List Nat) : (ini_load C).end_ = C.length := rfl

theorem split_block_append (X0 Y : List Nat) :
    split_block ((X0 ++ [10]) ++ Y) = split_block (X0 ++ [10]) ++ split_block Y := by
  have := (split_loop_append X0 Y Y.length).1
  unfold split_block at this ⊢
  rw [← this]
  simp only [List.length_append]

/-! ## C strings and tokens -/

theorem strlen_eq_length_cstr : ∀ (s : List Nat), strlen s = (cstr s).length
  | [] => rfl
  | c :: s => by
    by_cases hc : c = 0
    · simp [strlen, cstr, hc]
    · simp [strlen, cstr, hc, strlen_eq_length_cstr s]

theorem strlen_le_length : ∀ (s : List Nat), strlen s ≤ s.length
  | [] => Nat.le_refl _
  | c :: s => by
    simp only [strlen]
    split
    · exact Nat.zero_le _
    · exact Nat.succ_le_succ (strlen_le_length s)

theorem strlen_append_nul : ∀ (s t : List Nat), strlen (s ++ 0 :: t) = strlen s
  | [], _ => by simp [strlen]
  | c :: s, t => by
    simp only [List.cons_append, strlen, List.append_eq, strlen_append_nul s t]

theorem cstr_append_nul : ∀ (s t : List Nat), cstr (s ++ 0 :: t) = cstr s
  | [], _ => by simp [cstr]
  | c :: s, t => by
    simp only [List.cons_append, cstr, List.append_eq, cstr_append_nul s t]

theorem cstr_of_rd_zero (s : List Nat) (h : rd s 0 = 0) : cstr s = [] := by
  cases s with
  | nil => rfl
  | cons c s => simp only [rd_cons_zero] at h; simp [cstr, h]

theorem strlen_of_rd_zero (s : List Nat) (h : rd s 0 = 0) : strlen s = 0 := by
  rw [strlen_eq_length_cstr, cstr_of_rd_zero s h]; rfl

theorem cstr_idem : ∀ (s : List Nat), cstr (cstr s) = cstr s
  | [] => rfl
  | c :: s => by
    by_cases hc : c = 0
    · simp [cstr, hc]
    · simp [cstr, hc, cstr_idem s]

theorem rd_cstr_zero (s : List Nat) : rd (cstr s) 0 = rd s 0 := by
  cases s with
  | nil => rfl
  | cons c s =>
    by_cases hc : c = 0
    · simp [cstr, hc]
    · simp [cstr, hc]

theorem tail_cstr (s : List Nat) (h : rd s 0 ≠ 0) : (cstr s).tail = cstr (s.drop 1) := by
  cases s with
  | nil => simp at h
  | cons c s => simp only [rd_cons_zero] at h; simp [cstr, h]

/-- `strcmpci` reads its arguments as C strings. -/
theorem strcmpci_cstr_left : ∀ (a b : List Nat), strcmpci (cstr a) b = strcmpci a b
  | [], _ => rfl
  | x :: a, b => by
    by_cases hx : x = 0
    · subst hx
      simp only [cstr, if_true, strcmpci_nil, strcmpci_cons]
      have h0 : tolower 0 = 0 := rfl
      rw [h0]
      generalize b.headD 0 = y
      by_cases hb : y = 0
      · simp [hb, h0]
      · have : ¬ 0 = tolower y := fun h => hb (tolower_eq_zero.1 h.symm)
        simp [hb, this]
    · simp only [cstr, hx, if_false, strcmpci_cons, strcmpci_cstr_left a b.tail]

theorem strcmpci_cstr_right : ∀ (a b : List Nat), strcmpci a (cstr b) = strcmpci a b
  | [], b => by
    simp only [strcmpci_nil, headD_eq_rd, rd_cstr_zero]
  | x :: a, [] => rfl
  | x :: a, y :: b => by
    by_cases hy : y = 0
    · subst hy
      simp only [cstr, if_true, strcmpci_cons, List.headD_nil, List.headD_cons, List.tail_nil,
        List.tail_cons]
      have h0 : tolower 0 = 0 := rfl
      by_cases hx : x = 0
      · simp [hx]
      · have : ¬ tolower x = tolower 0 := by
          rw [h0]; exact fun h => hx (tolower_eq_zero.1 h)
        simp [this]
    · simp only [cstr, hy, if_false, strcmpci_cons, List.headD_cons, List.tail_cons,
        strcmpci_cstr_right a b]

theorem section_matches_cstr (sec : Option (List Nat)) (cur : List Nat) :
    section_matches sec (cstr cur) = section_matches sec cur := by
  cases sec with
  | none => rfl
  | some s => exact strcmpci_cstr_right s cur

theorem tokens_cons_nul (s : List Nat) : tokens (0 :: s) = tokens s := by
  simp [tokens]

theorem tokens_drop_lead_nul : ∀ (s : List Nat), tokens (s.drop (lead_nul s)) = tokens s
  | [] => rfl
  | c :: s => by
    by_cases hc : c = 0
    · subst hc
      simp only [lead_nul, if_true, List.drop_succ_cons, tokens_cons_nul]
      exact tokens_drop_lead_nul s
    · simp [lead_nul, hc]

theorem rd_drop_lead_nul : ∀ (s : List Nat), lead_nul s < s.length →
    rd (s.drop (lead_nul s)) 0 ≠ 0
  | [], h => by simp at h
  | c :: s, h => by
    by_cases hc : c = 0
    · subst hc
      simp only [lead_nul, if_true, List.drop_succ_cons, List.length_cons] at h ⊢
      exact rd_drop_lead_nul s (by omega)
    · simp [lead_nul, hc]

theorem lead_nul_le_length : ∀ (s : List Nat), lead_nul s ≤ s.length
  | [] => Nat.le_refl _
  | c :: s => by
    simp only [lead_nul]
    split
    · exact Nat.succ_le_succ (lead_nul_le_length s)
    · exact Nat.zero_le _

/-- A buffer that starts with a non-NUL byte starts with a token: the C string
at its head. -/
theorem tokens_of_rd_ne_zero : ∀ (s : List Nat), rd s 0 ≠ 0 →
    tokens s = cstr s :: tokens (s.drop (strlen s))
  | [], h => by simp at h
  | c :: s, h => by
    simp only [rd_cons_zero] at h
    by_cases hs : rd s 0 = 0
    · simp [tokens, h, hs, cstr, strlen, cstr_of_rd_zero s hs, strlen_of_rd_zero s hs]
    · have ih := tokens_of_rd_ne_zero s hs
      simp only [tokens, h, hs, if_false, cstr, strlen, List.drop_succ_cons, ih, List.headD_cons,
        List.tail_cons]

theorem tokens_append_nul_aux (t : List Nat) : ∀ (n : Nat) (s : List Nat), s.length ≤ n →
    tokens (s ++ 0 :: t) = tokens s ++ tokens t
  | _, [], _ => by simp [tokens]
  | 0, _ :: _, h => by simp at h
  | n + 1, c :: s, h => by
    by_cases hc : c = 0
    · subst hc
      simp only [List.cons_append, tokens_cons_nul]
      exact tokens_append_nul_aux t n s (by simpa using h)
    · have hl := strlen_le_length s
      rw [List.cons_append, tokens_of_rd_ne_zero _ (by simpa using hc),
        tokens_of_rd_ne_zero (c :: s) (by simpa using hc)]
      simp only [cstr, strlen, hc, if_false, List.drop_succ_cons, cstr_append_nul,
        strlen_append_nul, List.cons_append]
      rw [List.drop_append_of_le_length hl,
        tokens_append_nul_aux t n (s.drop (strlen s)) (by
          simp only [List.length_drop, List.length_cons] at h ⊢; omega)]

theorem tokens_append_nul (s t : List Nat) : tokens (s ++ 0 :: t) = tokens s ++ tokens t :=
  tokens_append_nul_aux t s.length s (Nat.le_refl _)

theorem tokens_replicate_nul : ∀ (n : Nat), tokens (List.replicate n 0) = []
  | 0 => rfl
  | n + 1 => by
    simp only [List.replicate_succ, tokens_cons_nul]
    exact tokens_replicate_nul n

/-! ## The lookup, told on the token list -/

theorem drop_append_nul (C : List Nat) (p : Nat) (h : p ≤ C.length) :
    (C ++ [0]).drop p = C.drop p ++ [0] :=
  List.drop_append_of_le_length h

theorem next_loop_eq (C : List Nat) : ∀ (f p : Nat), p ≤ C.length → C.length - p ≤ f →
    next_loop (C ++ [0]) C.length f p = p + lead_nul (C.drop p)
  | 0, p, hp, hf => by
    have : C.drop p = [] := List.drop_eq_nil_of_le (by omega)
    simp [next_loop, this, lead_nul]
  | f + 1, p, hp, hf => by
    by_cases hlt : p < C.length
    · have hd : C.drop p = rd C p :: C.drop (p + 1) := by
        rw [List.drop_eq_getElem_cons hlt]
        simp [rd, hlt]
      simp only [next_loop, rd_append_left [0] hlt, hlt, true_and, hd, lead_nul]
      split
      · rw [next_loop_eq C f (p + 1) (by omega) (by omega)]; omega
      · rfl
    · have : C.drop p = [] := List.drop_eq_nil_of_le (by omega)
      simp [next_loop, hlt, this, lead_nul]

/-- The pointer `next` returns, for a buffer `C` followed by its sentinel. -/
theorem next_eq (C : List Nat) (p : Nat) (hp : p ≤ C.length) :
    next ⟨C ++ [0], C.length⟩ p =
      p + strlen (C.drop p) + lead_nul ((C.drop p).drop (strlen (C.drop p))) := by
  have hl := strlen_le_length (C.drop p)
  simp only [List.length_drop] at hl
  simp only [next, drop_append_nul C p hp, strlen_append_nul]
  rw [next_loop_eq C _ _ (by omega) (Nat.le_refl _), List.drop_drop]

theorem next_le (C : List Nat) (p : Nat) (hp : p ≤ C.length) :
    next ⟨C ++ [0], C.length⟩ p ≤ C.length := by
  rw [next_eq C p hp]
  have hl := strlen_le_length (C.drop p)
  have h2 := lead_nul_le_length ((C.drop p).drop (strlen (C.drop p)))
  simp only [List.length_drop] at hl h2
  omega

theorem next_ge (C : List Nat) (p : Nat) (hp : p ≤ C.length) :
    p ≤ next ⟨C ++ [0], C.length⟩ p := by
  rw [next_eq C p hp]; omega

theorem next_gt (C : List Nat) (p : Nat) (hp : p ≤ C.length) (h : rd C p ≠ 0) :
    p < next ⟨C ++ [0], C.length⟩ p := by
  rw [next_eq C p hp]
  have : 0 < strlen (C.drop p) := by
    cases hd : C.drop p with
    | nil =>
      have := rd_drop_zero C p
      rw [hd] at this; simp at this; exact absurd this.symm h
    | cons c s =>
      have := rd_drop_zero C p
      rw [hd] at this; simp only [rd_cons_zero] at this
      simp [strlen, this, h]
  omega

theorem drop_next (C : List Nat) (p : Nat) (hp : p ≤ C.length) :
    C.drop (next ⟨C ++ [0], C.length⟩ p) =
      ((C.drop p).drop (strlen (C.drop p))).drop
        (lead_nul ((C.drop p).drop (strlen (C.drop p)))) := by
  rw [next_eq C p hp, List.drop_drop, List.drop_drop, Nat.add_assoc]

/-- After a token at `p`, `next` points at the following token. -/
theorem tokens_drop_next (C : List Nat) (p : Nat) (hp : p ≤ C.length) (h : rd C p ≠ 0) :
    tokens (C.drop p) = cstr (C.drop p) :: tokens (C.drop (next ⟨C ++ [0], C.length⟩ p)) := by
  rw [tokens_of_rd_ne_zero _ (by rw [rd_drop_zero]; exact h), drop_next C p hp,
    tokens_drop_lead_nul]

theorem rd_next_ne_zero (C : List Nat) (p : Nat) (hp : p ≤ C.length)
    (hlt : next ⟨C ++ [0], C.length⟩ p < C.length) : rd C (next ⟨C ++ [0], C.length⟩ p) ≠ 0 := by
  rw [← rd_drop_zero, drop_next C p hp]
  apply rd_drop_lead_nul
  have := next_eq C p hp
  simp only [List.length_drop]
  omega

theorem tokens_drop_length (C : List Nat) : tokens (C.drop C.length) = [] := by
  simp [tokens]

/-- The text at a pointer `v` that is at the end of the buffer or at the first
byte of a token is the head of the remaining token list. -/
theorem cstr_at_token (C : List Nat) (v : Nat) (hv : v ≤ C.length)
    (h : v < C.length → rd C v ≠ 0) :
    cstr ((C ++ [0]).drop v) = (tokens (C.drop v)).headD [] := by
  rw [drop_append_nul C v hv, cstr_append_nul]
  by_cases hlt : v < C.length
  · rw [tokens_of_rd_ne_zero _ (by rw [rd_drop_zero]; exact h hlt)]; rfl
  · have : C.drop v = [] := List.drop_eq_nil_of_le (by omega)
    rw [this]; rfl

theorem tok_lookup_cons (sec : Option (List Nat)) (key cur t : List Nat)
    (rest : List (List Nat)) :
    tok_lookup sec key cur (t :: rest) =
      if rd t 0 = 91 then tok_lookup sec key t.tail rest
      else if section_matches sec cur && strcmpci t key then some (rest.headD [])
      else tok_lookup sec key cur rest.tail := by
  cases rest with
  | nil => simp [tok_lookup]
  | cons v rest => simp [tok_lookup]

/-- The loop of `ini_get` computes `tok_lookup` on the tokens from `p` on. -/
theorem ini_get_loop_tokens (C : List Nat) (sec : Option (List Nat)) (key : List Nat) :
    ∀ (n p : Nat) (cur : List Nat), C.length - p ≤ n → p ≤ C.length →
      (p < C.length → rd C p ≠ 0) →
      (ini_get_loop ⟨C ++ [0], C.length⟩ sec key n cur p).map
          (fun v => cstr ((C ++ [0]).drop v)) =
        tok_lookup sec key (cstr cur) (tokens (C.drop p))
  | 0, p, cur, hn, hp, _ => by
    have : C.drop p = [] := List.drop_eq_nil_of_le (by omega)
    simp [ini_get_loop, this, tokens, tok_lookup]
  | n + 1, p, cur, hn, hp, h0 => by
    by_cases hlt : p < C.length
    · have hne := h0 hlt
      have hgt := next_gt C p hp hne
      have hle := next_le C p hp
      have hnz := rd_next_ne_zero C p hp
      rw [tokens_drop_next C p hp hne, tok_lookup_cons]
      simp only [ini_get_loop, hlt, if_true, rd_append_left [0] hlt, rd_cstr_zero, rd_drop_zero]
      by_cases h91 : rd C p = 91
      · have e1 : cstr ((C ++ [0]).drop (p + 1)) = (cstr (C.drop p)).tail := by
          rw [drop_append_nul C (p + 1) (by omega), cstr_append_nul,
            tail_cstr _ (by rw [rd_drop_zero]; exact hne), List.drop_drop]
        rw [if_pos h91, if_pos h91,
          ini_get_loop_tokens C sec key n _ _ (by omega) hle hnz, e1]
      · rw [if_neg h91, if_neg h91, section_matches_cstr, strcmpci_cstr_left,
          drop_append_nul C p hp]
        have : strcmpci (C.drop p ++ [0]) key = strcmpci (C.drop p) key := by
          rw [← strcmpci_cstr_left, cstr_append_nul, strcmpci_cstr_left]
        rw [this]
        by_cases hm : (section_matches sec cur && strcmpci (C.drop p) key) = true
        · rw [if_pos hm, if_pos hm]
          simp only [Option.map_some']
          rw [cstr_at_token C _ hle hnz]
        · rw [if_neg hm, if_neg hm]
          have hle2 := next_le C _ hle
          have hge2 := next_ge C _ hle
          have hnz2 := rd_next_ne_zero C _ hle
          by_cases hlt2 : next ⟨C ++ [0], C.length⟩ p < C.length
          · have hgt2 := next_gt C _ hle (hnz hlt2)
            rw [ini_get_loop_tokens C sec key n _ _ (by omega) hle2 hnz2,
              tokens_drop_next C _ hle (hnz hlt2)]
            rfl
          · have heq : next ⟨C ++ [0], C.length⟩ p = C.length := by omega
            rw [ini_get_loop_tokens C sec key n _ _ (by omega) hle2 hnz2]
            have hd : C.drop C.length = [] := List.drop_eq_nil_of_le (Nat.le_refl _)
            have hd2 : C.drop (next ⟨C ++ [0], C.length⟩ C.length) = [] :=
              List.drop_eq_nil_of_le (by
                have := next_gt
                have := next_eq C C.length (Nat.le_refl _)
                omega)
            rw [heq, hd, hd2]; rfl
    · have : C.drop p = [] := List.drop_eq_nil_of_le (by omega)
      simp [ini_get_loop, hlt, this, tokens, tok_lookup]

/-- The text `ini_get` returns is what `tok_lookup` finds in the token list of
the buffer. -/
theorem ini_get_text_tokens (C : List Nat) (sec : Option (List Nat)) (key : List Nat) :
    ini_get_text ⟨C ++ [0], C.length⟩ sec key = tok_lookup sec key [] (tokens C) := by
  unfold ini_get_text ini_get
  simp only
  by_cases h0 : rd (C ++ [0]) 0 = 0
  · rw [if_pos h0]
    have hle := next_le C 0 (Nat.zero_le _)
    have hnz := rd_next_ne_zero C 0 (Nat.zero_le _)
    have := ini_get_loop_tokens C sec key (C.length - next ⟨C ++ [0], C.length⟩ 0)
      (next ⟨C ++ [0], C.length⟩ 0) [] (Nat.le_refl _) hle hnz
    rw [this, drop_next C 0 (Nat.zero_le _)]
    have hC : rd C 0 = 0 := by
      cases C with
      | nil => rfl
      | cons c s => simpa using h0
    simp only [List.drop_zero, strlen_of_rd_zero C hC, tokens_drop_lead_nul]
    rfl
  · rw [if_neg h0]
    have hC : rd C 0 ≠ 0 := by
      cases C with
      | nil => simp at h0
      | cons c s => simpa using h0
    have := ini_get_loop_tokens C sec key (C.length - 0) 0 [] (Nat.le_refl _) (Nat.zero_le _)
      (fun _ => hC)
    rw [this]
    rfl

/-! ## The sentinel stays NUL -/

theorem rd_discard_loop_zero (e : Nat) : ∀ (f : Nat) (d : List Nat) (p k : Nat),
    rd d k = 0 → rd (discard_loop e f d p).1 k = 0
  | 0, _, _, _, h => h
  | f + 1, d, p, k, h => by
    simp only [discard_loop]
    split
    · exact rd_discard_loop_zero e f _ _ k (by rw [rd_set_zero]; split <;> simp [h])
    · exact h

theorem rd_eq_loop_zero : ∀ (f : Nat) (d : List Nat) (p k : Nat),
    rd d k = 0 → rd (eq_loop f d p).1 k = 0
  | 0, _, _, _, h => h
  | f + 1, d, p, k, h => by
    have h' : rd (d.set p 0) k = 0 := by rw [rd_set_zero]; split <;> simp [h]
    simp only [eq_loop]
    split
    · exact rd_eq_loop_zero f _ _ k h'
    · exact h'

theorem rd_unescape_loop_ge (e : Nat) : ∀ (f : Nat) (d : List Nat) (p q k : Nat),
    q < p → e ≤ k → rd (unescape_loop e f d p q).1 k = rd d k
  | 0, _, _, _, _, _, _ => rfl
  | f + 1, d, p, q, k, hq, hk => by
    simp only [unescape_loop]
    split_ifs with h1 <;>
      first
      | rfl
      | (rw [rd_unescape_loop_ge e f _ _ _ k (by omega) hk, rd_set_ne d _ (by omega)])

theorem rd_split_value_zero (d : List Nat) (e ls p k : Nat) (hk : e ≤ k) (h : rd d k = 0) :
    rd (split_value d e ls p).1 k = 0 := by
  have hu : rd (unescape_quoted_value d e p).1 k = 0 := by
    unfold unescape_quoted_value
    rw [rd_unescape_loop_ge e _ _ _ _ k (by omega) hk]; exact h
  unfold split_value discard_line
  simp only
  split_ifs
  · exact rd_discard_loop_zero _ _ _ _ _ h
  · exact rd_discard_loop_zero _ _ _ _ _ hu
  · exact rd_discard_loop_zero _ _ _ _ _ hu
  · simp only; rw [rd_trim_back _ _ _ (by rw [h]; decide)]; exact h

theorem rd_split_default_zero (d : List Nat) (e p k : Nat) (hk : e ≤ k) (h : rd d k = 0) :
    rd (split_default d e p).1 k = 0 := by
  unfold split_default discard_line
  simp only
  split_ifs
  · exact rd_discard_loop_zero _ _ _ _ _ h
  · apply rd_split_value_zero _ _ _ _ _ hk
    apply rd_eq_loop_zero
    rw [rd_trim_back _ _ _ (by rw [h]; decide)]; exact h

theorem rd_split_step_zero (d : List Nat) (e p k : Nat) (hk : e ≤ k) (h : rd d k = 0) :
    rd (split_step d e p).1 k = 0 := by
  unfold split_step discard_line
  simp only
  split_ifs
  · simp only; rw [rd_set_zero]; split <;> simp [h]
  · exact h
  · simp only; rw [rd_set_zero]; split <;> simp [h]
  · exact rd_discard_loop_zero _ _ _ _ _ h
  · exact rd_split_default_zero _ _ _ _ hk h

theorem rd_split_loop_zero (e : Nat) : ∀ (f : Nat) (d : List Nat) (p k : Nat),
    e ≤ k → rd d k = 0 → rd (split_loop e f d p) k = 0
  | 0, _, _, _, _, h => h
  | f + 1, d, p, k, hk, h => by
    simp only [split_loop]
    split
    · exact rd_split_loop_zero e f _ _ k hk (rd_split_step_zero _ _ _ _ hk h)
    · exact h

theorem eq_append_of_rd_last (W : List Nat) (n : Nat) (hl : W.length = n + 1)
    (h : rd W n = 0) : W = W.take n ++ [0] := by
  have h1 : W = W.take n ++ W.drop n := (List.take_append_drop n W).symm
  have h2 : W.drop n = [0] := by
    have hlen : (W.drop n).length = 1 := by simp [hl]
    match hd : W.drop n, hlen with
    | [c], _ =>
      have := rd_drop_zero W n
      rw [hd] at this
      simp only [rd_cons_zero] at this
      rw [this, h]
  rw [h2] at h1
  exact h1

/-- The buffer after loading: the tokenized content followed by the sentinel. -/
theorem ini_load_data (C : List Nat) :
    (ini_load C).data = (ini_load C).data.take C.length ++ [0] ∧
    ((ini_load C).data.take C.length).length = C.length := by
  have hl : (ini_load C).data.length = C.length + 1 := by
    simp [ini_load, split_data, split_loop_length]
  have h0 : rd (ini_load C).data C.length = 0 := by
    simp only [ini_load, split_data]
    apply rd_split_loop_zero _ _ _ _ _ (Nat.le_refl _)
    simpa using rd_append_right C [0] 0
  exact ⟨eq_append_of_rd_last _ _ hl h0, by simp [hl]⟩

theorem tokens_append_singleton_nul (s : List Nat) : tokens (s ++ [0]) = tokens s := by
  simpa [tokens] using tokens_append_nul s []

/-- The lookup on a loaded file is `tok_lookup` on the tokens of its buffer. -/
theorem ini_get_text_load (C : List Nat) (sec : Option (List Nat)) (key : List Nat) :
    ini_get_text (ini_load C) sec key = tok_lookup sec key [] (tokens (ini_load C).data) := by
  obtain ⟨h1, h2⟩ := ini_load_data C
  have hi : ini_load C = ⟨(ini_load C).data.take C.length ++ [0],
      ((ini_load C).data.take C.length).length⟩ := by
    rw [h2, ← h1]; rfl
  have ht : tokens (ini_load C).data = tokens ((ini_load C).data.take C.length) := by
    conv_lhs => rw [h1]
    exact tokens_append_singleton_nul _
  rw [ht]
  conv_lhs => rw [hi]
  exact ini_get_text_tokens _ sec key

/-- The tokens of `X` followed by more buffer, when `X` is a tokenized block of
whole lines. -/
theorem tokens_split_block_append (X0 W : List Nat) :
    tokens (split_block (X0 ++ [10]) ++ W) = tokens (split_block (X0 ++ [10])) ++ tokens W := by
  have hl : (split_block (X0 ++ [10])).length = X0.length + 1 := by
    rw [split_block_length]; simp
  have h := eq_append_of_rd_last _ _ hl (split_loop_append X0 [] 0).2
  rw [h, List.append_assoc, List.singleton_append, tokens_append_nul,
    tokens_append_singleton_nul]

theorem tokens_ini_load_append (X0 C : List Nat) :
    tokens (ini_load ((X0 ++ [10]) ++ C)).data =
      tokens (split_block (X0 ++ [10])) ++ tokens (ini_load C).data := by
  rw [ini_load_append, tokens_split_block_append]

/-! ## Symbolic runs of the helpers on segments of a line -/

theorem strcspn_seg (rej : List Nat) : ∀ (seg : List Nat) (c : Nat) (rest : List Nat),
    (∀ x ∈ seg, x ≠ 0 ∧ x ∉ rej) → (c = 0 ∨ c ∈ rej) →
    strcspn rej (seg ++ c :: rest) = seg.length
  | [], c, rest, _, hc => by simp [strcspn, hc]
  | x :: seg, c, rest, hs, hc => by
    have hx := hs x (List.mem_cons_self _ _)
    have ih := strcspn_seg rej seg c rest (fun y hy => hs y (List.mem_cons_of_mem _ hy)) hc
    simp only [List.cons_append, strcspn, List.append_eq, hx.1, hx.2, or_self, if_false, ih,
      List.length_cons]

theorem is_blank_iff (c : Nat) : is_blank c = true ↔ (c = 32 ∨ c = 9 ∨ c = 13) := by
  simp [is_blank]

theorem pad_ok_iff (P : List Nat) : pad_ok P = true ↔ ∀ x ∈ P, (x = 32 ∨ x = 9 ∨ x = 13) := by
  simp [pad_ok, is_blank]

theorem replicate_succ_append (n : Nat) (X : List Nat) :
    List.replicate n 0 ++ 0 :: X = List.replicate (n + 1) 0 ++ X := by
  rw [List.replicate_succ']
  simp

theorem trim_back_from_blanks : ∀ (n : Nat) (L : List Nat), n < L.length →
    (∀ i, i ≤ n → (rd L i = 32 ∨ rd L i = 9 ∨ rd L i = 13)) →
    trim_back_from L n = List.replicate (n + 1) 0 ++ L.drop (n + 1)
  | 0, L, hl, hb => by
    simp only [trim_back_from, hb 0 (Nat.le_refl _), if_true]
    cases L with
    | nil => simp at hl
    | cons c s => simp
  | n + 1, L, hl, hb => by
    simp only [trim_back_from, hb (n + 1) (Nat.le_refl _), if_true]
    rw [trim_back_from_blanks n (L.set (n + 1) 0) (by simp; omega)
      (fun i hi => by rw [rd_set_ne L 0 (by omega)]; exact hb i (by omega))]
    have hd : (L.set (n + 1) 0).drop (n + 1) = 0 :: L.drop (n + 2) := by
      rw [List.drop_eq_getElem_cons (by simp; omega)]
      simp [List.drop_set]
    rw [hd, replicate_succ_append]

/-- `trim_back` started at the last byte of a run of blanks that follows a
closed prefix `A` turns exactly that run into NUL bytes. -/
theorem trim_back_seg (A blanks rest : List Nat) (hA : closed_left A)
    (hb : pad_ok blanks = true) :
    trim_back (A ++ blanks ++ rest) (((A.length + blanks.length : Nat) : Int) - 1) =
      A ++ List.replicate blanks.length 0 ++ rest := by
  rw [List.append_assoc, trim_back_shift A _ hA, List.append_assoc]
  congr 1
  cases hbl : blanks with
  | nil => rfl
  | cons b bs =>
    have h2 : ((((b :: bs).length : Nat) : Int) - 1) = Int.ofNat bs.length := by simp
    rw [h2]
    simp only [trim_back]
    rw [trim_back_from_blanks bs.length _ (by simp; omega)]
    · simp
    · intro i hi
      rw [pad_ok_iff] at hb
      have hil : i < (b :: bs).length := by simp; omega
      rw [rd_append_left rest hil]
      apply hb
      rw [hbl]
      have : rd (b :: bs) i = (b :: bs)[i] := by
        simp [rd, List.getElem?_eq_getElem hil]
      rw [this]
      exact List.getElem_mem _

theorem eq_loop_seg : ∀ (blanks : List Nat) (c y : Nat) (rest : List Nat) (f : Nat),
    pad_ok blanks = true → ¬ (y = 32 ∨ y = 9 ∨ y = 13) → blanks.length < f →
    eq_loop f (c :: (blanks ++ y :: rest)) 0 =
      (0 :: (List.replicate blanks.length 0 ++ y :: rest), blanks.length + 1)
  | [], c, y, rest, f, _, hy, hf => by
    obtain ⟨f', rfl⟩ : ∃ f', f = f' + 1 := ⟨f - 1, by simp at hf; omega⟩
    have : ¬ (y = 32 ∨ y = 13 ∨ y = 9) := by omega
    simp [eq_loop, this]
  | b :: bs, c, y, rest, f, hb, hy, hf => by
    obtain ⟨f', rfl⟩ : ∃ f', f = f' + 1 := ⟨f - 1, by simp at hf; omega⟩
    have hb' := (pad_ok_iff _).1 hb
    have hbb : b = 32 ∨ b = 13 ∨ b = 9 := by
      have := hb' b (List.mem_cons_self _ _); omega
    have ih := eq_loop_seg bs b y rest f' ((pad_ok_iff _).2
      (fun x hx => hb' x (List.mem_cons_of_mem _ hx))) hy (by simp at hf; omega)
    have hs := eq_loop_shift [0] f' (b :: (bs ++ y :: rest)) 0
    simp only [List.length_singleton, Nat.add_zero, List.singleton_append, ih] at hs
    simp only [eq_loop, List.cons_append, List.set_cons_zero, Nat.zero_add, rd_cons_succ,
      rd_cons_zero, hbb, if_true, hs, List.length_cons, List.replicate_succ]
    congr 1
    omega

/-- `discard_line` started at the head of a run of bytes without line feed
turns the whole run into NUL bytes and stops at the line end. -/
theorem discard_loop_seg : ∀ (A : List Nat) (t : Nat) (R : List Nat) (e f : Nat),
    (∀ x ∈ A, x ≠ 10) → (t = 10 ∨ e = A.length) → A.length ≤ e → A.length ≤ f →
    discard_loop e f (A ++ t :: R) 0 = (List.replicate A.length 0 ++ t :: R, A.length)
  | [], t, R, e, f, _, ht, _, _ => by
    cases f with
    | zero => rfl
    | succ f =>
      simp only [discard_loop, List.nil_append, rd_cons_zero, List.length_nil,
        List.replicate_zero]
      rw [if_neg]
      rintro ⟨h1, h2⟩
      rcases ht with ht | ht
      · exact h2 ht
      · simp at ht; omega
  | a :: A, t, R, e, f, hA, ht, he, hf => by
    obtain ⟨f', rfl⟩ : ∃ f', f = f' + 1 := ⟨f - 1, by simp at hf; omega⟩
    obtain ⟨e', rfl⟩ : ∃ e', e = e' + 1 := ⟨e - 1, by simp at he; omega⟩
    have ha := hA a (List.mem_cons_self _ _)
    have ih := discard_loop_seg A t R e' f' (fun x hx => hA x (List.mem_cons_of_mem _ hx))
      (by simp at ht; omega) (by simpa using he) (by simpa using hf)
    have hs := discard_loop_shift [0] e' f' (A ++ t :: R) 0
    simp only [List.length_singleton, Nat.add_zero, List.singleton_append, ih] at hs
    rw [Nat.add_comm 1 e'] at hs
    simp only [discard_loop, List.cons_append, rd_cons_zero, ha, ne_eq, not_false_eq_true,
      and_true, Nat.zero_lt_succ, if_true, List.set_cons_zero, Nat.zero_add, hs,
      List.length_cons, List.replicate_succ]
    congr 1
    omega

theorem set_gap (pre : List Nat) (g : Nat) (gs rest : List Nat) (v : Nat) :
    (pre ++ (g :: gs ++ rest)).set pre.length v = (pre ++ [v]) ++ (gs ++ rest) := by
  have := set_shift pre (g :: gs ++ rest) 0 v
  simp only [Nat.add_zero, List.cons_append, List.set_cons_zero] at this
  rw [List.cons_append, this]
  simp

theorem rd_gap (pre gap rest : List Nat) (i : Nat) :
    rd (pre ++ (gap ++ rest)) (pre.length + gap.length + i) = rd rest i := by
  rw [← List.append_assoc]
  have := rd_append_right (pre ++ gap) rest i
  simpa using this

theorem unescape_step_stop (d : List Nat) (e f p q : Nat)
    (h : ¬ (p < e ∧ rd d p ≠ 34 ∧ rd d p ≠ 13 ∧ rd d p ≠ 10)) :
    unescape_loop e (f + 1) d p q = (d, q) := by
  rw [unescape_loop]
  simp only
  rw [if_neg h]

theorem unescape_step_bs_stop (d : List Nat) (e f p q : Nat)
    (h : p < e ∧ rd d p ≠ 34 ∧ rd d p ≠ 13 ∧ rd d p ≠ 10) (h92 : rd d p = 92)
    (hx : rd d (p + 1) = 13 ∨ rd d (p + 1) = 10 ∨ rd d (p + 1) = 0) :
    unescape_loop e (f + 1) d p q = (d, q) := by
  rw [unescape_loop]
  simp only
  rw [if_pos h, if_pos h92, if_neg (by omega), if_neg (by omega), if_neg (by omega), if_pos hx]

theorem unescape_step_bs (d : List Nat) (e f p q : Nat)
    (h : p < e ∧ rd d p ≠ 34 ∧ rd d p ≠ 13 ∧ rd d p ≠ 10) (h92 : rd d p = 92)
    (hx : ¬ (rd d (p + 1) = 13 ∨ rd d (p + 1) = 10 ∨ rd d (p + 1) = 0)) :
    unescape_loop e (f + 1) d p q =
      unescape_loop e f (d.set q (escape_char (rd d (p + 1)))) (p + 2) (q + 1) := by
  rw [unescape_loop]
  simp only
  rw [if_pos h, if_pos h92]
  unfold escape_char
  by_cases h114 : rd d (p + 1) = 114
  · rw [if_pos h114, if_pos h114]
  · by_cases h110 : rd d (p + 1) = 110
    · rw [if_neg h114, if_pos h110, if_neg h114, if_pos h110]
    · by_cases h116 : rd d (p + 1) = 116
      · rw [if_neg h114, if_neg h110, if_pos h116, if_neg h114, if_neg h110, if_pos h116]
      · rw [if_neg h114, if_neg h110, if_neg h116, if_neg hx, if_neg h114, if_neg h110,
          if_neg h116]

theorem unescape_step_plain (d : List Nat) (e f p q : Nat)
    (h : p < e ∧ rd d p ≠ 34 ∧ rd d p ≠ 13 ∧ rd d p ≠ 10) (h92 : ¬ rd d p = 92) :
    unescape_loop e (f + 1) d p q = unescape_loop e f (d.set q (rd d p)) (p + 1) (q + 1) := by
  rw [unescape_loop]
  simp only
  rw [if_pos h, if_neg h92]

theorem unquote_stop (c : Nat) (S : List Nat) (h : c = 34 ∨ c = 13 ∨ c = 10) :
    unquote (c :: S) = [] := by
  cases S <;> simp [unquote, h]

theorem unquote_bs_nil : unquote [92] = [] := by
  simp [unquote]

theorem unquote_bs_cons (x : Nat) (r : List Nat) :
    unquote (92 :: x :: r) =
      if x = 13 ∨ x = 10 ∨ x = 0 then [] else escape_char x :: unquote r := by
  simp [unquote]

theorem unquote_plain (c : Nat) (S : List Nat) (h : ¬ (c = 34 ∨ c = 13 ∨ c = 10))
    (h92 : ¬ c = 92) : unquote (c :: S) = c :: unquote S := by
  cases S <;> simp [unquote, h, h92]

/-- The run of `unescape_quoted_value` over the bytes `S` of a line that follow
the opening quote: the value text `unquote S` is written right after `pre`,
and what is left between it and the line end has no line feed. -/
theorem unescape_loop_seg : ∀ (n : Nat) (S pre gap : List Nat) (t : Nat) (R : List Nat)
    (e f : Nat),
    S.length ≤ n → (∀ x ∈ S, x ≠ 10 ∧ x ≠ 0) → gap ≠ [] → (∀ x ∈ gap, x ≠ 10) →
    pre.length + gap.length + S.length ≤ e →
    (t = 10 ∨ (t = 0 ∧ e = pre.length + gap.length + S.length)) → S.length ≤ f →
    ∃ W, W.length + (unquote S).length = gap.length + S.length ∧ (∀ x ∈ W, x ≠ 10) ∧
      unescape_loop e f (pre ++ (gap ++ (S ++ t :: R))) (pre.length + gap.length) pre.length =
        (pre ++ (unquote S ++ (W ++ t :: R)), pre.length + (unquote S).length)
  | n, [], pre, gap, t, R, e, f, _, _, _, hgap, he, ht, _ => by
    refine ⟨gap, by simp [unquote], hgap, ?_⟩
    cases f with
    | zero => simp [unescape_loop, unquote]
    | succ f =>
      have h0 := rd_gap pre gap (t :: R) 0
      simp only [Nat.add_zero, rd_cons_zero] at h0
      rw [List.nil_append, unescape_step_stop]
      · simp [unquote]
      · rw [h0]
        rintro ⟨h1, _, _, h4⟩
        rcases ht with ht | ⟨_, ht⟩
        · exact h4 ht
        · simp at ht; omega
  | n, c :: S, pre, gap, t, R, e, f, hn, hS, hg, hgap, he, ht, hf => by
    obtain ⟨f', rfl⟩ : ∃ f', f = f' + 1 := ⟨f - 1, by simp at hf; omega⟩
    obtain ⟨n', rfl⟩ : ∃ n', n = n' + 1 := ⟨n - 1, by simp at hn; omega⟩
    obtain ⟨g, gs, rfl⟩ : ∃ g gs, gap = g :: gs := by
      cases gap with
      | nil => exact absurd rfl hg
      | cons g gs => exact ⟨g, gs, rfl⟩
    have hc := hS c (List.mem_cons_self _ _)
    have hgs : ∀ x ∈ gs, x ≠ 10 := fun x hx => hgap x (List.mem_cons_of_mem _ hx)
    have h0 : rd (pre ++ (g :: gs ++ (c :: S ++ t :: R))) (pre.length + (g :: gs).length) = c :=
      rd_gap pre (g :: gs) (c :: S ++ t :: R) 0
    have h1 : rd (pre ++ (g :: gs ++ (c :: S ++ t :: R))) (pre.length + (g :: gs).length + 1) =
        rd (S ++ t :: R) 0 := rd_gap pre (g :: gs) (c :: S ++ t :: R) 1
    have hpe : pre.length + (g :: gs).length < e := by
      simp only [List.length_cons] at he ⊢; omega
    -- the loop stops at this byte
    have stop : unquote (c :: S) = [] →
        unescape_loop e (f' + 1) (pre ++ ((g :: gs) ++ (c :: S ++ t :: R)))
          (pre.length + (g :: gs).length) pre.length =
          (pre ++ ((g :: gs) ++ (c :: S ++ t :: R)), pre.length) →
        ∃ W, W.length + (unquote (c :: S)).length = (g :: gs).length + (c :: S).length ∧
          (∀ x ∈ W, x ≠ 10) ∧
          unescape_loop e (f' + 1) (pre ++ ((g :: gs) ++ (c :: S ++ t :: R)))
            (pre.length + (g :: gs).length) pre.length =
            (pre ++ (unquote (c :: S) ++ (W ++ t :: R)),
              pre.length + (unquote (c :: S)).length) := by
      intro hu hrun
      refine ⟨(g :: gs) ++ c :: S, by
        rw [hu]; simp only [List.length_append, List.length_cons, List.length_nil]; omega, ?_, ?_⟩
      · intro x hx
        rw [List.mem_append] at hx
        rcases hx with hx | hx
        · exact hgap x hx
        · exact (hS x hx).1
      · rw [hrun, hu]; simp
    -- a byte `v` is written and the loop goes on after the bytes `used` of `S`
    have cont : ∀ (v : Nat) (used S' : List Nat), c :: S = used ++ S' → used ≠ [] →
        unquote (c :: S) = v :: unquote S' →
        unescape_loop e (f' + 1) (pre ++ ((g :: gs) ++ (c :: S ++ t :: R)))
          (pre.length + (g :: gs).length) pre.length =
          unescape_loop e f' ((pre ++ [v]) ++ ((gs ++ used) ++ (S' ++ t :: R)))
            ((pre ++ [v]).length + (gs ++ used).length) (pre ++ [v]).length →
        ∃ W, W.length + (unquote (c :: S)).length = (g :: gs).length + (c :: S).length ∧
          (∀ x ∈ W, x ≠ 10) ∧
          unescape_loop e (f' + 1) (pre ++ ((g :: gs) ++ (c :: S ++ t :: R)))
            (pre.length + (g :: gs).length) pre.length =
            (pre ++ (unquote (c :: S) ++ (W ++ t :: R)),
              pre.length + (unquote (c :: S)).length) := by
      intro v used S' hsplit hused hu hrun
      have hlen : (c :: S).length = used.length + S'.length := by rw [hsplit]; simp
      have hupos : 0 < used.length := List.length_pos.2 hused
      have hmem : ∀ x ∈ used ++ S', x ≠ 10 ∧ x ≠ 0 := fun x hx => hS x (hsplit ▸ hx)
      obtain ⟨W, w1, w2, w3⟩ := unescape_loop_seg n' S' (pre ++ [v]) (gs ++ used) t R e f'
        (by simp only [List.length_cons] at hn hlen; omega)
        (fun x hx => hmem x (List.mem_append_right _ hx))
        (by intro h; exact hused (List.append_eq_nil.1 h).2)
        (by
          intro x hx
          rcases List.mem_append.1 hx with hx | hx
          · exact hgs x hx
          · exact (hmem x (List.mem_append_left _ hx)).1)
        (by simp only [List.length_append, List.length_cons, List.length_nil] at he hlen ⊢; omega)
        (by
          rcases ht with ht | ⟨ht1, ht2⟩
          · exact Or.inl ht
          · right
            refine ⟨ht1, ?_⟩
            simp only [List.length_append, List.length_cons, List.length_nil] at ht2 hlen ⊢
            omega)
        (by simp only [List.length_cons] at hf hlen; omega)
      refine ⟨W, ?_, w2, ?_⟩
      · rw [hu]
        simp only [List.length_append, List.length_cons] at w1 hlen ⊢
        omega
      · rw [hrun, w3, hu]
        simp only [List.length_append, List.length_cons, List.length_nil, List.append_assoc,
          List.cons_append, List.nil_append, Prod.mk.injEq, true_and]
        omega
    have hset : ∀ (v : Nat) (used S' : List Nat), c :: S = used ++ S' →
        (pre ++ ((g :: gs) ++ (c :: S ++ t :: R))).set pre.length v =
          (pre ++ [v]) ++ ((gs ++ used) ++ (S' ++ t :: R)) := fun v used S' h => by
      rw [set_gap, h]
      simp only [List.append_assoc]
    by_cases hstop : c = 34 ∨ c = 13 ∨ c = 10
    · refine stop (unquote_stop c S hstop) (unescape_step_stop _ _ _ _ _ ?_)
      rw [h0]; omega
    · have hcond : pre.length + (g :: gs).length < e ∧
          rd (pre ++ ((g :: gs) ++ (c :: S ++ t :: R))) (pre.length + (g :: gs).length) ≠ 34 ∧
          rd (pre ++ ((g :: gs) ++ (c :: S ++ t :: R))) (pre.length + (g :: gs).length) ≠ 13 ∧
          rd (pre ++ ((g :: gs) ++ (c :: S ++ t :: R))) (pre.length + (g :: gs).length) ≠ 10 := by
        rw [h0]; exact ⟨hpe, by omega, by omega, by omega⟩
      by_cases h92 : c = 92
      · cases S with
        | nil =>
          refine stop (by rw [h92]; exact unquote_bs_nil)
            (unescape_step_bs_stop _ _ _ _ _ hcond (by rw [h0]; exact h92) ?_)
          rw [h1]
          simp only [List.nil_append, rd_cons_zero]
          rcases ht with ht | ⟨ht, _⟩
          · exact Or.inr (Or.inl ht)
          · exact Or.inr (Or.inr ht)
        | cons x r =>
          have hx := hS x (List.mem_cons_of_mem _ (List.mem_cons_self _ _))
          have h1' : rd (pre ++ ((g :: gs) ++ (c :: (x :: r) ++ t :: R)))
              (pre.length + (g :: gs).length + 1) = x := by rw [h1]; rfl
          by_cases hx13 : x = 13
          · refine stop (by rw [h92, unquote_bs_cons, if_pos (Or.inl hx13)])
              (unescape_step_bs_stop _ _ _ _ _ hcond (by rw [h0]; exact h92) ?_)
            rw [h1']; exact Or.inl hx13
          · have hxs : ¬ (x = 13 ∨ x = 10 ∨ x = 0) := by
              have := hx.1; have := hx.2; omega
            refine cont (escape_char x) [c, x] r rfl (by simp)
              (by rw [h92, unquote_bs_cons, if_neg hxs]) ?_
            rw [unescape_step_bs _ _ _ _ _ hcond (by rw [h0]; exact h92) (by rw [h1']; exact hxs),
              h1', hset _ [c, x] r rfl]
            congr 1 <;>
              (simp only [List.length_append, List.length_cons, List.length_nil]; try omega)
      · refine cont c [c] S rfl (by simp) (unquote_plain c S hstop h92) ?_
        rw [unescape_step_plain _ _ _ _ _ hcond (by rw [h0]; exact h92), h0, hset _ [c] S rfl]
        congr 1 <;>
          (simp only [List.length_append, List.length_cons, List.length_nil]; try omega)

/-! ## Tokenizing one line -/

theorem split_loop_step (d : List Nat) (e p : Nat) (hp : p < e) :
    split_loop e (e - p) d p =
      split_loop e (e - (split_step d e p).2) (split_step d e p).1 (split_step d e p).2 := by
  obtain ⟨m, hm⟩ : ∃ m, e - p = m + 1 := ⟨e - p - 1, by omega⟩
  have hgt := split_step_gt d e p hp
  rw [hm]
  simp only [split_loop, hp, if_true]
  exact split_loop_fuel e m _ _ (by omega)

theorem split_loop_done (d : List Nat) (e f p : Nat) (hp : e ≤ p) : split_loop e f d p = d := by
  cases f with
  | zero => rfl
  | succ f => simp [split_loop, Nat.not_lt.2 hp]

theorem set_length_append (A : List Nat) (t v : Nat) (R : List Nat) :
    (A ++ t :: R).set A.length v = A ++ v :: R := by
  simp

theorem rd_length_append (A : List Nat) (t : Nat) (R : List Nat) :
    rd (A ++ t :: R) A.length = t := by
  have := rd_append_right A (t :: R) 0
  simpa using this

/-- At the end of a line: a line feed becomes NUL, the sentinel stays. -/
theorem split_loop_line_end (A : List Nat) (t e : Nat) (h : line_end t e A.length) :
    split_loop e (e - A.length) (A ++ [t]) A.length = A ++ [0] := by
  rcases h with ⟨ht, he⟩ | ⟨ht, he⟩
  · subst ht he
    rw [split_loop_step _ _ _ (by omega)]
    have hs : split_step (A ++ [10]) (A.length + 1) A.length = (A ++ [0], A.length + 1) := by
      unfold split_step
      rw [rd_length_append]
      simp only
      rw [if_pos (show (10 = 13 ∨ True ∨ 10 = 9 ∨ 10 = 32) from Or.inr (Or.inl trivial)),
        set_length_append]
    rw [hs]
    exact split_loop_done _ _ _ _ (Nat.le_refl _)
  · subst ht he
    exact split_loop_done _ _ _ _ (Nat.le_refl _)

/-- A leading blank byte (or NUL, or line feed) becomes NUL and the rest of the
buffer is tokenized as if it stood at the start. -/
theorem split_loop_blank (c : Nat) (D : List Nat) (e : Nat)
    (hc : c = 13 ∨ c = 10 ∨ c = 9 ∨ c = 32 ∨ c = 0) :
    split_loop (e + 1) (e + 1) (c :: D) 0 = 0 :: split_loop e e D 0 := by
  have hs : split_step (c :: D) (e + 1) 0 = (0 :: D, 1) := by
    unfold split_step
    simp only [rd_cons_zero]
    by_cases h : c = 13 ∨ c = 10 ∨ c = 9 ∨ c = 32
    · rw [if_pos h]; rfl
    · have h0 : c = 0 := by omega
      rw [if_neg h, if_pos h0, h0]
  have := split_loop_step (c :: D) (e + 1) 0 (Nat.succ_pos _)
  rw [Nat.sub_zero, hs] at this
  rw [this]
  simp only [Nat.add_sub_cancel]
  have hsh := split_loop_shift [0] (Or.inr (by decide)) e (e + 1 - 1) D 0
  simp only [List.length_singleton, Nat.add_zero, List.singleton_append,
    Nat.add_sub_cancel] at hsh
  rw [Nat.add_comm 1 e] at hsh
  rw [hsh]

theorem split_loop_blanks : ∀ (pad D : List Nat) (e : Nat), pad_ok pad = true →
    split_loop (pad.length + e) (pad.length + e) (pad ++ D) 0 =
      List.replicate pad.length 0 ++ split_loop e e D 0
  | [], D, e, _ => by simp
  | b :: pad, D, e, h => by
    have hb := (pad_ok_iff _).1 h
    have hbb := hb b (List.mem_cons_self _ _)
    have ih := split_loop_blanks pad D e ((pad_ok_iff _).2
      (fun x hx => hb x (List.mem_cons_of_mem _ hx)))
    have e1 : (b :: pad).length + e = (pad.length + e) + 1 := by
      simp only [List.length_cons]; omega
    rw [e1, List.cons_append, split_loop_blank b _ _ (by omega), ih]
    simp [List.replicate_succ]

/-- Blanks in front of a line become NUL bytes. -/
theorem tokenizes_to_pad (pad line img : List Nat) (hp : pad_ok pad = true)
    (h : tokenizes_to line img) :
    tokenizes_to (pad ++ line) (List.replicate pad.length 0 ++ img) := by
  intro t e he
  have he' : line_end t (e - pad.length) line.length := by
    rcases he with ⟨h1, h2⟩ | ⟨h1, h2⟩
    · left; refine ⟨h1, ?_⟩; simp only [List.length_append] at h2; omega
    · right; refine ⟨h1, ?_⟩; simp only [List.length_append] at h2; omega
  have hle : pad.length ≤ e := by
    rcases he with ⟨_, h2⟩ | ⟨_, h2⟩ <;> (simp only [List.length_append] at h2; omega)
  have := split_loop_blanks pad (line ++ [t]) (e - pad.length) hp
  rw [Nat.add_sub_cancel' hle] at this
  rw [List.append_assoc, this, h t _ he', List.append_assoc]

/-- A line that one iteration of the main loop turns into `img`, the cursor
ending at the end of the line. -/
theorem tokenizes_to_of_step (line img : List Nat) (hne : line ≠ [])
    (hlen : img.length = line.length)
    (h : ∀ t e, line_end t e line.length →
      split_step (line ++ [t]) e 0 = (img ++ [t], line.length)) :
    tokenizes_to line img := by
  intro t e he
  have hpos : 0 < line.length := List.length_pos.2 hne
  have hlt : 0 < e := by
    rcases he with ⟨_, h2⟩ | ⟨_, h2⟩ <;> omega
  have := split_loop_step (line ++ [t]) e 0 hlt
  rw [Nat.sub_zero, h t e he] at this
  rw [this, ← hlen]
  exact split_loop_line_end img t e (by rw [hlen]; exact he)

theorem tokenizes_to_nil : tokenizes_to [] [] := by
  intro t e he
  have := split_loop_line_end [] t e he
  simpa using this

/-- The two uses of a tokenized line: as a block that ends in a line feed, and
as the whole content of a file. -/
theorem split_block_of_tokenizes_to (line img : List Nat) (h : tokenizes_to line img) :
    split_block (line ++ [10]) = img ++ [0] := by
  have := h 10 (line.length + 1) (Or.inl ⟨rfl, rfl⟩)
  unfold split_block
  simpa using this

theorem ini_load_of_tokenizes_to (line img : List Nat) (h : tokenizes_to line img) :
    (ini_load line).data = img ++ [0] := by
  have := h 0 line.length (Or.inr ⟨rfl, rfl⟩)
  simpa [ini_load, split_data] using this

/-! ## Lines that are blanked out -/

theorem discard_line_seg (A : List Nat) (t : Nat) (R : List Nat) (e : Nat)
    (hA : ∀ x ∈ A, x ≠ 10) (ht : t = 10 ∨ e = A.length) (he : A.length ≤ e) :
    discard_line (A ++ t :: R) e 0 = (List.replicate A.length 0 ++ t :: R, A.length) := by
  unfold discard_line
  exact discard_loop_seg A t R e (e - 0) hA ht he (by omega)

theorem line_end_cases {t e n : Nat} (h : line_end t e n) :
    (t = 10 ∨ t = 0) ∧ (t = 10 ∨ e = n) ∧ n ≤ e := by
  rcases h with ⟨h1, h2⟩ | ⟨h1, h2⟩
  · exact ⟨Or.inl h1, Or.inl h1, by omega⟩
  · exact ⟨Or.inr h1, Or.inr h2, by omega⟩

/-- A comment line becomes NUL bytes. -/
theorem tokenizes_to_comment (A : List Nat) (hA : ∀ x ∈ A, x ≠ 10) :
    tokenizes_to (59 :: A) (List.replicate (A.length + 1) 0) := by
  refine tokenizes_to_of_step _ _ (by simp) (by simp) ?_
  intro t e he
  obtain ⟨_, h2, h3⟩ := line_end_cases he
  unfold split_step
  simp only [List.cons_append, rd_cons_zero, if_true]
  have := discard_line_seg (59 :: A) t [] e
    (fun x hx => by
      rcases List.mem_cons.1 hx with h | h
      · omega
      · exact hA x h) h2 h3
  simpa using this

/-- A line without `=` whose first byte starts a key becomes NUL bytes. -/
theorem tokenizes_to_no_eq (c : Nat) (A : List Nat)
    (hc : ¬ (c = 13 ∨ c = 10 ∨ c = 9 ∨ c = 32) ∧ c ≠ 0 ∧ c ≠ 91 ∧ c ≠ 59)
    (hA : ∀ x ∈ c :: A, x ≠ 0 ∧ x ≠ 10 ∧ x ≠ 61) :
    tokenizes_to (c :: A) (List.replicate (A.length + 1) 0) := by
  refine tokenizes_to_of_step _ _ (by simp) (by simp) ?_
  intro t e he
  obtain ⟨h1, h2, h3⟩ := line_end_cases he
  have hk : strcspn [61, 10] ((c :: A) ++ t :: []) = (c :: A).length :=
    strcspn_seg [61, 10] (c :: A) t [] (fun x hx => by
      have := hA x hx
      simp only [List.mem_cons, List.mem_singleton, List.not_mem_nil, or_false]
      omega) (by
      rcases h1 with h | h
      · right; simp [h]
      · left; exact h)
  have hd := discard_line_seg (c :: A) t [] e (fun x hx => (hA x hx).2.1) h2 h3
  unfold split_step
  simp only [List.cons_append, rd_cons_zero]
  rw [if_neg hc.1, if_neg hc.2.1, if_neg hc.2.2.1, if_neg hc.2.2.2]
  unfold split_default
  simp only [List.drop_zero, Nat.zero_add]
  simp only [List.cons_append] at hk hd
  rw [hk]
  have hr : rd (c :: (A ++ [t])) (c :: A).length = t := by
    have := rd_length_append (c :: A) t []
    simpa using this
  rw [hr, if_pos (by omega), hd]
  simp

/-! ## Lines with `=` -/

theorem mem_trim_back_from : ∀ (n : Nat) (d : List Nat) (x : Nat),
    x ∈ trim_back_from d n → x = 0 ∨ x ∈ d
  | 0, d, x, h => by
    simp only [trim_back_from] at h
    split at h
    · rcases List.mem_or_eq_of_mem_set h with h | h
      · exact Or.inr h
      · exact Or.inl h
    · exact Or.inr h
  | n + 1, d, x, h => by
    simp only [trim_back_from] at h
    split at h
    · rcases mem_trim_back_from n _ x h with h | h
      · exact Or.inl h
      · rcases List.mem_or_eq_of_mem_set h with h | h
        · exact Or.inr h
        · exact Or.inl h
    · exact Or.inr h

theorem mem_trim_back (d : List Nat) (i : Int) (x : Nat) (h : x ∈ trim_back d i) :
    x = 0 ∨ x ∈ d := by
  unfold trim_back at h
  split at h
  · exact mem_trim_back_from _ _ _ h
  · exact Or.inr h

/-- The `default:` arm on a line with `=`: up to the first byte of the value. -/
theorem split_default_key (pre pad3 : List Nat) (y : Nat) (rest : List Nat) (e : Nat)
    (hpre : ∀ x ∈ pre, x ≠ 0 ∧ x ≠ 10 ∧ x ≠ 61) (hpad : pad_ok pad3 = true)
    (hy : ¬ (y = 32 ∨ y = 9 ∨ y = 13)) :
    split_default (pre ++ 61 :: (pad3 ++ y :: rest)) e 0 =
      split_value (trim_back pre ((pre.length : Int) - 1) ++
          0 :: (List.replicate pad3.length 0 ++ y :: rest)) e 0
        (pre.length + (pad3.length + 1)) := by
  have hk : strcspn [61, 10] (pre ++ 61 :: (pad3 ++ y :: rest)) = pre.length :=
    strcspn_seg [61, 10] pre 61 _ (fun x hx => by
      have := hpre x hx
      simp only [List.mem_cons, List.mem_singleton, List.not_mem_nil, or_false]
      omega) (Or.inr (by simp))
  unfold split_default
  simp only [List.drop_zero, Nat.zero_add, hk, rd_length_append]
  rw [if_neg (by simp), trim_back_local pre _ pre.length (Nat.le_refl _)]
  have hlen : (trim_back pre ((pre.length : Int) - 1)).length = pre.length := trim_back_length _ _
  have hs := eq_loop_shift (trim_back pre ((pre.length : Int) - 1))
    ((trim_back pre ((pre.length : Int) - 1) ++ 61 :: (pad3 ++ y :: rest)).length - pre.length)
    (61 :: (pad3 ++ y :: rest)) 0
  rw [hlen, Nat.add_zero] at hs
  rw [hs, eq_loop_seg pad3 61 y rest _ hpad hy (by
    simp only [List.length_append, List.length_cons, hlen]; omega)]

/-- The value is missing: the whole line is blanked. -/
theorem split_value_missing (A : List Nat) (t : Nat) (R : List Nat) (e : Nat)
    (hA : ∀ x ∈ A, x ≠ 10) (ht : t = 10 ∨ t = 0) (he : t = 10 ∨ e = A.length)
    (hle : A.length ≤ e) :
    split_value (A ++ t :: R) e 0 A.length = (List.replicate A.length 0 ++ t :: R, A.length) := by
  unfold split_value
  rw [rd_length_append, if_pos ht]
  exact discard_line_seg A t R e hA he hle

/-- The value is quoted. -/
theorem split_value_quoted (A S : List Nat) (t : Nat) (R : List Nat) (e : Nat)
    (hA : ∀ x ∈ A, x ≠ 10) (hS : ∀ x ∈ S, x ≠ 10 ∧ x ≠ 0)
    (ht : t = 10 ∨ (t = 0 ∧ e = A.length + 1 + S.length)) (hle : A.length + 1 + S.length ≤ e) :
    split_value (A ++ 34 :: (S ++ t :: R)) e 0 A.length =
      if unquote S = [] then
        (List.replicate (A.length + 1 + S.length) 0 ++ t :: R, A.length + 1 + S.length)
      else
        (A ++ (unquote S ++ (List.replicate (1 + S.length - (unquote S).length) 0 ++ t :: R)),
          A.length + 1 + S.length) := by
  obtain ⟨W, w1, w2, w3⟩ := unescape_loop_seg S.length S A [34] t R e (e - (A.length + 1))
    (Nat.le_refl _) hS (by simp) (by simp) (by simpa using hle) (by simpa using ht)
    (by omega)
  simp only [List.length_cons, List.length_nil, Nat.zero_add, List.singleton_append] at w1 w3
  have he' : t = 10 ∨ e = A.length + 1 + S.length := by
    rcases ht with h | ⟨_, h⟩
    · exact Or.inl h
    · exact Or.inr h
  unfold split_value
  rw [rd_length_append, if_neg (by omega), if_pos rfl]
  unfold unescape_quoted_value
  by_cases hu : unquote S = []
  · rw [if_pos hu]
    rw [hu] at w1 w3
    simp only [List.length_nil, Nat.add_zero, List.nil_append] at w1 w3
    simp only [w3, if_true]
    have := discard_line_seg (A ++ W) t R e (fun x hx => by
      rcases List.mem_append.1 hx with h | h
      · exact hA x h
      · exact w2 x h) (by simp only [List.length_append]; omega)
      (by simp only [List.length_append]; omega)
    simp only [List.length_append, List.append_assoc] at this
    rw [this, w1, Nat.add_assoc]
  · have hpos : 0 < (unquote S).length := List.length_pos.2 hu
    simp only [w3]
    rw [if_neg hu, if_neg (by omega)]
    have hle2 : (A ++ unquote S).length ≤ e := by
      simp only [List.length_append]; omega
    have hd := discard_line_shift (A ++ unquote S) (W ++ t :: R) (e - (A ++ unquote S).length) 0
    rw [Nat.add_sub_cancel' hle2, Nat.add_zero] at hd
    simp only [List.length_append, List.append_assoc] at hd
    rw [hd, discard_line_seg W t R _ w2 (by omega) (by omega)]
    have hW : W.length = 1 + S.length - (unquote S).length := by omega
    simp only [List.append_assoc, hW, Prod.mk.injEq, true_and]
    omega

/-- The value is plain (unquoted). -/
theorem split_value_plain (A V pad4 : List Nat) (t : Nat) (R : List Nat) (e : Nat)
    (hV : value_ok V = true) (hpad : pad_ok pad4 = true) (ht : t = 10 ∨ t = 0) :
    split_value (A ++ (V ++ (pad4 ++ t :: R))) e 0 A.length =
      (A ++ (V ++ (List.replicate pad4.length 0 ++ t :: R)),
        A.length + (V.length + pad4.length)) := by
  simp only [value_ok, Bool.and_eq_true, decide_eq_true_eq, Bool.not_eq_true',
    List.all_eq_true, is_blank, decide_eq_false_iff_not, ne_eq] at hV
  obtain ⟨⟨⟨⟨hne, hall⟩, hfirst⟩, hq⟩, hlast⟩ := hV
  obtain ⟨v, V', rfl⟩ : ∃ v V', V = v :: V' := by
    cases V with
    | nil => exact absurd rfl hne
    | cons v V' => exact ⟨v, V', rfl⟩
  simp only [rd_cons_zero] at hfirst hq
  have hv := hall v (List.mem_cons_self _ _)
  have hr : rd (A ++ (v :: V' ++ (pad4 ++ t :: R))) A.length = v := by
    rw [List.cons_append]; exact rd_length_append A v _
  have hpad' := (pad_ok_iff _).1 hpad
  have hk : strcspn [10] ((v :: V' ++ pad4) ++ t :: R) = (v :: V' ++ pad4).length :=
    strcspn_seg [10] _ t R (fun x hx => by
      simp only [List.mem_singleton]
      rcases List.mem_append.1 hx with h | h
      · have := hall x h; omega
      · have := hpad' x h; omega) (by
      rcases ht with h | h
      · right; simp [h]
      · left; exact h)
  unfold split_value
  rw [hr, if_neg (by omega), if_neg (by omega)]
  simp only
  have hdrop : (A ++ (v :: V' ++ (pad4 ++ t :: R))).drop A.length =
      (v :: V' ++ pad4) ++ t :: R := by
    rw [List.drop_left]; simp
  rw [hdrop, hk]
  have hcl : closed_left (A ++ (v :: V')) := by
    right
    have : (A ++ v :: V').length - 1 = A.length + ((v :: V').length - 1) := by
      simp only [List.length_append, List.length_cons]; omega
    rw [this, rd_append_right]
    omega
  have htb := trim_back_seg (A ++ (v :: V')) pad4 (t :: R) hcl hpad
  simp only [List.length_append, List.append_assoc, Nat.add_assoc] at htb ⊢
  rw [htb]

/-- A line with `=` whose first byte starts a key: the main loop takes the
`default:` arm, and what remains is the handling of the value. -/
theorem tokenizes_to_eq_line (pre pad3 rest img : List Nat)
    (hfirst : ¬ (rd (pre ++ [61]) 0 = 13 ∨ rd (pre ++ [61]) 0 = 10 ∨ rd (pre ++ [61]) 0 = 9 ∨
        rd (pre ++ [61]) 0 = 32) ∧ rd (pre ++ [61]) 0 ≠ 0 ∧ rd (pre ++ [61]) 0 ≠ 91 ∧
        rd (pre ++ [61]) 0 ≠ 59)
    (hpre : ∀ x ∈ pre, x ≠ 0 ∧ x ≠ 10 ∧ x ≠ 61) (hpad : pad_ok pad3 = true)
    (hy : rest = [] ∨ ¬ (rd rest 0 = 32 ∨ rd rest 0 = 9 ∨ rd rest 0 = 13))
    (hlen : img.length = (pre ++ 61 :: (pad3 ++ rest)).length)
    (hval : ∀ t e, line_end t e (pre ++ 61 :: (pad3 ++ rest)).length →
      split_value (trim_back pre ((pre.length : Int) - 1) ++
          0 :: (List.replicate pad3.length 0 ++ (rest ++ [t]))) e 0
        (pre.length + (pad3.length + 1)) = (img ++ [t], (pre ++ 61 :: (pad3 ++ rest)).length)) :
    tokenizes_to (pre ++ 61 :: (pad3 ++ rest)) img := by
  refine tokenizes_to_of_step _ _ (by simp) hlen ?_
  intro t e he
  obtain ⟨h1, _, _⟩ := line_end_cases he
  have hr : rd ((pre ++ 61 :: (pad3 ++ rest)) ++ [t]) 0 = rd (pre ++ [61]) 0 := by
    cases pre <;> rfl
  unfold split_step
  simp only
  rw [hr, if_neg hfirst.1, if_neg hfirst.2.1, if_neg hfirst.2.2.1, if_neg hfirst.2.2.2]
  obtain ⟨y, rest', hyr, hyb⟩ : ∃ y rest', rest ++ [t] = y :: rest' ∧
      ¬ (y = 32 ∨ y = 9 ∨ y = 13) := by
    cases rest with
    | nil => exact ⟨t, [], rfl, by omega⟩
    | cons y r =>
      refine ⟨y, r ++ [t], rfl, ?_⟩
      rcases hy with h | h
      · exact absurd h (by simp)
      · simpa using h
  have hb : (pre ++ 61 :: (pad3 ++ rest)) ++ [t] = pre ++ 61 :: (pad3 ++ y :: rest') := by
    rw [← hyr]; simp
  rw [hb, split_default_key pre pad3 y rest' e hpre hpad hyb, ← hyr]
  exact hval t e he

theorem mem_replicate_zero {n x : Nat} (h : x ∈ List.replicate n 0) : x = 0 :=
  (List.mem_replicate.1 h).2

/-- What `trim_back` leaves of the key segment has no line feed. -/
theorem key_segment_no_lf (pre pad3 : List Nat) (hpre : ∀ x ∈ pre, x ≠ 0 ∧ x ≠ 10 ∧ x ≠ 61) :
    ∀ x ∈ trim_back pre ((pre.length : Int) - 1) ++ 0 :: List.replicate pad3.length 0,
      x ≠ 10 := by
  intro x hx
  rcases List.mem_append.1 hx with h | h
  · rcases mem_trim_back _ _ _ h with h | h
    · omega
    · exact (hpre x h).2.1
  · rcases List.mem_cons.1 h with h | h
    · omega
    · have := mem_replicate_zero h; omega

/-- A line with nothing but blanks after its first `=` becomes NUL bytes. -/
theorem tokenizes_to_missing (pre pad3 : List Nat)
    (hfirst : ¬ (rd (pre ++ [61]) 0 = 13 ∨ rd (pre ++ [61]) 0 = 10 ∨ rd (pre ++ [61]) 0 = 9 ∨
        rd (pre ++ [61]) 0 = 32) ∧ rd (pre ++ [61]) 0 ≠ 0 ∧ rd (pre ++ [61]) 0 ≠ 91 ∧
        rd (pre ++ [61]) 0 ≠ 59)
    (hpre : ∀ x ∈ pre, x ≠ 0 ∧ x ≠ 10 ∧ x ≠ 61) (hpad : pad_ok pad3 = true) :
    tokenizes_to (pre ++ 61 :: pad3)
      (List.replicate (pre ++ 61 :: pad3).length 0) := by
  have h := tokenizes_to_eq_line pre pad3 []
    (List.replicate (pre ++ 61 :: pad3).length 0) hfirst hpre hpad (Or.inl rfl) (by simp) ?_
  · simpa using h
  · intro t e he
    obtain ⟨h1, h2, h3⟩ := line_end_cases he
    have hl : (trim_back pre ((pre.length : Int) - 1) ++
        0 :: List.replicate pad3.length 0).length = pre.length + (pad3.length + 1) := by
      simp [trim_back_length]
    have := split_value_missing
      (trim_back pre ((pre.length : Int) - 1) ++ 0 :: List.replicate pad3.length 0) t [] e
      (key_segment_no_lf pre pad3 hpre) h1
      (by rw [hl]; simp only [List.length_append, List.length_cons, List.append_nil] at h2; omega)
      (by rw [hl]; simp only [List.length_append, List.length_cons, List.append_nil] at h3; omega)
    rw [hl] at this
    simp only [List.append_assoc, List.cons_append, List.nil_append, List.append_nil] at this ⊢
    rw [this]
    simp only [List.length_append, List.length_cons, Prod.mk.injEq]

/-- A line whose value is quoted: it is blanked when the decoded text is
empty; otherwise the decoded text is the value and the rest of the line
becomes NUL bytes. -/
theorem tokenizes_to_quoted (pre pad3 S : List Nat)
    (hfirst : ¬ (rd (pre ++ [61]) 0 = 13 ∨ rd (pre ++ [61]) 0 = 10 ∨ rd (pre ++ [61]) 0 = 9 ∨
        rd (pre ++ [61]) 0 = 32) ∧ rd (pre ++ [61]) 0 ≠ 0 ∧ rd (pre ++ [61]) 0 ≠ 91 ∧
        rd (pre ++ [61]) 0 ≠ 59)
    (hpre : ∀ x ∈ pre, x ≠ 0 ∧ x ≠ 10 ∧ x ≠ 61) (hpad : pad_ok pad3 = true)
    (hS : ∀ x ∈ S, x ≠ 10 ∧ x ≠ 0) :
    tokenizes_to (pre ++ 61 :: (pad3 ++ 34 :: S))
      (if unquote S = [] then List.replicate (pre ++ 61 :: (pad3 ++ 34 :: S)).length 0
       else trim_back pre ((pre.length : Int) - 1) ++ 0 :: (List.replicate pad3.length 0 ++
         (unquote S ++ List.replicate (1 + S.length - (unquote S).length) 0))) := by
  have hul : (unquote S).length ≤ 1 + S.length := by
    obtain ⟨W, w1, _, _⟩ := unescape_loop_seg S.length S [] [34] 10 [] (1 + S.length) S.length
      (Nat.le_refl _) hS (by simp) (by simp) (by simp) (Or.inl rfl) (Nat.le_refl _)
    simp only [List.length_cons, List.length_nil] at w1
    omega
  refine tokenizes_to_eq_line pre pad3 (34 :: S) _ hfirst hpre hpad
    (Or.inr (by simp)) ?_ ?_
  · split
    · simp
    · simp only [List.length_append, List.length_cons, List.length_replicate, trim_back_length]
      omega
  · intro t e he
    have hl : (trim_back pre ((pre.length : Int) - 1) ++
        0 :: List.replicate pad3.length 0).length = pre.length + (pad3.length + 1) := by
      simp [trim_back_length]
    have hll : (pre ++ 61 :: (pad3 ++ 34 :: S)).length =
        pre.length + (pad3.length + 1) + 1 + S.length := by
      simp only [List.length_append, List.length_cons]; omega
    have := split_value_quoted
      (trim_back pre ((pre.length : Int) - 1) ++ 0 :: List.replicate pad3.length 0) S t [] e
      (key_segment_no_lf pre pad3 hpre) hS
      (by
        rw [hl]
        rcases he with ⟨h1, h2⟩ | ⟨h1, h2⟩
        · exact Or.inl h1
        · exact Or.inr ⟨h1, by rw [h2, hll]⟩)
      (by rw [hl]; obtain ⟨_, _, h3⟩ := line_end_cases he; omega)
    rw [hl] at this
    simp only [List.append_assoc, List.cons_append, List.nil_append] at this ⊢
    rw [this, hll]
    split
    · simp only [Prod.mk.injEq, and_true]
    · simp only [List.append_assoc, List.cons_append, Prod.mk.injEq, and_true]

/-- `trim_back` on a key followed by blanks removes exactly the blanks. -/
theorem trim_back_key (K pad2 : List Nat) (hK : key_ok K = true) (hpad : pad_ok pad2 = true) :
    trim_back (K ++ pad2) (((K ++ pad2).length : Int) - 1) =
      K ++ List.replicate pad2.length 0 := by
  have hcl : closed_left K := by
    right
    simp only [key_ok, Bool.and_eq_true, Bool.not_eq_true', is_blank,
      decide_eq_false_iff_not] at hK
    exact hK.2
  have := trim_back_seg K pad2 [] hcl hpad
  simpa using this

/-- The bytes of a key followed by blanks are neither NUL, line feed nor `=`,
and the first of them starts a key. -/
theorem key_pad_bytes (K pad2 : List Nat) (hK : key_ok K = true) (hpad : pad_ok pad2 = true) :
    (∀ x ∈ K ++ pad2, x ≠ 0 ∧ x ≠ 10 ∧ x ≠ 61) ∧
    (¬ (rd ((K ++ pad2) ++ [61]) 0 = 13 ∨ rd ((K ++ pad2) ++ [61]) 0 = 10 ∨
        rd ((K ++ pad2) ++ [61]) 0 = 9 ∨ rd ((K ++ pad2) ++ [61]) 0 = 32) ∧
      rd ((K ++ pad2) ++ [61]) 0 ≠ 0 ∧ rd ((K ++ pad2) ++ [61]) 0 ≠ 91 ∧
      rd ((K ++ pad2) ++ [61]) 0 ≠ 59) := by
  simp only [key_ok, Bool.and_eq_true, decide_eq_true_eq, Bool.not_eq_true',
    List.all_eq_true, is_blank, decide_eq_false_iff_not, ne_eq] at hK
  obtain ⟨⟨⟨⟨⟨hne, hall⟩, hb⟩, h91⟩, h59⟩, _⟩ := hK
  have hpad' := (pad_ok_iff _).1 hpad
  constructor
  · intro x hx
    rcases List.mem_append.1 hx with h | h
    · have := hall x h
      exact ⟨this.1.1, this.1.2, this.2⟩
    · have := hpad' x h; omega
  · cases K with
    | nil => exact absurd rfl hne
    | cons k K' =>
      have hk := hall k (List.mem_cons_self _ _)
      simp only [rd_cons_zero, List.cons_append] at hb h91 h59 ⊢
      refine ⟨by omega, hk.1.1, h91, h59⟩

/-- A well-formed plain key/value line, with any padding: the key and the
value stay, everything else becomes NUL bytes. -/
theorem tokenizes_to_plain (K pad2 pad3 V pad4 : List Nat) (hK : key_ok K = true)
    (hV : value_ok V = true) (h2 : pad_ok pad2 = true) (h3 : pad_ok pad3 = true)
    (h4 : pad_ok pad4 = true) :
    tokenizes_to ((K ++ pad2) ++ 61 :: (pad3 ++ (V ++ pad4)))
      (K ++ (List.replicate pad2.length 0 ++ 0 :: (List.replicate pad3.length 0 ++
        (V ++ List.replicate pad4.length 0)))) := by
  obtain ⟨hb, hf⟩ := key_pad_bytes K pad2 hK h2
  have hV' := hV
  simp only [value_ok, Bool.and_eq_true, decide_eq_true_eq, Bool.not_eq_true',
    List.all_eq_true, is_blank, decide_eq_false_iff_not, ne_eq] at hV'
  obtain ⟨⟨⟨⟨hne, _⟩, hfirst⟩, _⟩, _⟩ := hV'
  refine tokenizes_to_eq_line (K ++ pad2) pad3 (V ++ pad4) _ hf hb h3 (Or.inr ?_) ?_ ?_
  · cases V with
    | nil => exact absurd rfl hne
    | cons v V' => simpa using hfirst
  · simp only [List.length_append, List.length_cons, List.length_replicate]
    omega
  · intro t e he
    obtain ⟨ht, _, _⟩ := line_end_cases he
    rw [trim_back_key K pad2 hK h2]
    have := split_value_plain
      (K ++ (List.replicate pad2.length 0 ++ 0 :: List.replicate pad3.length 0)) V pad4 t [] e
      hV h4 ht
    simp only [List.length_append, List.length_cons, List.length_replicate, List.append_assoc,
      List.cons_append, Nat.add_assoc] at this ⊢
    rw [this]
    simp only [Prod.mk.injEq, true_and]
    omega

/-! ## Tokens of a tokenized line, and the lookup on a one-line file -/

theorem cstr_of_nul_free : ∀ (T : List Nat), (∀ x ∈ T, x ≠ 0) → cstr T = T
  | [], _ => rfl
  | c :: T, h => by
    have hc := h c (List.mem_cons_self _ _)
    simp only [cstr, hc, if_false]
    rw [cstr_of_nul_free T (fun x hx => h x (List.mem_cons_of_mem _ hx))]

theorem tokens_text (T : List Nat) (hne : T ≠ []) (h : ∀ x ∈ T, x ≠ 0) : tokens T = [T] := by
  have h0 : rd T 0 ≠ 0 := by
    cases T with
    | nil => exact absurd rfl hne
    | cons c T' => simpa using h c (List.mem_cons_self _ _)
  rw [tokens_of_rd_ne_zero T h0, strlen_eq_length_cstr, cstr_of_nul_free T h]
  simp [tokens]

theorem tokens_replicate_append : ∀ (n : Nat) (X : List Nat),
    tokens (List.replicate n 0 ++ X) = tokens X
  | 0, _ => by simp
  | n + 1, X => by
    simp only [List.replicate_succ, List.cons_append, tokens_cons_nul]
    exact tokens_replicate_append n X

theorem tokens_text_append_nul (T X : List Nat) (hne : T ≠ []) (h : ∀ x ∈ T, x ≠ 0) :
    tokens (T ++ 0 :: X) = T :: tokens X := by
  rw [tokens_append_nul, tokens_text T hne h]; rfl

theorem tokens_text_replicate (T : List Nat) (n : Nat) (hne : T ≠ []) (h : ∀ x ∈ T, x ≠ 0) :
    tokens (T ++ List.replicate n 0) = [T] := by
  cases n with
  | zero => simpa using tokens_text T hne h
  | succ n =>
    rw [List.replicate_succ, tokens_text_append_nul T _ hne h, tokens_replicate_nul]

/-- The tokens of a tokenized key/value line are the key and the value. -/
theorem tokens_key_value (a b c d : Nat) (K V : List Nat) (hK : K ≠ []) (hK0 : ∀ x ∈ K, x ≠ 0)
    (hV : V ≠ []) (hV0 : ∀ x ∈ V, x ≠ 0) :
    tokens (List.replicate a 0 ++ (K ++ (List.replicate b 0 ++ 0 :: (List.replicate c 0 ++
      (V ++ List.replicate d 0))))) = [K, V] := by
  rw [tokens_replicate_append, replicate_succ_append, List.replicate_succ, List.cons_append,
    tokens_text_append_nul K _ hK hK0, tokens_replicate_append, tokens_replicate_append,
    tokens_text_replicate V d hV hV0]

theorem strcmpci_refl : ∀ (a : List Nat), strcmpci a a = true
  | [] => rfl
  | x :: a => by
    rw [strcmpci_cons]
    simp only [List.headD_cons, ne_eq, not_true_eq_false, if_false, List.tail_cons]
    split
    · rfl
    · exact strcmpci_refl a

theorem ini_load_nil : (ini_load []).data = [0] := rfl

/-- The lookup on a file that consists of one line, with or without its line
feed. -/
theorem ini_get_text_one_line (line img : List Nat) (h : tokenizes_to line img)
    (sec : Option (List Nat)) (key : List Nat) :
    ini_get_text (ini_load (line ++ [10])) sec key = tok_lookup sec key [] (tokens img) ∧
    ini_get_text (ini_load line) sec key = tok_lookup sec key [] (tokens img) := by
  constructor
  · have := ini_load_append line []
    rw [List.append_nil] at this
    rw [ini_get_text_load, this, split_block_of_tokenizes_to line img h, ini_load_nil,
      tokens_append_singleton_nul, tokens_append_singleton_nul]
  · rw [ini_get_text_load, ini_load_of_tokenizes_to line img h, tokens_append_singleton_nul]

theorem key_ok_bytes (K : List Nat) (hK : key_ok K = true) :
    K ≠ [] ∧ (∀ x ∈ K, x ≠ 0) ∧ rd K 0 ≠ 91 := by
  simp only [key_ok, Bool.and_eq_true, decide_eq_true_eq, Bool.not_eq_true',
    List.all_eq_true, is_blank, decide_eq_false_iff_not, ne_eq] at hK
  obtain ⟨⟨⟨⟨⟨hne, hall⟩, _⟩, h91⟩, _⟩, _⟩ := hK
  exact ⟨hne, fun x hx => (hall x hx).1.1, h91⟩

theorem value_ok_bytes (V : List Nat) (hV : value_ok V = true) :
    V ≠ [] ∧ (∀ x ∈ V, x ≠ 0) := by
  simp only [value_ok, Bool.and_eq_true, decide_eq_true_eq, Bool.not_eq_true',
    List.all_eq_true, is_blank, decide_eq_false_iff_not, ne_eq] at hV
  obtain ⟨⟨⟨⟨hne, hall⟩, _⟩, _⟩, _⟩ := hV
  exact ⟨hne, fun x hx => (hall x hx).1⟩

/-- The lookup of a key in the two tokens of its own line, under any section
argument that matches the current section. -/
theorem tok_lookup_key_value (sec : Option (List Nat)) (cur K key V : List Nat)
    (rest : List (List Nat)) (h91 : rd K 0 ≠ 91) :
    tok_lookup sec key cur (K :: V :: rest) =
      if section_matches sec cur && strcmpci K key then some V
      else tok_lookup sec key cur rest := by
  simp [tok_lookup, h91]

/-! ## The escape decoder against the escape mapping of the specification -/

theorem escape_char_eq (x : Nat) :
    escape_char x = (if x = 114 then 13 else if x = 110 then 10 else if x = 116 then 9
      else if x = 34 then 34 else if x = 92 then 92 else x) := by
  unfold escape_char
  split_ifs <;> first | rfl | omega

theorem escape_char_ne_zero (x : Nat) (h : x ≠ 0) : escape_char x ≠ 0 := by
  unfold escape_char
  split_ifs <;> omega

/-- On a well-formed quoted body followed by its closing quote the decoder
computes the escape mapping of the specification. -/
theorem unquote_body : ∀ (n : Nat) (B : List Nat), B.length ≤ n → quoted_body_ok B = true →
    ∀ G, unquote (B ++ 34 :: G) = decode B ∧ (∀ x ∈ B, x ≠ 10 ∧ x ≠ 0) ∧
      (∀ x ∈ decode B, x ≠ 0)
  | _, [], _, _, G => by
    refine ⟨unquote_stop 34 G (Or.inl rfl), by simp, by simp [decode]⟩
  | 0, _ :: _, h, _, _ => by simp at h
  | n + 1, [c], _, hB, G => by
    simp only [quoted_body_ok, Bool.and_eq_true, decide_eq_true_eq] at hB
    obtain ⟨⟨⟨⟨h92, h34⟩, h13⟩, h10⟩, h0⟩ := hB
    refine ⟨?_, ?_, ?_⟩
    · rw [List.singleton_append, unquote_plain c _ (by omega) h92,
        unquote_stop 34 G (Or.inl rfl)]
      rfl
    · intro x hx
      rw [List.mem_singleton] at hx; subst hx; exact ⟨h10, h0⟩
    · intro x hx
      simp only [decode, List.mem_singleton] at hx; subst hx; exact h0
  | n + 1, c :: x :: r, hn, hB, G => by
    by_cases h92 : c = 92
    · subst h92
      simp only [quoted_body_ok, if_true, Bool.and_eq_true, decide_eq_true_eq] at hB
      obtain ⟨⟨⟨h13, h10⟩, h0⟩, hr⟩ := hB
      obtain ⟨i1, i2, i3⟩ := unquote_body n r (by simp at hn; omega) hr G
      refine ⟨?_, ?_, ?_⟩
      · rw [List.cons_append, List.cons_append, unquote_bs_cons, if_neg (by omega), i1,
          escape_char_eq]
        simp [decode]
      · intro y hy
        rcases List.mem_cons.1 hy with h | h
        · subst h; exact ⟨by decide, by decide⟩
        · rcases List.mem_cons.1 h with h | h
          · subst h; exact ⟨h10, h0⟩
          · exact i2 y h
      · intro y hy
        simp only [decode, if_true, List.mem_cons] at hy
        rcases hy with h | h
        · rw [h, ← escape_char_eq]; exact escape_char_ne_zero x h0
        · exact i3 y h
    · simp only [quoted_body_ok, h92, if_false, Bool.and_eq_true, decide_eq_true_eq] at hB
      obtain ⟨⟨⟨⟨h34, h13⟩, h10⟩, h0⟩, hr⟩ := hB
      obtain ⟨i1, i2, i3⟩ := unquote_body n (x :: r) (by simp at hn ⊢; omega) hr G
      refine ⟨?_, ?_, ?_⟩
      · rw [List.cons_append, unquote_plain c _ (by omega) h92, i1]
        simp [decode, h92]
      · intro y hy
        rcases List.mem_cons.1 hy with h | h
        · subst h; exact ⟨h10, h0⟩
        · exact i2 y h
      · intro y hy
        simp only [decode, h92, if_false, List.mem_cons] at hy
        rcases hy with h | h
        · subst h; exact h0
        · exact i3 y (by simpa [decode] using h)

theorem unquote_nul_free : ∀ (n : Nat) (S : List Nat), S.length ≤ n → (∀ x ∈ S, x ≠ 0) →
    ∀ x ∈ unquote S, x ≠ 0
  | _, [], _, _ => by simp [unquote]
  | 0, _ :: _, h, _ => by simp at h
  | n + 1, c :: S, hn, hS => by
    have hc := hS c (List.mem_cons_self _ _)
    have hS' : ∀ x ∈ S, x ≠ 0 := fun x hx => hS x (List.mem_cons_of_mem _ hx)
    by_cases hstop : c = 34 ∨ c = 13 ∨ c = 10
    · rw [unquote_stop c S hstop]; simp
    · by_cases h92 : c = 92
      · subst h92
        cases S with
        | nil => rw [unquote_bs_nil]; simp
        | cons x r =>
          rw [unquote_bs_cons]
          split
          · simp
          · intro y hy
            rcases List.mem_cons.1 hy with h | h
            · rw [h]; exact escape_char_ne_zero x (hS' x (List.mem_cons_self _ _))
            · exact unquote_nul_free n r (by simp at hn; omega)
                (fun z hz => hS' z (List.mem_cons_of_mem _ hz)) y h
      · rw [unquote_plain c S hstop h92]
        intro y hy
        rcases List.mem_cons.1 hy with h | h
        · rw [h]; exact hc
        · exact unquote_nul_free n S (by simp at hn; omega) hS' y h

/-- A key/value line with a quoted value whose decoded text is not empty: the
line is tokenized and the tokens are the key and the decoded text. -/
theorem quoted_line_tokens (pad1 K pad2 pad3 S : List Nat) (hK : key_ok K = true)
    (h1 : pad_ok pad1 = true) (h2 : pad_ok pad2 = true) (h3 : pad_ok pad3 = true)
    (hS : ∀ x ∈ S, x ≠ 10 ∧ x ≠ 0) (hu : unquote S ≠ []) :
    ∃ img, tokenizes_to (pad1 ++ ((K ++ pad2) ++ 61 :: (pad3 ++ 34 :: S))) img ∧
      tokens img = [K, unquote S] := by
  obtain ⟨hb, hf⟩ := key_pad_bytes K pad2 hK h2
  obtain ⟨hKne, hK0, _⟩ := key_ok_bytes K hK
  have ht := tokenizes_to_pad pad1 _ _ h1 (tokenizes_to_quoted (K ++ pad2) pad3 S hf hb h3 hS)
  rw [if_neg hu, trim_back_key K pad2 hK h2] at ht
  refine ⟨_, ht, ?_⟩
  have := tokens_key_value pad1.length pad2.length pad3.length
    (1 + S.length - (unquote S).length) K (unquote S) hKne hK0 hu
    (unquote_nul_free S.length S (Nat.le_refl _) (fun x hx => (hS x hx).2))
  simpa using this

/-- The same line when the decoded text is empty: it becomes NUL bytes. -/
theorem quoted_line_blank (pad1 pre pad3 S : List Nat)
    (hfirst : ¬ (rd (pre ++ [61]) 0 = 13 ∨ rd (pre ++ [61]) 0 = 10 ∨ rd (pre ++ [61]) 0 = 9 ∨
        rd (pre ++ [61]) 0 = 32) ∧ rd (pre ++ [61]) 0 ≠ 0 ∧ rd (pre ++ [61]) 0 ≠ 91 ∧
        rd (pre ++ [61]) 0 ≠ 59)
    (hpre : ∀ x ∈ pre, x ≠ 0 ∧ x ≠ 10 ∧ x ≠ 61)
    (h1 : pad_ok pad1 = true) (h3 : pad_ok pad3 = true)
    (hS : ∀ x ∈ S, x ≠ 10 ∧ x ≠ 0) (hu : unquote S = []) :
    tokenizes_to (pad1 ++ (pre ++ 61 :: (pad3 ++ 34 :: S)))
      (List.replicate (pad1 ++ (pre ++ 61 :: (pad3 ++ 34 :: S))).length 0) := by
  have ht := tokenizes_to_pad pad1 _ _ h1 (tokenizes_to_quoted pre pad3 S hfirst hpre h3 hS)
  rw [if_pos hu, ← List.replicate_add, ← List.length_append] at ht
  exact ht

/-! ## A line inside a file -/

theorem split_block_nil : split_block [] = [] := rfl

theorem ini_load_whole_lines (A C : List Nat) (hA : whole_lines A) :
    (ini_load (A ++ C)).data = split_block A ++ (ini_load C).data := by
  rcases hA with h | ⟨A0, h⟩
  · subst h; simp [split_block_nil]
  · subst h; exact ini_load_append A0 C

/-- The buffer after loading a file in which `line` is a whole physical line:
the tokenized block before it, the tokenized line, and the rest. -/
theorem ini_load_line_in_context (A line img rest : List Nat) (h : tokenizes_to line img)
    (hA : whole_lines A) (hrest : at_line_end rest) :
    ∃ W, (ini_load (A ++ line ++ rest)).data = split_block A ++ (img ++ W) := by
  rw [List.append_assoc, ini_load_whole_lines A _ hA]
  rcases hrest with hr | ⟨r, hr⟩
  · subst hr
    refine ⟨[0], ?_⟩
    rw [List.append_nil, ini_load_of_tokenizes_to line img h]
  · subst hr
    refine ⟨[0] ++ (ini_load r).data, ?_⟩
    have : line ++ 10 :: r = (line ++ [10]) ++ r := by simp
    rw [this, ini_load_append, split_block_of_tokenizes_to line img h, List.append_assoc]

theorem rd_replicate_zero (n i : Nat) : rd (List.replicate n 0) i = 0 := by
  by_cases h : i < n
  · simp [rd, List.getElem?_replicate, h]
  · exact rd_of_length_le (by simpa using Nat.le_of_not_lt h)

/-- A line that is tokenized to NUL bytes is NUL in the loaded buffer. -/
theorem rd_blank_line (A line rest : List Nat)
    (h : tokenizes_to line (List.replicate line.length 0))
    (hA : whole_lines A) (hrest : at_line_end rest) (i : Nat) (h1 : A.length ≤ i)
    (h2 : i < A.length + line.length) :
    rd (ini_load (A ++ line ++ rest)).data i = 0 := by
  obtain ⟨W, hW⟩ := ini_load_line_in_context A line _ rest h hA hrest
  obtain ⟨k, rfl⟩ : ∃ k, i = (split_block A).length + k :=
    ⟨i - A.length, by rw [split_block_length]; omega⟩
  rw [hW, rd_append_right, rd_append_left W (by
    rw [split_block_length] at h2; simpa using h2)]
  exact rd_replicate_zero _ _

theorem first_ok_cons {c : Nat} {A : List Nat} (h : first_ok (c :: A) = true) :
    ¬ (c = 32 ∨ c = 9 ∨ c = 13) ∧ c ≠ 91 ∧ c ≠ 59 := by
  have : ((¬c = 32 ∧ ¬c = 9 ∧ ¬c = 13) ∧ ¬c = 91) ∧ ¬c = 59 := by
    simpa [first_ok, is_blank] using h
  exact ⟨by omega, this.1.2, this.2⟩

/-- Every malformed line of the specification is tokenized to NUL bytes. -/
theorem tokenizes_to_malformed (pad body : List Nat) (hpad : pad_ok pad = true)
    (hfirst : first_ok body = true) (hbytes : ∀ x ∈ body, x ≠ 0 ∧ x ≠ 10)
    (hmal : malformed_body body) :
    tokenizes_to (pad ++ body) (List.replicate (pad ++ body).length 0) := by
  have key : tokenizes_to body (List.replicate body.length 0) := by
    -- the first byte of a key segment `pre` followed by `=` takes the default arm
    have hpre1 : ∀ pre tl, body = pre ++ 61 :: tl →
        (¬ (rd (pre ++ [61]) 0 = 13 ∨ rd (pre ++ [61]) 0 = 10 ∨ rd (pre ++ [61]) 0 = 9 ∨
          rd (pre ++ [61]) 0 = 32) ∧ rd (pre ++ [61]) 0 ≠ 0 ∧ rd (pre ++ [61]) 0 ≠ 91 ∧
          rd (pre ++ [61]) 0 ≠ 59) := by
      intro pre tl hb
      cases pre with
      | nil => simp
      | cons c pre' =>
        rw [hb] at hfirst hbytes
        have h1 := first_ok_cons hfirst
        have h2 := hbytes c (by simp)
        simp only [List.cons_append, rd_cons_zero]
        exact ⟨by omega, h2.1, h1.2.1, h1.2.2⟩
    have hpre2 : ∀ pre tl, body = pre ++ 61 :: tl → 61 ∉ pre →
        ∀ x ∈ pre, x ≠ 0 ∧ x ≠ 10 ∧ x ≠ 61 := by
      intro pre tl hb h61 x hx
      have := hbytes x (by rw [hb]; exact List.mem_append_left _ hx)
      exact ⟨this.1, this.2, fun h => h61 (h ▸ hx)⟩
    rcases hmal with h | ⟨pre, pad3, hb, h61, hp3⟩ | ⟨pre, pad3, G, hb, h61, hp3⟩
    · cases hbody : body with
      | nil => exact tokenizes_to_nil
      | cons c A =>
        rw [hbody] at hfirst hbytes h
        have h1 := first_ok_cons hfirst
        have h2 := hbytes c (by simp)
        have := tokenizes_to_no_eq c A ⟨by omega, h2.1, h1.2.1, h1.2.2⟩
          (fun x hx => ⟨(hbytes x hx).1, (hbytes x hx).2, fun h' => h (h' ▸ hx)⟩)
        simpa using this
    · have := tokenizes_to_missing pre pad3 (hpre1 pre pad3 hb) (hpre2 pre pad3 hb h61) hp3
      rw [hb]; exact this
    · have hS : ∀ x ∈ 34 :: G, x ≠ 10 ∧ x ≠ 0 := by
        intro x hx
        have := hbytes x (by
          rw [hb]
          apply List.mem_append_right
          apply List.mem_cons_of_mem
          apply List.mem_append_right
          exact List.mem_cons_of_mem _ hx)
        exact ⟨this.2, this.1⟩
      have := tokenizes_to_quoted pre pad3 (34 :: G) (hpre1 pre _ hb) (hpre2 pre _ hb h61) hp3 hS
      rw [if_pos (unquote_stop 34 G (Or.inl rfl))] at this
      rw [hb]; exact this
  have := tokenizes_to_pad pad body _ hpad key
  rw [← List.replicate_add, ← List.length_append] at this
  exact this

/-! ## Ignored lines -/

theorem split_loop_skips : ∀ (pad D : List Nat) (e : Nat),
    (∀ x ∈ pad, x = 32 ∨ x = 9 ∨ x = 13 ∨ x = 0) →
    split_loop (pad.length + e) (pad.length + e) (pad ++ D) 0 =
      List.replicate pad.length 0 ++ split_loop e e D 0
  | [], D, e, _ => by simp
  | b :: pad, D, e, hb => by
    have hbb := hb b (List.mem_cons_self _ _)
    have ih := split_loop_skips pad D e (fun x hx => hb x (List.mem_cons_of_mem _ hx))
    have e1 : (b :: pad).length + e = (pad.length + e) + 1 := by
      simp only [List.length_cons]; omega
    rw [e1, List.cons_append, split_loop_blank b _ _ (by omega), ih]
    simp [List.replicate_succ]

/-- Skipped bytes in front of a line become (or stay) NUL bytes. -/
theorem tokenizes_to_skip (pad line img : List Nat)
    (hp : ∀ x ∈ pad, x = 32 ∨ x = 9 ∨ x = 13 ∨ x = 0) (h : tokenizes_to line img) :
    tokenizes_to (pad ++ line) (List.replicate pad.length 0 ++ img) := by
  intro t e he
  have he' : line_end t (e - pad.length) line.length := by
    rcases he with ⟨h1, h2⟩ | ⟨h1, h2⟩
    · left; refine ⟨h1, ?_⟩; simp only [List.length_append] at h2; omega
    · right; refine ⟨h1, ?_⟩; simp only [List.length_append] at h2; omega
  have hle : pad.length ≤ e := by
    rcases he with ⟨_, h2⟩ | ⟨_, h2⟩ <;> (simp only [List.length_append] at h2; omega)
  have := split_loop_skips pad (line ++ [t]) (e - pad.length) hp
  rw [Nat.add_sub_cancel' hle] at this
  rw [List.append_assoc, this, h t _ he', List.append_assoc]

/-- Where the scan for `=` stops on a line without `=`, there is no `=`. -/
theorem rd_strcspn_no_eq : ∀ (seg : List Nat) (t : Nat), 61 ∉ seg → t ≠ 61 →
    rd (seg ++ [t]) (strcspn [61, 10] (seg ++ [t])) ≠ 61
  | [], t, _, ht => by
    simp only [List.nil_append, strcspn]
    split
    · simpa using ht
    · simp
  | c :: seg, t, h, ht => by
    have hc : c ≠ 61 := fun h' => h (h' ▸ List.mem_cons_self _ _)
    simp only [List.cons_append, strcspn]
    split
    · simpa using hc
    · simp only [rd_cons_succ]
      exact rd_strcspn_no_eq seg t (fun h' => h (List.mem_cons_of_mem _ h')) ht

/-- A line without `=` whose first byte starts a key becomes NUL bytes, also
when it has NUL bytes inside. -/
theorem tokenizes_to_no_eq_nul (c : Nat) (A : List Nat)
    (hc : ¬ (c = 13 ∨ c = 10 ∨ c = 9 ∨ c = 32) ∧ c ≠ 0 ∧ c ≠ 91 ∧ c ≠ 59)
    (h61 : 61 ∉ c :: A) (h10 : ∀ x ∈ c :: A, x ≠ 10) :
    tokenizes_to (c :: A) (List.replicate (A.length + 1) 0) := by
  refine tokenizes_to_of_step _ _ (by simp) (by simp) ?_
  intro t e he
  obtain ⟨h1, h2, h3⟩ := line_end_cases he
  have hd := discard_line_seg (c :: A) t [] e h10 h2 h3
  have hr := rd_strcspn_no_eq (c :: A) t h61 (by omega)
  unfold split_step
  simp only [List.cons_append, rd_cons_zero]
  rw [if_neg hc.1, if_neg hc.2.1, if_neg hc.2.2.1, if_neg hc.2.2.2]
  unfold split_default
  simp only [List.drop_zero, Nat.zero_add]
  simp only [List.cons_append] at hd hr
  rw [if_pos hr, hd]
  simp

/-- An ignored line is tokenized to NUL bytes. -/
theorem tokenizes_to_ignored (pad body : List Nat) (h : ignored_line pad body = true) :
    tokenizes_to (pad ++ body) (List.replicate (pad ++ body).length 0) := by
  simp only [ignored_line, Bool.and_eq_true, Bool.or_eq_true, List.all_eq_true, is_skipped,
    is_blank, decide_eq_true_eq, Bool.not_eq_true', List.isEmpty_iff, Bool.or_eq_false_iff,
    decide_eq_false_iff_not, List.contains_eq_any_beq, List.any_eq_false, beq_iff_eq,
    ne_eq] at h
  obtain ⟨⟨hpad, h10⟩, hbody⟩ := h
  have h10' : ∀ x ∈ body, x ≠ 10 := fun x hx h' => h10 x hx h'.symm
  have key : tokenizes_to body (List.replicate body.length 0) := by
    rcases hbody with hb | ⟨hf, hb⟩
    · subst hb; exact tokenizes_to_nil
    · cases hbody' : body with
      | nil => exact tokenizes_to_nil
      | cons c A =>
        rw [hbody'] at hf hb h10'
        simp only [rd_cons_zero] at hf hb
        by_cases h59 : c = 59
        · subst h59
          have := tokenizes_to_comment A (fun x hx => h10' x (List.mem_cons_of_mem _ hx))
          simpa using this
        · have hb' := hb.resolve_left h59
          have hc10 := h10' c (List.mem_cons_self _ _)
          have := tokenizes_to_no_eq_nul c A ⟨by omega, by omega, hb'.2, h59⟩
            (fun h' => hb'.1 61 h' rfl) h10'
          simpa using this
  have := tokenizes_to_skip pad body _ (fun x hx => by
    have := hpad x hx; omega) key
  rw [← List.replicate_add, ← List.length_append] at this
  exact this

theorem tokens_whole_lines (A X : List Nat) (hA : whole_lines A) :
    tokens (split_block A ++ X) = tokens (split_block A) ++ tokens X := by
  rcases hA with h | ⟨A0, h⟩
  · subst h; simp [split_block_nil, tokens]
  · subst h; exact tokens_split_block_append A0 X

/-- The tokens of a loaded file in which `line` is a whole physical line
followed by a line feed. -/
theorem tokens_ini_load_line (A line img B : List Nat) (h : tokenizes_to line img)
    (hA : whole_lines A) :
    tokens (ini_load (A ++ line ++ [10] ++ B)).data =
      tokens (split_block A) ++ (tokens img ++ tokens (ini_load B).data) := by
  have hb : A ++ line ++ [10] ++ B = A ++ ((line ++ [10]) ++ B) := by simp
  rw [hb, ini_load_whole_lines A _ hA, ini_load_append, tokens_whole_lines _ _ hA,
    split_block_of_tokenizes_to line img h, List.append_assoc, List.singleton_append,
    tokens_append_nul]


/-! ## Well-formed files: section headers and key/value lines -/

/-- A section header line `[name]` keeps `[name`; the `]` becomes NUL. -/
theorem tokenizes_to_header (n : List Nat) (hn : ∀ x ∈ n, x ≠ 0 ∧ x ≠ 10 ∧ x ≠ 93) :
    tokenizes_to (91 :: (n ++ [93])) (91 :: (n ++ [0])) := by
  intro t e he
  obtain ⟨_, _, h3⟩ := line_end_cases he
  simp only [List.length_cons, List.length_append, List.length_nil] at h3 he
  have hk : strcspn [93, 10] ((91 :: n) ++ 93 :: [t]) = (91 :: n).length :=
    strcspn_seg [93, 10] (91 :: n) 93 [t] (fun x hx => by
      simp only [List.mem_cons, List.mem_singleton, List.not_mem_nil, or_false]
      rcases List.mem_cons.1 hx with h | h
      · omega
      · have := hn x h; omega) (Or.inr (by simp))
  have hs1 : split_step ((91 :: (n ++ [93])) ++ [t]) e 0 =
      ((91 :: n) ++ 0 :: [t], n.length + 1) := by
    unfold split_step
    simp only [List.cons_append, rd_cons_zero, List.drop_zero, Nat.zero_add, List.append_assoc,
      List.singleton_append, List.nil_append, if_true]
    simp only [List.cons_append] at hk
    rw [hk]
    simp
  have hs2 : split_step ((91 :: n) ++ 0 :: [t]) e (n.length + 1) =
      ((91 :: n) ++ 0 :: [t], n.length + 2) := by
    unfold split_step
    have hr : rd ((91 :: n) ++ 0 :: [t]) (n.length + 1) = 0 := by
      have := rd_length_append (91 :: n) 0 [t]
      simpa using this
    simp only
    rw [hr, if_neg (by omega), if_pos rfl]
  have a1 := split_loop_step ((91 :: (n ++ [93])) ++ [t]) e 0 (by omega)
  rw [Nat.sub_zero, hs1] at a1
  have a2 := split_loop_step ((91 :: n) ++ 0 :: [t]) e (n.length + 1) (by omega)
  rw [hs2] at a2
  have a3 := split_loop_line_end (91 :: (n ++ [0])) t e (by simpa using he)
  simp only [List.length_cons, List.length_append, List.length_nil, Nat.zero_add] at a3
  rw [a1, a2]
  simpa using a3

theorem tokens_header (n : List Nat) (hn : ∀ x ∈ n, x ≠ 0 ∧ x ≠ 10 ∧ x ≠ 93) :
    tokens (91 :: (n ++ [0])) = [91 :: n] := by
  have := tokens_text_replicate (91 :: n) 1 (by simp) (fun x hx => by
    rcases List.mem_cons.1 hx with h | h
    · omega
    · exact (hn x h).1)
  simpa using this

/-- A well-formed line is tokenized, and its tokens are `line_tokens`. -/
theorem tokenizes_to_line (l : ini_line) (hl : line_ok l = true) :
    ∃ img, tokenizes_to (render_line l) img ∧ tokens img = line_tokens l := by
  cases l with
  | header n =>
    simp only [line_ok, List.all_eq_true, Bool.and_eq_true, decide_eq_true_eq] at hl
    have hn : ∀ x ∈ n, x ≠ 0 ∧ x ≠ 10 ∧ x ≠ 93 := fun x hx =>
      ⟨(hl x hx).1.1, (hl x hx).1.2, (hl x hx).2⟩
    refine ⟨_, ?_, tokens_header n hn⟩
    have := tokenizes_to_header n hn
    simpa [render_line] using this
  | pair p1 k p2 p3 v p4 =>
    simp only [line_ok, Bool.and_eq_true] at hl
    obtain ⟨⟨⟨⟨⟨h1, hk⟩, h2⟩, h3⟩, hv⟩, h4⟩ := hl
    obtain ⟨hKne, hK0, _⟩ := key_ok_bytes k hk
    obtain ⟨hVne, hV0⟩ := value_ok_bytes v hv
    refine ⟨_, ?_, tokens_key_value p1.length p2.length p3.length p4.length k v hKne hK0
      hVne hV0⟩
    have := tokenizes_to_pad p1 _ _ h1 (tokenizes_to_plain k p2 p3 v p4 hk hv h2 h3 h4)
    simpa [render_line] using this

/-- The tokens of a loaded file that starts with well-formed lines. -/
theorem tokens_ini_load_render : ∀ (ls : List ini_line) (C : List Nat),
    (∀ l ∈ ls, line_ok l = true) →
    tokens (ini_load (render ls ++ C)).data =
      ls.flatMap line_tokens ++ tokens (ini_load C).data
  | [], C, _ => by simp [render]
  | l :: ls, C, h => by
    obtain ⟨img, ht, htok⟩ := tokenizes_to_line l (h l (List.mem_cons_self _ _))
    have ih := tokens_ini_load_render ls C (fun x hx => h x (List.mem_cons_of_mem _ hx))
    have hb : render (l :: ls) ++ C = (render_line l ++ [10]) ++ (render ls ++ C) := by
      simp [render]
    rw [hb, tokens_ini_load_append, split_block_of_tokenizes_to _ _ ht,
      tokens_append_singleton_nul, htok, ih]
    simp [List.flatMap_cons]

theorem render_append (ls : List ini_line) (l : ini_line) :
    render (ls ++ [l]) = render ls ++ render_line l ++ [10] := by
  induction ls with
  | nil => simp [render]
  | cons a ls ih => simp [render, ih]

/-- The same tokens when the last line has no line feed. -/
theorem tokens_ini_load_render_open (ls : List ini_line) (input : List Nat)
    (h : ∀ l ∈ ls, line_ok l = true) (hin : input ++ [10] = render ls) :
    tokens (ini_load input).data = ls.flatMap line_tokens := by
  rcases List.eq_nil_or_concat ls with hnil | ⟨ls', last, hls⟩
  · subst hnil
    simp [render] at hin
  · rw [List.concat_eq_append] at hls
    subst hls
    rw [render_append] at hin
    have hi : input = render ls' ++ render_line last := by
      have := List.append_inj_left' hin rfl
      exact this
    obtain ⟨img, ht, htok⟩ := tokenizes_to_line last (h last (by simp))
    rw [hi, tokens_ini_load_render ls' _ (fun x hx => h x (by simp [hx])),
      ini_load_of_tokenizes_to _ _ ht, tokens_append_singleton_nul, htok]
    simp [List.flatMap_append]

theorem strcmpci_eq_ignoring_case : ∀ (a b : List Nat), 0 ∉ a → 0 ∉ b →
    strcmpci a b = eq_ignoring_case a b
  | [], [], _, _ => rfl
  | [], y :: b, _, hb => by
    have hy : y ≠ 0 := fun h => hb (h ▸ List.mem_cons_self _ _)
    simp [strcmpci_nil, eq_ignoring_case, hy]
  | x :: a, [], ha, _ => by
    have hx : x ≠ 0 := fun h => ha (h ▸ List.mem_cons_self _ _)
    have : ¬ tolower x = tolower 0 := fun h => hx (tolower_eq_zero.1 h)
    rw [strcmpci_cons]
    simp [eq_ignoring_case, this]
  | x :: a, y :: b, ha, hb => by
    have hx : x ≠ 0 := fun h => ha (h ▸ List.mem_cons_self _ _)
    have ih := strcmpci_eq_ignoring_case a b (fun h => ha (List.mem_cons_of_mem _ h))
      (fun h => hb (List.mem_cons_of_mem _ h))
    rw [strcmpci_cons]
    simp only [List.headD_cons, List.tail_cons, ne_eq, hx, if_false, ih]
    by_cases h : tolower x = tolower y
    · simp [eq_ignoring_case, h]
    · simp [eq_ignoring_case, h]

theorem section_matches_eq_ref (sec : Option (List Nat)) (cur : List Nat)
    (hsec : ∀ s, sec = some s → 0 ∉ s) (hcur : 0 ∉ cur) :
    section_matches sec cur = ref_section_ok sec cur := by
  cases sec with
  | none => rfl
  | some s => exact strcmpci_eq_ignoring_case s cur (hsec s rfl) hcur

/-- On the tokens of well-formed lines, `tok_lookup` is the reference lookup. -/
theorem tok_lookup_eq_ref (sec : Option (List Nat)) (key : List Nat)
    (hsec : ∀ s, sec = some s → 0 ∉ s) (hkey : 0 ∉ key) :
    ∀ (ls : List ini_line) (cur : List Nat), (∀ l ∈ ls, line_ok l = true) → 0 ∉ cur →
      tok_lookup sec key cur (ls.flatMap line_tokens) = ref_lookup sec key cur ls
  | [], _, _, _ => rfl
  | .header n :: ls, cur, h, _ => by
    have hl := h _ (List.mem_cons_self _ _)
    simp only [line_ok, List.all_eq_true, Bool.and_eq_true, decide_eq_true_eq] at hl
    have hn : 0 ∉ n := fun h0 => (hl 0 h0).1.1 rfl
    have ih := tok_lookup_eq_ref sec key hsec hkey ls n
      (fun x hx => h x (List.mem_cons_of_mem _ hx)) hn
    simp only [List.flatMap_cons, line_tokens, List.singleton_append, ref_lookup]
    rw [tok_lookup_cons, if_pos (by simp), List.tail_cons, ih]
  | .pair p1 k p2 p3 v p4 :: ls, cur, h, hcur => by
    have hl := h _ (List.mem_cons_self _ _)
    simp only [line_ok, Bool.and_eq_true] at hl
    obtain ⟨hKne, hK0, hK91⟩ := key_ok_bytes k hl.1.1.1.1.2
    have ih := tok_lookup_eq_ref sec key hsec hkey ls cur
      (fun x hx => h x (List.mem_cons_of_mem _ hx)) hcur
    simp only [List.flatMap_cons, line_tokens, ref_lookup, List.cons_append, List.nil_append]
    rw [tok_lookup_key_value sec cur k key v _ hK91, section_matches_eq_ref sec cur hsec hcur,
      strcmpci_eq_ignoring_case k key (fun h0 => hK0 0 h0 rfl) hkey, ih]

theorem eq_ignoring_case_iff : ∀ (a b : List Nat),
    eq_ignoring_case a b = true ↔
      (a.length = b.length ∧ ∀ i, i < a.length → tolower (rd a i) = tolower (rd b i))
  | [], [] => by simp [eq_ignoring_case]
  | [], y :: b => by simp [eq_ignoring_case]
  | x :: a, [] => by simp [eq_ignoring_case]
  | x :: a, y :: b => by
    have ih := eq_ignoring_case_iff a b
    simp only [eq_ignoring_case, beq_iff_eq, List.map_cons, List.cons.injEq] at ih ⊢
    rw [ih]
    constructor
    · rintro ⟨h0, hl, hi⟩
      refine ⟨by simp [hl], ?_⟩
      intro i hi'
      cases i with
      | zero => simpa [rd] using h0
      | succ i => simpa [rd] using hi i (by simpa using hi')
    · rintro ⟨hl, hi⟩
      refine ⟨by simpa [rd] using hi 0 (by simp), by simpa using hl, ?_⟩
      intro i hi'
      simpa [rd] using hi (i + 1) (by simpa using hi')

theorem strcmpci_text (a b ra rb : List Nat) (ha : 0 ∉ a) (hb : 0 ∉ b) :
    strcmpci (a ++ 0 :: ra) (b ++ 0 :: rb) = eq_ignoring_case a b := by
  rw [← strcmpci_cstr_left, ← strcmpci_cstr_right, cstr_append_nul, cstr_append_nul,
    cstr_of_nul_free a (fun x hx h0 => ha (h0 ▸ hx)),
    cstr_of_nul_free b (fun x hx h0 => hb (h0 ▸ hx))]
  exact strcmpci_eq_ignoring_case a b ha hb

theorem rd_lt_lead_nul : ∀ (s : List Nat) (i : Nat), i < lead_nul s → rd s i = 0
  | [], _, h => by simp [lead_nul] at h
  | c :: s, i, h => by
    by_cases hc : c = 0
    · subst hc
      cases i with
      | zero => rfl
      | succ i =>
        simp only [lead_nul, if_true] at h
        simpa [rd] using rd_lt_lead_nul s i (by omega)
    · simp [lead_nul, hc] at h

/-- A section header line without its `]` keeps `[name`; the byte that ends
the line becomes NUL. -/
theorem tokenizes_to_header_open (n : List Nat) (hn : ∀ x ∈ n, x ≠ 0 ∧ x ≠ 10 ∧ x ≠ 93) :
    tokenizes_to (91 :: n) (91 :: n) := by
  intro t e he
  simp only [List.length_cons] at he
  have ht : t = 0 ∨ t ∈ [93, 10] := by
    rcases he with ⟨h, _⟩ | ⟨h, _⟩
    · right; simp [h]
    · left; exact h
  have hk : strcspn [93, 10] ((91 :: n) ++ t :: []) = (91 :: n).length :=
    strcspn_seg [93, 10] (91 :: n) t [] (fun x hx => by
      simp only [List.mem_cons, List.mem_singleton, List.not_mem_nil, or_false]
      rcases List.mem_cons.1 hx with h | h
      · omega
      · have := hn x h; omega) ht
  have hs1 : split_step ((91 :: n) ++ [t]) e 0 = ((91 :: n) ++ [0], n.length + 1) := by
    unfold split_step
    simp only [List.cons_append, rd_cons_zero, List.drop_zero, Nat.zero_add, if_true]
    simp only [List.cons_append] at hk
    rw [hk]
    simp
  rcases he with ⟨_, h2⟩ | ⟨_, h2⟩
  · have a1 := split_loop_step ((91 :: n) ++ [t]) e 0 (by omega)
    rw [Nat.sub_zero, hs1] at a1
    rw [a1, split_loop_fuel e _ _ _ (Nat.le_refl _)]
    have hs2 : split_step ((91 :: n) ++ [0]) e (n.length + 1) =
        ((91 :: n) ++ [0], n.length + 2) := by
      unfold split_step
      have hr : rd ((91 :: n) ++ [0]) (n.length + 1) = 0 := by
        have := rd_length_append (91 :: n) 0 []
        simpa using this
      simp only
      rw [hr, if_neg (by omega), if_pos rfl]
    have a2 := split_loop_step ((91 :: n) ++ [0]) e (n.length + 1) (by omega)
    rw [hs2] at a2
    rw [a2, split_loop_done _ _ _ _ (by omega)]
  · have a1 := split_loop_step ((91 :: n) ++ [t]) e 0 (by omega)
    rw [Nat.sub_zero, hs1] at a1
    rw [a1, split_loop_done _ _ _ _ (by omega)]

/-- The tokens of a file that starts with a section header, closed or not. -/
theorem tokens_header_then (n C : List Nat) (hn : ∀ x ∈ n, x ≠ 0 ∧ x ≠ 10 ∧ x ≠ 93) :
    tokens (ini_load ([91] ++ n ++ [93] ++ [10] ++ C)).data =
      (91 :: n) :: tokens (ini_load C).data ∧
    tokens (ini_load ([91] ++ n ++ [10] ++ C)).data = (91 :: n) :: tokens (ini_load C).data := by
  have hne : ∀ x ∈ 91 :: n, x ≠ 0 := fun x hx => by
    rcases List.mem_cons.1 hx with h | h
    · omega
    · exact (hn x h).1
  constructor
  · have := tokens_ini_load_line [] _ _ C (tokenizes_to_header n hn) (Or.inl rfl)
    rw [split_block_nil, tokens_header n hn] at this
    simpa [tokens] using this
  · have := tokens_ini_load_line [] _ _ C (tokenizes_to_header_open n hn) (Or.inl rfl)
    rw [split_block_nil, tokens_text _ (by simp) hne] at this
    simpa [tokens] using this

/-- The tokens of a file around a quoted-value line whose decoded text is not
empty: what follows the closing quote on the line leaves no token. -/
theorem tokens_quoted_line_in_context (A pad1 K pad2 pad3 B G C : List Nat)
    (hA : whole_lines A) (hK : key_ok K = true) (h1 : pad_ok pad1 = true)
    (h2 : pad_ok pad2 = true) (h3 : pad_ok pad3 = true) (hB : quoted_body_ok B = true)
    (hne : decode B ≠ []) (hG : ∀ x ∈ G, x ≠ 10 ∧ x ≠ 0) :
    tokens (ini_load (A ++ (pad1 ++ K ++ pad2 ++ [61] ++ pad3 ++ [34] ++ B ++ [34] ++ G) ++
      [10] ++ C)).data =
      tokens (split_block A) ++ ([K, decode B] ++ tokens (ini_load C).data) := by
  obtain ⟨hu, hB0, _⟩ := unquote_body B.length B (Nat.le_refl _) hB G
  have hS : ∀ x ∈ B ++ 34 :: G, x ≠ 10 ∧ x ≠ 0 := by
    intro x hx
    rcases List.mem_append.1 hx with h | h
    · exact hB0 x h
    · rcases List.mem_cons.1 h with h | h
      · subst h; exact ⟨by decide, by decide⟩
      · exact hG x h
  obtain ⟨img, ht, htok⟩ := quoted_line_tokens pad1 K pad2 pad3 (B ++ 34 :: G) hK h1 h2 h3 hS
    (by rw [hu]; exact hne)
  have hb : pad1 ++ K ++ pad2 ++ [61] ++ pad3 ++ [34] ++ B ++ [34] ++ G =
      pad1 ++ ((K ++ pad2) ++ 61 :: (pad3 ++ 34 :: (B ++ 34 :: G))) := by
    simp
  rw [hb, tokens_ini_load_line A _ img C ht hA, htok, hu]

theorem record_data (w : Nat × Nat) (t : unescape_trace) : (t.record w).data = t.data := rfl
theorem record_q (w : Nat × Nat) (t : unescape_trace) : (t.record w).q = t.q := rfl
theorem record_p (w : Nat × Nat) (t : unescape_trace) : (t.record w).p = t.p := rfl
theorem record_writes (w : Nat × Nat) (t : unescape_trace) :
    (t.record w).writes = w :: t.writes := rfl

/-- The instrumented loop computes what `unescape_loop` computes. -/
theorem unescape_run_loop (e : Nat) : ∀ (f : Nat) (d : List Nat) (p q : Nat),
    ((unescape_run e f d p q).data, (unescape_run e f d p q).q) = unescape_loop e f d p q
  | 0, _, _, _ => rfl
  | f + 1, d, p, q => by
    simp only [unescape_run, unescape_loop]
    split_ifs <;> simp only [record_data, record_q, unescape_run_loop e f]

/-- Once the fuel covers the bytes left before `end`, more fuel changes
nothing: the loop is left through its guard or its `return`. -/
theorem unescape_run_fuel (e : Nat) : ∀ (f : Nat) (d : List Nat) (p q : Nat), e - p ≤ f →
    unescape_run e f d p q = unescape_run e (e - p) d p q
  | 0, d, p, q, h => by
    have : e - p = 0 := by omega
    rw [this]
  | f + 1, d, p, q, h => by
    by_cases hp : p < e
    · obtain ⟨n, hn⟩ : ∃ n, e - p = n + 1 := ⟨e - p - 1, by omega⟩
      rw [hn]
      simp only [unescape_run]
      have h1 := unescape_run_fuel e f
      have h2 := unescape_run_fuel e n
      split_ifs <;>
        first
        | rfl
        | (rw [h1 _ (p + 2) _ (by omega), h2 _ (p + 2) _ (by omega)])
        | (rw [h1 _ (p + 1) _ (by omega), h2 _ (p + 1) _ (by omega)])
    · have : e - p = 0 := by omega
      rw [this]
      simp [unescape_run, hp]

theorem unescape_run_writes (e : Nat) : ∀ (f : Nat) (d : List Nat) (p q : Nat), q < p →
    ∀ w ∈ (unescape_run e f d p q).writes, w.1 < w.2
  | 0, _, _, _, _ => by simp [unescape_run]
  | f + 1, d, p, q, h => by
    have ih2 := unescape_run_writes e f
    intro w hw
    simp only [unescape_run] at hw
    split_ifs at hw <;> simp only [record_writes] at hw <;>
      first
      | exact absurd hw (List.not_mem_nil _)
      | (rcases List.mem_cons.1 hw with h1 | h1
         · subst h1; simp only; omega
         · exact ih2 _ _ _ (by omega) w h1)

theorem unescape_run_heads (e : Nat) : ∀ (f : Nat) (d : List Nat) (p q : Nat), q < p →
    q ≤ (unescape_run e f d p q).q ∧ (unescape_run e f d p q).q < (unescape_run e f d p q).p
  | 0, _, _, _, h => ⟨Nat.le_refl _, h⟩
  | f + 1, d, p, q, h => by
    have ih2 := unescape_run_heads e f
    simp only [unescape_run]
    split_ifs <;> simp only [record_q, record_p] <;>
      first
      | exact ⟨Nat.le_refl _, by omega⟩
      | (have hh := ih2 (d.set q 13) (p + 2) (q + 1) (by omega); exact ⟨by omega, hh.2⟩)
      | (have hh := ih2 (d.set q 10) (p + 2) (q + 1) (by omega); exact ⟨by omega, hh.2⟩)
      | (have hh := ih2 (d.set q 9) (p + 2) (q + 1) (by omega); exact ⟨by omega, hh.2⟩)
      | (have hh := ih2 (d.set q (rd d (p + 1))) (p + 2) (q + 1) (by omega);
         exact ⟨by omega, hh.2⟩)
      | (have hh := ih2 (d.set q (rd d p)) (p + 1) (q + 1) (by omega); exact ⟨by omega, hh.2⟩)

theorem rd_unescape_run (e : Nat) : ∀ (f : Nat) (d : List Nat) (p q i : Nat), q < p →
    (unescape_run e f d p q).q ≤ i → rd (unescape_run e f d p q).data i = rd d i
  | 0, _, _, _, _, _, _ => rfl
  | f + 1, d, p, q, i, h, hi => by
    have ih2 := rd_unescape_run e f
    have hh := unescape_run_heads e f
    simp only [unescape_run] at hi ⊢
    split_ifs at hi ⊢ <;> simp only [record_q, record_data] at hi ⊢ <;>
      first
      | rfl
      | (have hq : q + 1 ≤ i := Nat.le_trans (hh _ _ _ (by omega)).1 hi
         rw [ih2 _ _ _ i (by omega) hi, rd_set_ne _ _ (by omega)])

/-! ## The checked runs agree with the tokenizer -/

theorem rd_chk_eq {d : List Nat} {p : Nat} (h : p < d.length) : rd_chk d p = some (rd d p) := by
  simp [rd_chk, h]

theorem wr_chk_eq {d : List Nat} {p : Nat} (v : Nat) (h : p < d.length) :
    wr_chk d p v = some (d.set p v) := by
  simp [wr_chk, h]

/-- With a NUL in the memory ahead, `strcspn` stays inside the memory. -/
theorem strcspn_chk_eq (rej : List Nat) : ∀ (s : List Nat), 0 ∈ s →
    strcspn_chk rej s = some (strcspn rej s)
  | [], h => by simp at h
  | c :: s, h => by
    simp only [strcspn_chk, strcspn]
    split_ifs with hc
    · rfl
    · have hc0 : c ≠ 0 := fun h0 => hc (Or.inl h0)
      have hs : 0 ∈ s := by
        rcases List.mem_cons.1 h with h1 | h1
        · exact absurd h1.symm hc0
        · exact h1
      rw [strcspn_chk_eq rej s hs]
      rfl

theorem mem_drop_of_rd_zero (d : List Nat) (p e : Nat) (hp : p ≤ e) (he : e < d.length)
    (h0 : rd d e = 0) : 0 ∈ d.drop p := by
  have h1 : rd (d.drop p) (e - p) = 0 := by rw [rd_drop]; rw [← h0]; congr 1; omega
  have h2 : e - p < (d.drop p).length := by simp; omega
  have : (d.drop p)[e - p] = 0 := by
    simpa [rd, List.getD_eq_getElem?_getD, List.getElem?_eq_getElem h2] using h1
  exact this ▸ List.getElem_mem h2

/-- The cursor of `strcspn` does not pass a NUL. -/
theorem strcspn_le_of_rd_zero (rej : List Nat) : ∀ (s : List Nat) (i : Nat), rd s i = 0 →
    strcspn rej s ≤ i
  | [], _, _ => Nat.zero_le _
  | c :: s, i, h => by
    simp only [strcspn]
    split_ifs with hc
    · exact Nat.zero_le _
    · cases i with
      | zero => exact absurd (Or.inl (by simpa [rd] using h)) hc
      | succ i =>
        have := strcspn_le_of_rd_zero rej s i (by simpa [rd] using h)
        omega

theorem strcspn_drop_le (rej : List Nat) (d : List Nat) (p e : Nat) (hp : p ≤ e)
    (h0 : rd d e = 0) : p + strcspn rej (d.drop p) ≤ e := by
  have := strcspn_le_of_rd_zero rej (d.drop p) (e - p) (by rw [rd_drop, ← h0]; congr 1; omega)
  omega

theorem trim_back_from_chk_eq : ∀ (n : Nat) (d : List Nat), n < d.length →
    trim_back_from_chk d n = some (trim_back_from d n)
  | 0, d, h => by
    simp only [trim_back_from_chk, trim_back_from, rd_chk_eq h, Option.some_bind]
    split_ifs
    · exact wr_chk_eq 0 h
    · rfl
  | n + 1, d, h => by
    simp only [trim_back_from_chk, trim_back_from, rd_chk_eq h, Option.some_bind]
    split_ifs
    · rw [wr_chk_eq 0 h, Option.some_bind]
      exact trim_back_from_chk_eq n _ (by simp; omega)
    · rfl

theorem trim_back_chk_eq (d : List Nat) (p : Int) (h : p < d.length) :
    trim_back_chk d p = some (trim_back d p) := by
  cases p with
  | ofNat n =>
    exact trim_back_from_chk_eq n d (by simpa using h)
  | negSucc n => rfl

theorem discard_loop_chk_eq (e : Nat) : ∀ (f : Nat) (d : List Nat) (p : Nat),
    e ≤ d.length → e - p ≤ f → discard_loop_chk e f d p = some (discard_loop e f d p)
  | 0, d, p, _, hf => by
    have : ¬ p < e := by omega
    simp [discard_loop_chk, discard_loop, this]
  | f + 1, d, p, he, hf => by
    simp only [discard_loop_chk, discard_loop]
    by_cases hp : p < e
    · have hl : p < d.length := by omega
      simp only [hp, if_true, rd_chk_eq hl, Option.some_bind, true_and]
      split_ifs
      · rw [wr_chk_eq 0 hl, Option.some_bind]
        exact discard_loop_chk_eq e f _ _ (by simpa using he) (by omega)
      · rfl
    · simp [hp]

theorem discard_line_chk_eq (d : List Nat) (e p : Nat) (he : e ≤ d.length) :
    discard_line_chk d e p = some (discard_line d e p) :=
  discard_loop_chk_eq e _ d p he (Nat.le_refl _)

theorem unescape_loop_chk_eq (e : Nat) : ∀ (f : Nat) (d : List Nat) (p q : Nat),
    e < d.length → q < p → e - p ≤ f →
    unescape_loop_chk e f d p q = some (unescape_loop e f d p q)
  | 0, d, p, q, _, _, hf => by
    have : ¬ p < e := by omega
    simp [unescape_loop_chk, unescape_loop, this]
  | f + 1, d, p, q, he, hq, hf => by
    simp only [unescape_loop_chk, unescape_loop]
    by_cases hp : p < e
    · have hl : p < d.length := by omega
      have hl1 : p + 1 < d.length := by omega
      have hlq : q < d.length := by omega
      have ih := unescape_loop_chk_eq e f
      simp only [hp, if_true, rd_chk_eq hl, rd_chk_eq hl1, Option.some_bind, true_and]
      split_ifs <;>
        first
        | rfl
        | (rw [wr_chk_eq _ hlq, Option.some_bind]
           exact ih _ _ _ (by simpa using he) (by omega) (by omega))
    · simp [hp]

theorem unescape_quoted_value_chk_eq (d : List Nat) (e p : Nat) (he : e < d.length) :
    unescape_quoted_value_chk d e p = some (unescape_quoted_value d e p) :=
  unescape_loop_chk_eq e _ d (p + 1) p he (by omega) (Nat.le_refl _)

theorem eq_loop_chk_eq (e : Nat) : ∀ (f : Nat) (d : List Nat) (p : Nat),
    e < d.length → rd d e = 0 → p < e → e - p ≤ f →
    eq_loop_chk f d p = some (eq_loop f d p) ∧ (eq_loop f d p).2 ≤ e
  | 0, _, _, _, _, hp, hf => by omega
  | f + 1, d, p, he, h0, hp, hf => by
    have hl : p < d.length := by omega
    have hl1 : p + 1 < (d.set p 0).length := by simp; omega
    simp only [eq_loop_chk, eq_loop, wr_chk_eq 0 hl, rd_chk_eq hl1, Option.some_bind]
    have h0' : rd (d.set p 0) e = 0 := by rw [rd_set_ne _ _ (by omega)]; exact h0
    split_ifs with hc
    · have hne : p + 1 ≠ e := by
        intro h
        rw [h, h0'] at hc
        omega
      exact eq_loop_chk_eq e f _ _ (by simpa using he) h0' (by omega) (by omega)
    · exact ⟨rfl, by simp only; omega⟩

theorem discard_loop_le (e : Nat) : ∀ (f : Nat) (d : List Nat) (p : Nat), p ≤ e →
    (discard_loop e f d p).2 ≤ e
  | 0, _, _, h => h
  | f + 1, d, p, h => by
    simp only [discard_loop]
    split_ifs with hc
    · exact discard_loop_le e f _ _ (by omega)
    · exact h

theorem unescape_loop_le (e : Nat) : ∀ (f : Nat) (d : List Nat) (p q : Nat), q < p →
    p ≤ e + 1 → (unescape_loop e f d p q).2 ≤ e
  | 0, _, _, _, h1, h2 => by simp only [unescape_loop]; omega
  | f + 1, d, p, q, h1, h2 => by
    have ih := unescape_loop_le e f
    simp only [unescape_loop]
    split_ifs with hc <;>
      first
      | (simp only; omega)
      | exact ih _ _ _ (by omega) (by omega)

theorem split_value_chk_eq (d : List Nat) (e ls p : Nat) (he : e < d.length)
    (h0 : rd d e = 0) (hp : p ≤ e) (hls : ls ≤ e) :
    split_value_chk d e ls p = some (split_value d e ls p) ∧ (split_value d e ls p).2 ≤ e := by
  have hl : p < d.length := by omega
  simp only [split_value_chk, split_value, rd_chk_eq hl, Option.some_bind]
  split_ifs with h1 h2 h3
  · exact ⟨discard_line_chk_eq d e ls (by omega), discard_loop_le e _ d ls hls⟩
  · rw [unescape_quoted_value_chk_eq d e p he, Option.some_bind, if_pos h3]
    exact ⟨discard_line_chk_eq _ e ls (by
      rw [unescape_quoted_value, unescape_loop_length]; omega), discard_loop_le e _ _ ls hls⟩
  · have hpe : p < e := by
      rcases Nat.lt_or_ge p e with h | h
      · exact h
      · have : p = e := by omega
        rw [this, h0] at h2
        omega
    rw [unescape_quoted_value_chk_eq d e p he, Option.some_bind, if_neg h3]
    exact ⟨discard_line_chk_eq _ e _ (by
      rw [unescape_quoted_value, unescape_loop_length]; omega),
      discard_loop_le e _ _ _ (unescape_loop_le e _ d (p + 1) p (by omega) (by omega))⟩
  · have hle := strcspn_drop_le [10] d p e hp h0
    rw [strcspn_chk_eq [10] _ (mem_drop_of_rd_zero d p e hp he h0), Option.some_bind,
      trim_back_chk_eq d _ (by push_cast; omega)]
    exact ⟨by simp, hle⟩

theorem split_default_chk_eq (d : List Nat) (e ls : Nat) (he : e < d.length)
    (h0 : rd d e = 0) (hls : ls ≤ e) :
    split_default_chk d e ls = some (split_default d e ls) ∧ (split_default d e ls).2 ≤ e := by
  have hle := strcspn_drop_le [61, 10] d ls e hls h0
  have hl : ls + strcspn [61, 10] (d.drop ls) < d.length := by omega
  simp only [split_default_chk, split_default,
    strcspn_chk_eq [61, 10] _ (mem_drop_of_rd_zero d ls e hls he h0), Option.some_bind,
    rd_chk_eq hl]
  split_ifs with h1
  · exact ⟨discard_line_chk_eq d e ls (by omega), discard_loop_le e _ d ls hls⟩
  · have hpe : ls + strcspn [61, 10] (d.drop ls) < e := by
      rcases Nat.lt_or_ge (ls + strcspn [61, 10] (d.drop ls)) e with h | h
      · exact h
      · have : ls + strcspn [61, 10] (d.drop ls) = e := by omega
        rw [this, h0] at h1
        omega
    generalize ls + strcspn [61, 10] (d.drop ls) = p at *
    rw [trim_back_chk_eq d _ (by omega), Option.some_bind]
    have hlen := trim_back_length d ((p : Int) - 1)
    have hz : rd (trim_back d ((p : Int) - 1)) e = 0 := by
      rw [rd_trim_back d _ e (by rw [h0]; omega)]; exact h0
    obtain ⟨g1, g2⟩ := eq_loop_chk_eq e ((trim_back d ((p : Int) - 1)).length - p)
      (trim_back d ((p : Int) - 1)) p (by omega) hz hpe (by omega)
    rw [g1, Option.some_bind]
    exact split_value_chk_eq _ e ls _ (by rw [eq_loop_length]; omega)
      (rd_eq_loop_zero _ _ _ _ hz) g2 hls

theorem split_step_chk_eq (d : List Nat) (e p : Nat) (he : e < d.length)
    (h0 : rd d e = 0) (hp : p < e) :
    split_step_chk d e p = some (split_step d e p) ∧ (split_step d e p).2 ≤ e := by
  have hl : p < d.length := by omega
  simp only [split_step_chk, split_step, rd_chk_eq hl, Option.some_bind]
  split_ifs with h1 h2 h3 h4
  · rw [wr_chk_eq 0 hl]
    exact ⟨rfl, hp⟩
  · exact ⟨rfl, hp⟩
  · have hle := strcspn_drop_le [93, 10] d p e (by omega) h0
    rw [strcspn_chk_eq [93, 10] _ (mem_drop_of_rd_zero d p e (by omega) he h0),
      Option.some_bind, wr_chk_eq 0 (by omega)]
    exact ⟨rfl, hle⟩
  · exact ⟨discard_line_chk_eq d e p (by omega), discard_loop_le e _ d p (by omega)⟩
  · exact split_default_chk_eq d e p he h0 (by omega)

/-- In a memory with the sentinel NUL at `end`, the checked main loop comes to
its end, with every access inside the memory, on the result of `split_loop`,
the cursor at `end`. -/
theorem split_loop_chk_eq (e : Nat) : ∀ (f : Nat) (d : List Nat) (p : Nat),
    e < d.length → rd d e = 0 → p ≤ e → e - p ≤ f →
    split_loop_chk e f d p = some (split_loop e f d p, e)
  | 0, d, p, _, _, hp, hf => by
    have : p = e := by omega
    simp [split_loop_chk, split_loop, this]
  | f + 1, d, p, he, h0, hp, hf => by
    simp only [split_loop_chk, split_loop]
    by_cases hlt : p < e
    · obtain ⟨g1, g2⟩ := split_step_chk_eq d e p he h0 hlt
      have hgt := split_step_gt d e p hlt
      rw [if_pos hlt, if_pos hlt, g1, Option.some_bind]
      exact split_loop_chk_eq e f _ _ (by rw [split_step_length]; exact he)
        (rd_split_step_zero d e p e (Nat.le_refl _) h0) g2 (by omega)
    · have : p = e := by omega
      simp [this]

/-- The cursor of the main loop moves strictly forward, stays at or below
`end`, and the last guard is tested at `end`. -/
theorem split_cursors_spec (e : Nat) : ∀ (f : Nat) (d : List Nat) (p : Nat),
    e < d.length → rd d e = 0 → p ≤ e → e - p ≤ f →
    (split_cursors e f d p).Pairwise (· < ·) ∧
    (∀ c ∈ split_cursors e f d p, p ≤ c ∧ c ≤ e) ∧
    (split_cursors e f d p).getLast? = some e
  | 0, d, p, _, _, hp, hf => by
    have : p = e := by omega
    simp [split_cursors, this]
  | f + 1, d, p, he, h0, hp, hf => by
    simp only [split_cursors]
    by_cases hlt : p < e
    · obtain ⟨_, g2⟩ := split_step_chk_eq d e p he h0 hlt
      have hgt := split_step_gt d e p hlt
      obtain ⟨i1, i2, i3⟩ := split_cursors_spec e f (split_step d e p).1 (split_step d e p).2
        (by rw [split_step_length]; exact he)
        (rd_split_step_zero d e p e (Nat.le_refl _) h0) g2 (by omega)
      rw [if_pos hlt]
      refine ⟨List.pairwise_cons.2 ⟨fun c hc => by have := (i2 c hc).1; omega, i1⟩, ?_, ?_⟩
      · intro c hc
        rcases List.mem_cons.1 hc with h | h
        · subst h; exact ⟨Nat.le_refl _, hp⟩
        · have := i2 c h; omega
      · rw [List.getLast?_cons, i3]; rfl
    · have : p = e := by omega
      simp [this]

/-! ## Any line, cut into padding, key segment and value -/

theorem pad_ok_takeWhile (l : List Nat) : pad_ok (l.takeWhile is_blank) = true := by
  simp only [pad_ok, List.all_eq_true]
  intro x hx
  exact List.mem_takeWhile_imp hx

theorem strip_left_first (l : List Nat) (h : strip_left l ≠ []) :
    is_blank (rd (strip_left l) 0) = false := by
  unfold strip_left at h ⊢
  have := List.head_dropWhile_not is_blank l h
  cases hd : l.dropWhile is_blank with
  | nil => exact absurd hd h
  | cons c s =>
    simp only [hd, List.head_cons] at this
    simpa [rd] using this

theorem strip_left_decomp (l : List Nat) :
    l = l.takeWhile is_blank ++ strip_left l := (List.takeWhile_append_dropWhile _ l).symm

theorem strip_left_of_first (l : List Nat) (h : is_blank (rd l 0) = false) (hne : l ≠ []) :
    strip_left l = l := by
  cases l with
  | nil => exact absurd rfl hne
  | cons c s =>
    have hc : is_blank c = false := by simpa [rd] using h
    simp [strip_left, List.dropWhile, hc]

theorem strip_left_pad (pad l : List Nat) (hp : pad_ok pad = true) :
    strip_left (pad ++ l) = strip_left l := by
  induction pad with
  | nil => rfl
  | cons c pad ih =>
    simp only [pad_ok, List.all_cons, Bool.and_eq_true] at hp
    simp only [strip_left, List.cons_append, List.dropWhile, hp.1]
    exact ih hp.2

/-- A text is what `strip_right` keeps of it, followed by blanks; what is kept
is empty or ends in a non-blank byte. -/
theorem strip_right_decomp (l : List Nat) :
    ∃ pad, l = strip_right l ++ pad ∧ pad_ok pad = true ∧
      (strip_right l = [] ∨
        is_blank (rd (strip_right l) ((strip_right l).length - 1)) = false) := by
  refine ⟨(l.reverse.takeWhile is_blank).reverse, ?_, ?_, ?_⟩
  · have := List.takeWhile_append_dropWhile is_blank l.reverse
    have h2 := congrArg List.reverse this
    simp only [List.reverse_append, List.reverse_reverse] at h2
    exact h2.symm
  · simp only [pad_ok, List.all_eq_true, List.mem_reverse]
    intro x hx
    exact List.mem_takeWhile_imp hx
  · by_cases h : l.reverse.dropWhile is_blank = []
    · left; simp [strip_right, h]
    · right
      have hh := List.head_dropWhile_not is_blank l.reverse h
      cases hd : l.reverse.dropWhile is_blank with
      | nil => exact absurd hd h
      | cons c s =>
        simp only [hd, List.head_cons] at hh
        simp only [strip_right, hd, List.reverse_cons, List.length_append, List.length_reverse,
          List.length_singleton, Nat.add_sub_cancel]
        have := rd_append_right s.reverse [c] 0
        simp only [List.length_reverse, Nat.add_zero] at this
        rw [this]
        simpa [rd] using hh

theorem strip_right_subset (l : List Nat) : ∀ x ∈ strip_right l, x ∈ l := by
  intro x hx
  simp only [strip_right, List.mem_reverse] at hx
  have := (List.dropWhile_sublist is_blank).subset hx
  simpa using this

theorem strip_right_first (l : List Nat) (h : is_blank (rd l 0) = false) (hne : l ≠ []) :
    strip_right l ≠ [] ∧ rd (strip_right l) 0 = rd l 0 := by
  obtain ⟨pad, h1, h2, h3⟩ := strip_right_decomp l
  cases hs : strip_right l with
  | nil =>
    rw [hs, List.nil_append] at h1
    subst h1
    cases l with
    | nil => exact absurd rfl hne
    | cons c s =>
      simp only [pad_ok, List.all_cons, Bool.and_eq_true] at h2
      have : is_blank c = false := by simpa [rd] using h
      rw [this] at h2
      exact absurd h2.1 (by decide)
  | cons c s =>
    refine ⟨by simp, ?_⟩
    rw [hs] at h1
    rw [h1]
    rfl

/-- A text with `=` is cut at its first `=`. -/
theorem cut_at_eq (body : List Nat) (h : 61 ∈ body) :
    ∃ post, body = body.takeWhile (fun c => c ≠ 61) ++ 61 :: post ∧
      61 ∉ body.takeWhile (fun c => c ≠ 61) := by
  have hd : body.dropWhile (fun c => decide (c ≠ 61)) ≠ [] := by
    intro hnil
    have := (List.dropWhile_eq_nil_iff).1 hnil 61 h
    simp at this
  have hh := List.head_dropWhile_not (fun c => decide (c ≠ 61)) body hd
  cases hdw : body.dropWhile (fun c => decide (c ≠ 61)) with
  | nil => exact absurd hdw hd
  | cons c post =>
    simp only [hdw, List.head_cons, decide_eq_false_iff_not, ne_eq, not_not] at hh
    subst hh
    refine ⟨post, ?_, ?_⟩
    · rw [← hdw]; exact (List.takeWhile_append_dropWhile _ body).symm
    · intro hm
      have := List.mem_takeWhile_imp hm
      simp at this

theorem rd_zero_append_of_ne (a b : List Nat) (h : a ≠ []) : rd (a ++ b) 0 = rd a 0 := by
  cases a with
  | nil => exact absurd rfl h
  | cons c s => rfl

/-- What `strip_right` keeps of the text before `=` is a key. -/
theorem key_ok_strip_right (pre : List Nat) (hne : pre ≠ [])
    (hb : ∀ x ∈ pre, x ≠ 0 ∧ x ≠ 10 ∧ x ≠ 61) (hf : is_blank (rd pre 0) = false)
    (h91 : rd pre 0 ≠ 91) (h59 : rd pre 0 ≠ 59) : key_ok (strip_right pre) = true := by
  obtain ⟨pad, h1, h2, h3⟩ := strip_right_decomp pre
  obtain ⟨g1, g2⟩ := strip_right_first pre hf hne
  have hlast : is_blank (rd (strip_right pre) ((strip_right pre).length - 1)) = false := by
    rcases h3 with h | h
    · exact absurd h g1
    · exact h
  simp only [key_ok, Bool.and_eq_true, decide_eq_true_eq, Bool.not_eq_true', List.all_eq_true,
    ne_eq]
  refine ⟨⟨⟨⟨⟨g1, ?_⟩, by rw [g2]; exact hf⟩, by rw [g2]; exact h91⟩, by rw [g2]; exact h59⟩,
    hlast⟩
  intro x hx
  have := hb x (strip_right_subset pre x hx)
  exact ⟨⟨this.1, this.2.1⟩, this.2.2⟩

/-- What `strip_right` keeps of the text of an unquoted value is a value. -/
theorem value_ok_strip_right (r : List Nat) (hne : r ≠ [])
    (hb : ∀ x ∈ r, x ≠ 0 ∧ x ≠ 10) (hf : is_blank (rd r 0) = false) (h34 : rd r 0 ≠ 34) :
    value_ok (strip_right r) = true := by
  obtain ⟨pad, h1, h2, h3⟩ := strip_right_decomp r
  obtain ⟨g1, g2⟩ := strip_right_first r hf hne
  have hlast : is_blank (rd (strip_right r) ((strip_right r).length - 1)) = false := by
    rcases h3 with h | h
    · exact absurd h g1
    · exact h
  simp only [value_ok, Bool.and_eq_true, decide_eq_true_eq, Bool.not_eq_true', List.all_eq_true,
    ne_eq]
  refine ⟨⟨⟨⟨g1, fun x hx => hb x (strip_right_subset r x hx)⟩, by rw [g2]; exact hf⟩,
    by rw [g2]; exact h34⟩, hlast⟩

/-- How the tokenizer handles any line that starts with a byte that is not a
blank, `[` or `=`: the line leaves no token, or it has a `=` and leaves its key
segment and a value. -/
theorem body_classify (body : List Nat) (hne : body ≠ []) (hb : ∀ x ∈ body, x ≠ 0 ∧ x ≠ 10)
    (hf : is_blank (rd body 0) = false) (h91 : rd body 0 ≠ 91) (h61 : rd body 0 ≠ 61) :
    ∃ img, tokenizes_to body img ∧
      (tokens img = [] ∨
        (61 ∈ body ∧ key_ok (strip_right (body.takeWhile (fun c => c ≠ 61))) = true ∧
          ∃ v, tokens img = [strip_right (body.takeWhile (fun c => c ≠ 61)), v])) := by
  obtain ⟨c, A, rfl⟩ : ∃ c A, body = c :: A := by
    cases body with
    | nil => exact absurd rfl hne
    | cons c A => exact ⟨c, A, rfl⟩
  simp only [rd_cons_zero] at hf h91 h61
  have hc := hb c (List.mem_cons_self _ _)
  have hfb : ¬ (c = 32 ∨ c = 9 ∨ c = 13) := by
    intro h
    have := (is_blank_iff c).2 h
    rw [hf] at this
    exact absurd this (by decide)
  by_cases h59 : c = 59
  · subst h59
    exact ⟨List.replicate (A.length + 1) 0,
      tokenizes_to_comment A (fun x hx => (hb x (List.mem_cons_of_mem _ hx)).2),
      Or.inl (tokens_replicate_nul _)⟩
  by_cases heq : 61 ∈ c :: A
  · obtain ⟨post, hcut, hnot⟩ := cut_at_eq _ heq
    obtain ⟨pre, hpre⟩ : ∃ pre, pre = (c :: A).takeWhile (fun c => c ≠ 61) := ⟨_, rfl⟩
    rw [← hpre] at hcut hnot ⊢
    have hpre0 : pre ≠ [] ∧ rd pre 0 = c := by
      rw [hpre]
      simp [List.takeWhile, h61, rd]
    have hpb : ∀ x ∈ pre, x ≠ 0 ∧ x ≠ 10 ∧ x ≠ 61 := by
      intro x hx
      have hm : x ∈ c :: A := by rw [hcut]; exact List.mem_append_left _ hx
      exact ⟨(hb x hm).1, (hb x hm).2, fun h => hnot (h ▸ hx)⟩
    have hpostb : ∀ x ∈ post, x ≠ 0 ∧ x ≠ 10 := by
      intro x hx
      exact hb x (by rw [hcut]; exact List.mem_append_right _ (List.mem_cons_of_mem _ hx))
    have hK := key_ok_strip_right pre hpre0.1 hpb (by rw [hpre0.2]; exact hf)
      (by rw [hpre0.2]; exact h91) (by rw [hpre0.2]; exact h59)
    obtain ⟨pad2, hp1, hp2, _⟩ := strip_right_decomp pre
    obtain ⟨hbytes, hfirst⟩ := key_pad_bytes (strip_right pre) pad2 hK hp2
    rw [← hp1] at hfirst
    have hp3 := pad_ok_takeWhile post
    have hpost := strip_left_decomp post
    obtain ⟨pad3, hpad3⟩ : ∃ pad3, pad3 = post.takeWhile is_blank := ⟨_, rfl⟩
    rw [← hpad3] at hp3 hpost
    cases hr : strip_left post with
    | nil =>
      rw [hr, List.append_nil] at hpost
      refine ⟨List.replicate (pre ++ 61 :: pad3).length 0, ?_, Or.inl (tokens_replicate_nul _)⟩
      rw [hcut, hpost]
      exact tokenizes_to_missing pre _ hfirst hpb hp3
    | cons y r =>
      rw [hr] at hpost
      have hyb : is_blank y = false := by
        have := strip_left_first post (by rw [hr]; simp)
        simpa [hr, rd] using this
      have hrb : ∀ x ∈ y :: r, x ≠ 0 ∧ x ≠ 10 := by
        intro x hx
        exact hpostb x (by rw [hpost]; exact List.mem_append_right _ hx)
      by_cases hq : y = 34
      · subst hq
        have hS : ∀ x ∈ r, x ≠ 10 ∧ x ≠ 0 := fun x hx =>
          ⟨(hrb x (List.mem_cons_of_mem _ hx)).2, (hrb x (List.mem_cons_of_mem _ hx)).1⟩
        by_cases hu : unquote r = []
        · refine ⟨List.replicate ([] ++ (pre ++ 61 :: (pad3 ++ 34 :: r))).length 0, ?_,
            Or.inl (tokens_replicate_nul _)⟩
          have := quoted_line_blank [] pre pad3 r hfirst hpb rfl hp3 hS hu
          rw [hcut, hpost]
          simpa using this
        · obtain ⟨img, ht, htok⟩ := quoted_line_tokens [] (strip_right pre) pad2
            pad3 r hK rfl hp2 hp3 hS hu
          refine ⟨img, ?_, Or.inr ⟨heq, hK, unquote r, htok⟩⟩
          rw [← hp1] at ht
          rw [hcut, hpost]
          simpa using ht
      · have hV := value_ok_strip_right (y :: r) (by simp) hrb (by simpa [rd] using hyb)
          (by simpa [rd] using hq)
        obtain ⟨pad4, hv1, hv2, _⟩ := strip_right_decomp (y :: r)
        obtain ⟨hKne, hK0, _⟩ := key_ok_bytes _ hK
        obtain ⟨hVne, hV0⟩ := value_ok_bytes _ hV
        have ht := tokenizes_to_plain (strip_right pre) pad2 pad3
          (strip_right (y :: r)) pad4 hK hV hp2 hp3 hv2
        rw [← hp1, ← hv1] at ht
        have htok := tokens_key_value 0 pad2.length pad3.length pad4.length
          (strip_right pre) (strip_right (y :: r)) hKne hK0 hVne hV0
        simp only [List.replicate_zero, List.nil_append] at htok
        exact ⟨_, by rw [hcut, hpost]; exact ht, Or.inr ⟨heq, hK, _, htok⟩⟩
  · refine ⟨List.replicate (A.length + 1) 0, tokenizes_to_no_eq c A ⟨by omega, hc.1, h91, h59⟩ ?_,
      Or.inl (tokens_replicate_nul _)⟩
    intro x hx
    exact ⟨(hb x hx).1, (hb x hx).2, fun h => heq (h ▸ hx)⟩

theorem key_segment_pad (pad body : List Nat) (hp : pad_ok pad = true) (hne : body ≠ [])
    (hf : is_blank (rd body 0) = false) (h61 : rd body 0 ≠ 61) :
    key_segment (pad ++ body) = strip_right (body.takeWhile (fun c => c ≠ 61)) := by
  have h1 : (pad ++ body).takeWhile (fun c => decide (c ≠ 61)) =
      pad ++ body.takeWhile (fun c => decide (c ≠ 61)) := by
    apply List.takeWhile_append_of_pos
    intro a ha
    have := (pad_ok_iff pad).1 hp a ha
    simp only [ne_eq, decide_eq_true_eq]
    omega
  obtain ⟨c, A, rfl⟩ : ∃ c A, body = c :: A := by
    cases body with
    | nil => exact absurd rfl hne
    | cons c A => exact ⟨c, A, rfl⟩
  simp only [rd_cons_zero] at hf h61
  have h2 : (c :: A).takeWhile (fun c => decide (c ≠ 61)) =
      c :: A.takeWhile (fun c => decide (c ≠ 61)) := by
    simp [List.takeWhile, h61]
  unfold key_segment
  rw [h1, strip_left_pad _ _ hp, h2, strip_left_of_first _ (by simpa [rd] using hf) (by simp)]

/-- How the tokenizer handles any line without NUL whose first non-blank byte
is not `[` or `=`: the line leaves no token, or it has a `=` and leaves its key
segment and a value. -/
theorem line_classify (l : List Nat) (hb : ∀ x ∈ l, x ≠ 0 ∧ x ≠ 10)
    (h91 : first_nonblank l ≠ 91) (h61 : first_nonblank l ≠ 61) :
    ∃ img, tokenizes_to l img ∧
      (tokens img = [] ∨
        (61 ∈ l ∧ key_ok (key_segment l) = true ∧ ∃ v, tokens img = [key_segment l, v])) := by
  have hd := strip_left_decomp l
  have hp := pad_ok_takeWhile l
  obtain ⟨pad, hpad⟩ : ∃ pad, pad = l.takeWhile is_blank := ⟨_, rfl⟩
  rw [← hpad] at hd hp
  unfold first_nonblank at h91 h61
  by_cases hne : strip_left l = []
  · rw [hne, List.append_nil] at hd
    refine ⟨List.replicate pad.length 0 ++ [], ?_, Or.inl ?_⟩
    · have := tokenizes_to_pad pad [] [] hp tokenizes_to_nil
      rw [List.append_nil] at this
      rw [hd]
      simpa using this
    · rw [List.append_nil]; exact tokens_replicate_nul _
  · have hf := strip_left_first l hne
    have hbb : ∀ x ∈ strip_left l, x ≠ 0 ∧ x ≠ 10 := fun x hx =>
      hb x (by rw [hd]; exact List.mem_append_right _ hx)
    obtain ⟨img, ht, hcls⟩ := body_classify (strip_left l) hne hbb hf h91 h61
    have hks := key_segment_pad pad (strip_left l) hp hne hf h61
    rw [← hd] at hks
    refine ⟨List.replicate pad.length 0 ++ img, ?_, ?_⟩
    · have := tokenizes_to_pad pad _ _ hp ht
      rw [← hd] at this
      exact this
    · rw [tokens_replicate_append, hks]
      rcases hcls with h | ⟨h1, h2, h3⟩
      · exact Or.inl h
      · exact Or.inr ⟨by rw [hd]; exact List.mem_append_right _ h1, h2, h3⟩

/-- The tokens of a block of lines none of which is a section header, has an
empty key, or has a key equal to `K` up to case: the lookup of `K` passes over
them, the current section still the default one. -/
theorem tokens_unlines_inert (K : List Nat) (hK0 : 0 ∉ K) : ∀ (ls : List (List Nat)),
    (∀ l ∈ ls, (∀ x ∈ l, x ≠ 0 ∧ x ≠ 10) ∧ first_nonblank l ≠ 91 ∧ first_nonblank l ≠ 61 ∧
      (61 ∈ l → eq_ignoring_case (key_segment l) K = false)) →
    ∃ T, (∀ C, tokens (ini_load (unlines ls ++ C)).data = T ++ tokens (ini_load C).data) ∧
      (∀ sec X, tok_lookup sec K [] (T ++ X) = tok_lookup sec K [] X)
  | [], _ => ⟨[], fun C => by simp [unlines], fun sec X => rfl⟩
  | l :: ls, h => by
    obtain ⟨hb, h91, h61, hkey⟩ := h l (List.mem_cons_self _ _)
    obtain ⟨T, t1, t2⟩ := tokens_unlines_inert K hK0 ls
      (fun x hx => h x (List.mem_cons_of_mem _ hx))
    obtain ⟨img, ht, hcls⟩ := line_classify l hb h91 h61
    refine ⟨tokens img ++ T, fun C => ?_, fun sec X => ?_⟩
    · have hbk : unlines (l :: ls) ++ C = (l ++ [10]) ++ (unlines ls ++ C) := by
        simp [unlines]
      rw [hbk, tokens_ini_load_append, split_block_of_tokenizes_to _ _ ht,
        tokens_append_singleton_nul, t1 C, List.append_assoc]
    · rcases hcls with h0 | ⟨hm, hk, v, hv⟩
      · rw [h0, List.nil_append]; exact t2 sec X
      · obtain ⟨_, hk0, hk91⟩ := key_ok_bytes _ hk
        have hcmp : strcmpci (key_segment l) K = false := by
          rw [strcmpci_eq_ignoring_case _ _ (fun h0 => hk0 0 h0 rfl) hK0]
          exact hkey hm
        rw [hv]
        simp only [List.cons_append, List.nil_append]
        rw [tok_lookup_key_value sec [] _ K v _ hk91, hcmp, Bool.and_false]
        exact t2 sec X

/-! ## The dispatch trace of the main loop -/

theorem split_dispatch_fuel (e : Nat) : ∀ (f : Nat) (d : List Nat) (p : Nat), e - p ≤ f →
    split_dispatch e f d p = split_dispatch e (e - p) d p
  | 0, d, p, h => by
    have : e - p = 0 := by omega
    rw [this]
  | f + 1, d, p, h => by
    by_cases hp : p < e
    · obtain ⟨n, hn⟩ : ∃ n, e - p = n + 1 := ⟨e - p - 1, by omega⟩
      have hgt := split_step_gt d e p hp
      rw [hn]
      simp only [split_dispatch, hp, if_true]
      rw [split_dispatch_fuel e f _ _ (by omega), split_dispatch_fuel e n _ _ (by omega)]
    · have : e - p = 0 := by omega
      rw [this]
      simp [split_dispatch, hp]

theorem split_dispatch_step (d : List Nat) (e p : Nat) (hp : p < e) :
    split_dispatch e (e - p) d p =
      (p, rd d p) ::
        split_dispatch e (e - (split_step d e p).2) (split_step d e p).1 (split_step d e p).2 := by
  obtain ⟨n, hn⟩ : ∃ n, e - p = n + 1 := ⟨e - p - 1, by omega⟩
  have hgt := split_step_gt d e p hp
  rw [hn]
  simp only [split_dispatch, hp, if_true]
  rw [split_dispatch_fuel e n _ _ (by omega)]

theorem split_dispatch_done (d : List Nat) (e f p : Nat) (hp : e ≤ p) :
    split_dispatch e f d p = [] := by
  cases f with
  | zero => rfl
  | succ f => simp [split_dispatch, Nat.not_lt.2 hp]

/-- The indices of the trace are at or after the cursor, and before `end`. -/
theorem split_dispatch_ge (e : Nat) : ∀ (f : Nat) (d : List Nat) (p : Nat),
    ∀ x ∈ split_dispatch e f d p, p ≤ x.1 ∧ x.1 < e
  | 0, _, _, x, h => by simp [split_dispatch] at h
  | f + 1, d, p, x, h => by
    simp only [split_dispatch] at h
    split at h
    · rename_i hp
      rcases List.mem_cons.1 h with h1 | h1
      · subst h1; exact ⟨Nat.le_refl _, hp⟩
      · have := split_dispatch_ge e f _ _ x h1
        have hgt := split_step_gt d e p hp
        omega
    · simp at h

theorem split_dispatch_shift (Z : List Nat) (hZ : closed_left Z) (e : Nat) :
    ∀ (f : Nat) (D : List Nat) (p : Nat),
      split_dispatch (Z.length + e) f (Z ++ D) (Z.length + p) =
        (split_dispatch e f D p).map (fun x => (Z.length + x.1, x.2))
  | 0, _, _ => rfl
  | f + 1, D, p => by
    simp only [split_dispatch, Nat.add_lt_add_iff_left, split_step_shift Z D hZ,
      rd_append_right]
    split
    · rw [List.map_cons, split_dispatch_shift Z hZ e f]
    · rfl

/-- Locality of the trace: a run that starts at or before a line feed at `j`
makes, up to `j`, the same iterations whatever follows the line feed. -/
theorem split_dispatch_local (j : Nat) : ∀ (n : Nat) (X : List Nat) (p : Nat),
    j + 1 ≤ p + n → p ≤ j + 1 → j < X.length →
    (p ≤ j → (rd X j = 10 ∨ (p = j ∧ rd X j = 0))) →
    ∃ X' L, X'.length = X.length ∧ (p ≤ j → rd X' j = 0) ∧ (p = j + 1 → X' = X) ∧
      (∀ x ∈ L, x.1 ≤ j) ∧
      ∀ (Y : List Nat) (e : Nat), X.length ≤ e →
        split_dispatch e (e - p) (X ++ Y) p =
          L ++ split_dispatch e (e - (j + 1)) (X' ++ Y) (j + 1)
  | n, X, p, hn, hp, hjl, hj => by
    by_cases hpj : p = j + 1
    · subst hpj
      exact ⟨X, [], rfl, fun h => by omega, fun _ => rfl, by simp, fun Y e he => rfl⟩
    · have hple : p ≤ j := by omega
      obtain ⟨X1, p1, g1, g2, g3, g4, g5⟩ := split_step_local X p j hple hjl (hj hple)
      have hgt : p < p1 := by
        have := split_step_gt (X ++ []) X.length p (by omega)
        rw [g5 [] X.length (Nat.le_refl _)] at this
        exact this
      cases n with
      | zero => omega
      | succ n =>
        obtain ⟨X', L, k1, k2, k4, k5, k3⟩ :=
          split_dispatch_local j n X1 p1 (by omega) g2 (by omega) g3
        refine ⟨X', (p, rd X p) :: L, by rw [k1, g1], ?_, fun h => absurd h hpj, ?_,
          fun Y e he => ?_⟩
        · intro _
          by_cases hp1 : p1 ≤ j
          · exact k2 hp1
          · have h1 : p1 = j + 1 := by omega
            rw [k4 h1]; exact g4 h1
        · intro x hx
          rcases List.mem_cons.1 hx with h | h
          · subst h; exact hple
          · exact k5 x h
        · rw [split_dispatch_step _ e p (by omega), g5 Y e he,
            rd_append_left Y (by omega : p < X.length), List.cons_append]
          congr 1
          exact k3 Y e (by rw [g1]; exact he)

/-- The trace over a block of whole lines followed by `D` is a trace inside the
block followed by the trace over `D` alone, moved by the length of the
block. -/
theorem split_dispatch_append (A D : List Nat) (hA : whole_lines A) (e : Nat) :
    ∃ L, (∀ x ∈ L, x.1 < A.length) ∧
      split_dispatch (A.length + e) (A.length + e) (A ++ D) 0 =
        L ++ (split_dispatch e e D 0).map (fun x => (A.length + x.1, x.2)) := by
  rcases hA with h | ⟨X0, h⟩
  · subst h
    refine ⟨[], by simp, ?_⟩
    simp
  · subst h
    have hjl : X0.length < (X0 ++ [10]).length := by simp
    have hj : rd (X0 ++ [10]) X0.length = 10 := by
      simpa using rd_append_right X0 [10] 0
    obtain ⟨X', L, k1, k2, _, k5, k3⟩ := split_dispatch_local X0.length (X0.length + 1)
      (X0 ++ [10]) 0 (by omega) (by omega) hjl (fun _ => Or.inl hj)
    have h0 : rd X' X0.length = 0 := k2 (Nat.zero_le _)
    have hcl : closed_left X' := by
      right
      have : X'.length - 1 = X0.length := by rw [k1]; simp
      rw [this, h0]; decide
    have hlen : (X0 ++ [10]).length = X'.length := k1.symm
    have e1 : X0.length + 1 = X'.length := by rw [k1]; simp
    refine ⟨L, fun x hx => by have := k5 x hx; simp only [List.length_append,
      List.length_singleton]; omega, ?_⟩
    have := k3 D ((X0 ++ [10]).length + e) (by omega)
    rw [Nat.sub_zero] at this
    rw [this, e1, hlen, Nat.add_sub_cancel_left]
    have hs := split_dispatch_shift X' hcl e e D 0
    rw [Nat.add_zero] at hs
    rw [hs]

/-! ## Where the cursor lands after a comment or a key/value line -/

theorem rd_trim_back_from_frame : ∀ (n : Nat) (d : List Nat) (k : Nat), n < k →
    rd (trim_back_from d n) k = rd d k
  | 0, d, k, h => by
    simp only [trim_back_from]
    split
    · exact rd_set_ne d 0 (by omega)
    · rfl
  | n + 1, d, k, h => by
    simp only [trim_back_from]
    split
    · rw [rd_trim_back_from_frame n _ k (by omega)]
      exact rd_set_ne d 0 (by omega)
    · rfl

theorem rd_trim_back_frame (d : List Nat) (p k : Nat) (h : p ≤ k) :
    rd (trim_back d ((p : Int) - 1)) k = rd d k := by
  cases p with
  | zero => rfl
  | succ p =>
    have : (((p + 1 : Nat) : Int) - 1) = Int.ofNat p := by simp
    rw [this]
    exact rd_trim_back_from_frame p d k (by omega)

theorem rd_trim_back_from_cases : ∀ (n : Nat) (d : List Nat) (k : Nat),
    rd (trim_back_from d n) k = rd d k ∨ rd (trim_back_from d n) k = 0
  | 0, d, k => by
    simp only [trim_back_from]
    split
    · rw [rd_set_zero]; split
      · exact Or.inr rfl
      · exact Or.inl rfl
    · exact Or.inl rfl
  | n + 1, d, k => by
    simp only [trim_back_from]
    split
    · rcases rd_trim_back_from_cases n (d.set (n + 1) 0) k with h | h
      · rw [h, rd_set_zero]; split
        · exact Or.inr rfl
        · exact Or.inl rfl
      · exact Or.inr h
    · exact Or.inl rfl

theorem rd_trim_back_cases (d : List Nat) (i : Int) (k : Nat) :
    rd (trim_back d i) k = rd d k ∨ rd (trim_back d i) k = 0 := by
  unfold trim_back
  split
  · exact rd_trim_back_from_cases _ _ _
  · exact Or.inl rfl

theorem rd_eq_loop_frame : ∀ (f : Nat) (d : List Nat) (p k : Nat), (eq_loop f d p).2 ≤ k →
    0 < f → rd (eq_loop f d p).1 k = rd d k
  | 0, _, _, _, _, h => by omega
  | f + 1, d, p, k, hk, _ => by
    simp only [eq_loop] at hk ⊢
    split at hk
    · rename_i hc
      rw [if_pos hc]
      cases f with
      | zero =>
        simp only [eq_loop] at hk ⊢
        exact rd_set_ne d 0 (by omega)
      | succ f =>
        have hgt := eq_loop_gt f (d.set p 0) (p + 1)
        rw [rd_eq_loop_frame (f + 1) _ _ k hk (by omega)]
        exact rd_set_ne d 0 (by omega)
    · rename_i hc
      rw [if_neg hc]
      exact rd_set_ne d 0 (by simp only at hk; omega)

theorem rd_eq_loop_cases : ∀ (f : Nat) (d : List Nat) (p k : Nat),
    rd (eq_loop f d p).1 k = rd d k ∨ rd (eq_loop f d p).1 k = 0
  | 0, _, _, _ => Or.inl rfl
  | f + 1, d, p, k => by
    simp only [eq_loop]
    have hs : rd (d.set p 0) k = rd d k ∨ rd (d.set p 0) k = 0 := by
      rw [rd_set_zero]; split
      · exact Or.inr rfl
      · exact Or.inl rfl
    split
    · rcases rd_eq_loop_cases f (d.set p 0) (p + 1) k with h | h
      · rw [h]; exact hs
      · exact Or.inr h
    · exact hs

/-- `discard_line` does not stop before it meets a line feed or `end`. -/
theorem discard_loop_reach (e : Nat) : ∀ (f : Nat) (d : List Nat) (p m : Nat), m ≤ e →
    (∀ i, p ≤ i → i < m → rd d i ≠ 10) → e - p ≤ f → m ≤ (discard_loop e f d p).2
  | 0, d, p, m, hm, _, hf => by simp only [discard_loop]; omega
  | f + 1, d, p, m, hm, hb, hf => by
    by_cases hpm : p < m
    · have h10 := hb p (Nat.le_refl _) hpm
      simp only [discard_loop]
      rw [if_pos ⟨by omega, h10⟩]
      exact discard_loop_reach e f _ _ m hm (fun i h1 h2 => by
        rw [rd_set_ne d 0 (by omega)]; exact hb i (by omega) h2) (by omega)
    · have := discard_loop_ge e (f + 1) d p
      omega

/-- `strcspn` does not stop on a byte that is neither NUL nor rejected. -/
theorem strcspn_reach (rej : List Nat) : ∀ (s : List Nat) (m : Nat),
    (∀ i, i < m → rd s i ≠ 0 ∧ rd s i ∉ rej) → m ≤ strcspn rej s
  | _, 0, _ => Nat.zero_le _
  | [], m + 1, h => absurd rfl (h 0 (by omega)).1
  | c :: s, m + 1, h => by
    have h0 := h 0 (by omega)
    simp only [rd_cons_zero] at h0
    simp only [strcspn]
    rw [if_neg (by intro hc; rcases hc with hc | hc; exact h0.1 hc; exact h0.2 hc)]
    have := strcspn_reach rej s m (fun i hi => by
      have := h (i + 1) (by omega)
      simpa [rd] using this)
    omega

theorem rd_unescape_loop_frame (e f : Nat) (d : List Nat) (p q i : Nat) (h : q < p)
    (hi : (unescape_loop e f d p q).2 ≤ i) : rd (unescape_loop e f d p q).1 i = rd d i := by
  have hl := unescape_run_loop e f d p q
  rw [← hl] at hi ⊢
  exact rd_unescape_run e f d p q i h hi

/-- After the value has been handled, the cursor is at or beyond the end of
the line. -/
theorem split_value_reach (d : List Nat) (e p n : Nat) (hn : n ≤ e)
    (h10 : ∀ i, i < n → rd d i ≠ 10) (h0 : ∀ i, p ≤ i → i < n → rd d i ≠ 0) :
    n ≤ (split_value d e 0 p).2 := by
  unfold split_value
  by_cases h1 : rd d p = 10 ∨ rd d p = 0
  · rw [if_pos h1]
    exact discard_loop_reach e _ d 0 n hn (fun i _ hi => h10 i hi) (Nat.le_refl _)
  · rw [if_neg h1]
    by_cases h2 : rd d p = 34
    · rw [if_pos h2]
      simp only
      by_cases h3 : (unescape_quoted_value d e p).2 = p
      · have hu : (unescape_quoted_value d e p).1 = d := unescape_loop_eq e _ d (p + 1) p h3
        rw [if_pos h3, hu]
        exact discard_loop_reach e _ d 0 n hn (fun i _ hi => h10 i hi) (Nat.le_refl _)
      · rw [if_neg h3]
        exact discard_loop_reach e _ _ _ n hn (fun i hi1 hi2 => by
          have := rd_unescape_loop_frame e (e - (p + 1)) d (p + 1) p i (by omega) hi1
          unfold unescape_quoted_value
          rw [this]
          exact h10 i hi2) (Nat.le_refl _)
    · rw [if_neg h2]
      simp only
      rcases Nat.lt_or_ge p n with hp | hp
      · have := strcspn_reach [10] (d.drop p) (n - p) (fun i hi => by
          rw [rd_drop]
          exact ⟨h0 (p + i) (by omega) (by omega), by
            simp only [List.mem_singleton]; exact h10 (p + i) (by omega)⟩)
        omega
      · omega

/-- After the `default:` arm, the cursor is at or beyond the end of the
line. -/
theorem split_default_reach (d : List Nat) (e n : Nat) (hn : n ≤ e)
    (hb : ∀ i, i < n → rd d i ≠ 0 ∧ rd d i ≠ 10) : n ≤ (split_default d e 0).2 := by
  unfold split_default
  simp only [Nat.zero_add, List.drop_zero]
  split_ifs with h1
  · exact discard_loop_reach e _ d 0 n hn (fun i _ hi => (hb i hi).2) (Nat.le_refl _)
  · have h61 : rd d (strcspn [61, 10] d) = 61 := by
      by_contra h; exact h1 h
    generalize strcspn [61, 10] d = p1 at h61 ⊢
    have hlt : p1 < d.length := lt_length_of_rd_ne_zero (by rw [h61]; decide)
    have hlen := trim_back_length d ((p1 : Int) - 1)
    obtain ⟨f, hf⟩ : ∃ f, (trim_back d ((p1 : Int) - 1)).length - p1 = f + 1 :=
      ⟨d.length - p1 - 1, by omega⟩
    rw [hf]
    have hgt := eq_loop_gt f (trim_back d ((p1 : Int) - 1)) p1
    apply split_value_reach _ e _ n hn
    · intro i hi
      rcases rd_eq_loop_cases (f + 1) (trim_back d ((p1 : Int) - 1)) p1 i with h | h
      · rw [h]
        rcases rd_trim_back_cases d ((p1 : Int) - 1) i with h' | h'
        · rw [h']; exact (hb i hi).2
        · rw [h']; decide
      · rw [h]; decide
    · intro i hi1 hi2
      rw [rd_eq_loop_frame (f + 1) _ _ i hi1 (by omega), rd_trim_back_frame d p1 i (by omega)]
      exact (hb i hi2).1

/-- One iteration of the main loop at the first byte of a comment or of a
key/value line takes the cursor to the end of the line or beyond. -/
theorem split_step_reach (d : List Nat) (e n : Nat) (hn : n ≤ e) (hpos : 0 < n)
    (hb : ∀ i, i < n → rd d i ≠ 0 ∧ rd d i ≠ 10)
    (hc : ¬ (rd d 0 = 32 ∨ rd d 0 = 9 ∨ rd d 0 = 13)) (h91 : rd d 0 ≠ 91) :
    n ≤ (split_step d e 0).2 := by
  have h0 := hb 0 hpos
  unfold split_step
  simp only
  rw [if_neg (by omega), if_neg h0.1, if_neg h91]
  split_ifs
  · exact discard_loop_reach e _ d 0 n hn (fun i _ hi => (hb i hi).2) (Nat.le_refl _)
  · exact split_default_reach d e n hn hb

/-- A section header with no `]` on the line takes the cursor to the end of
the line or beyond. -/
theorem split_step_header_open (d : List Nat) (e n : Nat) (h91 : rd d 0 = 91)
    (hb : ∀ i, i < n → rd d i ≠ 0 ∧ rd d i ≠ 10 ∧ rd d i ≠ 93) :
    n ≤ (split_step d e 0).2 := by
  unfold split_step
  simp only
  rw [h91, if_neg (by decide), if_neg (by decide), if_pos rfl]
  simp only [Nat.zero_add, List.drop_zero]
  exact strcspn_reach [93, 10] d n (fun i hi => by
    have := hb i hi
    simp only [List.mem_cons, List.mem_singleton, List.not_mem_nil, or_false]
    omega)

/-- A blank at the cursor becomes NUL, and the cursor moves on by one. -/
theorem split_step_blank (b : Nat) (D : List Nat) (e : Nat) (hb : is_blank b = true) :
    split_step (b :: D) e 0 = (0 :: D, 1) := by
  have := (is_blank_iff b).1 hb
  unfold split_step
  simp only [rd_cons_zero]
  rw [if_pos (by omega)]
  rfl

/-- A closed section header: the `]` becomes NUL, the cursor is on it. -/
theorem split_step_header_closed (name rest : List Nat) (e : Nat)
    (hn : ∀ x ∈ name, x ≠ 0 ∧ x ≠ 10 ∧ x ≠ 93) :
    split_step (91 :: (name ++ 93 :: rest)) e 0 = (91 :: (name ++ 0 :: rest), name.length + 1) := by
  have hk : strcspn [93, 10] ((91 :: name) ++ 93 :: rest) = (91 :: name).length :=
    strcspn_seg [93, 10] (91 :: name) 93 rest (fun x hx => by
      simp only [List.mem_cons, List.mem_singleton, List.not_mem_nil, or_false]
      rcases List.mem_cons.1 hx with h | h
      · omega
      · have := hn x h; omega) (Or.inr (by simp))
  unfold split_step
  simp only [rd_cons_zero, List.drop_zero, Nat.zero_add, if_true]
  simp only [List.cons_append] at hk
  rw [if_neg (by decide), if_neg (by decide), hk]
  simp

theorem split_step_nul (Z D : List Nat) (e : Nat) :
    split_step (Z ++ 0 :: D) e Z.length = (Z ++ 0 :: D, Z.length + 1) := by
  simp [split_step, rd_length_append]

/-! ## Which bytes of a line start a comment or a section header -/

theorem foldl_header_step_none (l : List Nat) : l.foldl header_step none = none := by
  induction l with
  | nil => rfl
  | cons c l ih => simpa [List.foldl, header_step] using ih

theorem foldl_header_step_inside (l : List Nat) (h : 93 ∉ l) :
    l.foldl header_step (some true) = some true := by
  induction l with
  | nil => rfl
  | cons c l ih =>
    have hc : c ≠ 93 := fun h' => h (h' ▸ List.mem_cons_self _ _)
    simp only [List.foldl, header_step, hc, if_false]
    exact ih (fun h' => h (List.mem_cons_of_mem _ h'))

theorem headers_only_nil : headers_only [] = true := rfl

theorem headers_only_blank (b : Nat) (l : List Nat) (hb : is_blank b = true) :
    headers_only (b :: l) = headers_only l := by
  simp [headers_only, List.foldl, header_step, hb]

theorem headers_only_other (b : Nat) (l : List Nat) (hb : is_blank b = false) (h91 : b ≠ 91) :
    headers_only (b :: l) = false := by
  simp [headers_only, List.foldl, header_step, hb, h91, foldl_header_step_none]

theorem headers_only_open (l : List Nat) (h : 93 ∉ l) : headers_only (91 :: l) = false := by
  have h1 : is_blank 91 = false := by decide
  simp [headers_only, List.foldl, header_step, h1, foldl_header_step_inside l h]

theorem headers_only_closed (name l : List Nat) (h : 93 ∉ name) :
    headers_only (91 :: (name ++ 93 :: l)) = headers_only l := by
  have h1 : is_blank 91 = false := by decide
  simp [headers_only, List.foldl, header_step, h1, List.foldl_append,
    foldl_header_step_inside name h]

/-- A text with the byte `c` is cut at its first `c`. -/
theorem cut_at (c : Nat) : ∀ (l : List Nat), c ∈ l → ∃ pre post, l = pre ++ c :: post ∧ c ∉ pre
  | [], h => by simp at h
  | x :: l, h => by
    by_cases hx : x = c
    · exact ⟨[], l, by simp [hx], by simp⟩
    · have hl : c ∈ l := by
        rcases List.mem_cons.1 h with h1 | h1
        · exact absurd h1.symm hx
        · exact h1
      obtain ⟨pre, post, h1, h2⟩ := cut_at c l hl
      refine ⟨x :: pre, post, by simp [h1], ?_⟩
      intro hm
      rcases List.mem_cons.1 hm with h3 | h3
      · exact hx h3.symm
      · exact h2 h3

theorem rd_mem_of_lt (l : List Nat) (i : Nat) (h : i < l.length) : rd l i ∈ l := by
  have : rd l i = l[i] := by simp [rd, List.getD_eq_getElem?_getD, List.getElem?_eq_getElem h]
  rw [this]
  exact List.getElem_mem h

/-- When the first iteration takes the cursor to `m` or beyond, the trace has
one entry below `m`: the first. -/
theorem dispatch_head_only (d : List Nat) (e m i c : Nat) (he : 0 < e)
    (hreach : m ≤ (split_step d e 0).2) (hi : i < m) :
    (i, c) ∈ split_dispatch e e d 0 ↔ (i = 0 ∧ c = rd d 0) := by
  have hstep := split_dispatch_step d e 0 he
  rw [Nat.sub_zero] at hstep
  rw [hstep, List.mem_cons]
  constructor
  · rintro (h | h)
    · simp only [Prod.mk.injEq] at h; exact h
    · have := (split_dispatch_ge e _ _ _ _ h).1
      simp only at this
      omega
  · rintro ⟨h1, h2⟩
    left; rw [h1, h2]

/-- The trace of a line that starts with a blank. -/
theorem dispatch_blank (b : Nat) (D : List Nat) (e i c : Nat) (hb : is_blank b = true) :
    (i, c) ∈ split_dispatch (e + 1) (e + 1) (b :: D) 0 ↔
      ((i = 0 ∧ c = b) ∨ ∃ k, i = k + 1 ∧ (k, c) ∈ split_dispatch e e D 0) := by
  have hstep := split_dispatch_step (b :: D) (e + 1) 0 (by omega)
  rw [Nat.sub_zero, split_step_blank b D (e + 1) hb] at hstep
  have hsh := split_dispatch_shift [0] (Or.inr (by decide)) e e D 0
  simp only [List.length_singleton, Nat.add_zero, List.singleton_append] at hsh
  simp only [Nat.add_sub_cancel, rd_cons_zero] at hstep
  rw [hstep, Nat.add_comm e 1, hsh, List.mem_cons, List.mem_map]
  constructor
  · rintro (h | ⟨x, hx, h⟩)
    · simp only [Prod.mk.injEq] at h; exact Or.inl h
    · simp only [Prod.mk.injEq] at h
      refine Or.inr ⟨x.1, by omega, ?_⟩
      rw [← h.2]; exact hx
  · rintro (⟨h1, h2⟩ | ⟨k, h1, h2⟩)
    · left; rw [h1, h2]
    · right; exact ⟨(k, c), h2, by show (1 + k, c) = (i, c); rw [h1, Nat.add_comm]⟩

/-- The trace of a line that starts with a closed section header. -/
theorem dispatch_header_closed (name D : List Nat) (e i c : Nat)
    (hn : ∀ x ∈ name, x ≠ 0 ∧ x ≠ 10 ∧ x ≠ 93) :
    (i, c) ∈ split_dispatch (name.length + 2 + e) (name.length + 2 + e)
        (91 :: (name ++ 93 :: D)) 0 ↔
      ((i = 0 ∧ c = 91) ∨ (i = name.length + 1 ∧ c = 0) ∨
        ∃ k, i = name.length + 2 + k ∧ (k, c) ∈ split_dispatch e e D 0) := by
  have hstep := split_dispatch_step (91 :: (name ++ 93 :: D)) (name.length + 2 + e) 0 (by omega)
  rw [Nat.sub_zero, split_step_header_closed name D _ hn] at hstep
  simp only [rd_cons_zero] at hstep
  have hstep2 := split_dispatch_step ((91 :: name) ++ 0 :: D) (name.length + 2 + e)
    (name.length + 1) (by omega)
  have hnul := split_step_nul (91 :: name) D (name.length + 2 + e)
  simp only [List.length_cons] at hnul
  have hr : rd ((91 :: name) ++ 0 :: D) (name.length + 1) = 0 := by
    have := rd_length_append (91 :: name) 0 D
    simpa using this
  rw [hnul, hr] at hstep2
  simp only [List.cons_append] at hstep2
  have hcl : closed_left ((91 :: name) ++ [0]) := by
    right
    have h1 : ((91 :: name) ++ [0]).length - 1 = (91 :: name).length := by simp
    rw [h1, rd_length_append (91 :: name) 0 []]
    decide
  have hsh := split_dispatch_shift ((91 :: name) ++ [0]) hcl e e D 0
  simp only [List.length_append, List.length_cons, List.length_singleton, List.length_nil,
    Nat.add_zero, List.append_assoc, List.cons_append, List.nil_append, Nat.zero_add] at hsh
  have e1 : name.length + 2 + e - (name.length + 1 + 1) = e := by omega
  have e2 : name.length + 1 + 1 + e = name.length + 2 + e := by omega
  rw [hstep, hstep2, e1, ← e2, hsh, List.mem_cons, List.mem_cons, List.mem_map]
  constructor
  · rintro (h | h | ⟨x, hx, h⟩)
    · simp only [Prod.mk.injEq] at h; exact Or.inl h
    · simp only [Prod.mk.injEq] at h; exact Or.inr (Or.inl h)
    · simp only [Prod.mk.injEq] at h
      refine Or.inr (Or.inr ⟨x.1, by omega, ?_⟩)
      rw [← h.2]; exact hx
  · rintro (⟨h1, h2⟩ | ⟨h1, h2⟩ | ⟨k, h1, h2⟩)
    · left; rw [h1, h2]
    · right; left; rw [h1, h2]
    · right; right
      exact ⟨(k, c), h2, by show (name.length + 1 + 1 + k, c) = (i, c); rw [h1]⟩

/-- Inside a line without NUL, the `case ';'` or `case '['` arm of the main
loop runs at offset `i` exactly when the byte there is `;` or `[` and the text
of the line before it is made of blanks and closed section headers. -/
theorem line_dispatch : ∀ (n : Nat) (S : List Nat), S.length ≤ n →
    (∀ x ∈ S, x ≠ 0 ∧ x ≠ 10) → ∀ (T : List Nat) (e : Nat), S.length ≤ e →
    ∀ (i c : Nat), i < S.length → (c = 59 ∨ c = 91) →
    ((i, c) ∈ split_dispatch e e (S ++ T) 0 ↔ (headers_only (S.take i) = true ∧ rd S i = c))
  | _, [], _, _, _, _, _, i, c, hi, _ => by simp at hi
  | 0, b :: S', hn, _, _, _, _, _, _, _, _ => by simp at hn
  | n + 1, b :: S', hn, hS, T, e, he, i, c, hi, hc => by
    simp only [List.length_cons] at hn he hi
    have hb := hS b (List.mem_cons_self _ _)
    have hS' : ∀ x ∈ S', x ≠ 0 ∧ x ≠ 10 := fun x hx => hS x (List.mem_cons_of_mem _ hx)
    have hbytes : ∀ k, k < (b :: S').length →
        rd ((b :: S') ++ T) k ≠ 0 ∧ rd ((b :: S') ++ T) k ≠ 10 := by
      intro k hk
      rw [rd_append_left T hk]
      exact hS _ (rd_mem_of_lt _ k hk)
    by_cases hblank : is_blank b = true
    · obtain ⟨e', rfl⟩ : ∃ e', e = e' + 1 := ⟨e - 1, by omega⟩
      have hcb : c ≠ b := by
        intro h; subst h
        rcases hc with h | h <;> (subst h; exact absurd hblank (by decide))
      rw [List.cons_append, dispatch_blank b (S' ++ T) e' i c hblank]
      cases i with
      | zero =>
        simp only [List.take_zero, rd_cons_zero]
        constructor
        · rintro (⟨_, h⟩ | ⟨k, h, _⟩)
          · exact absurd h hcb
          · omega
        · rintro ⟨_, h⟩
          exact absurd h.symm hcb
      | succ k =>
        have ih := line_dispatch n S' (by omega) hS' T e' (by omega) k c (by omega) hc
        simp only [List.take_succ_cons, headers_only_blank b _ hblank, rd_cons_succ]
        rw [← ih]
        constructor
        · rintro (⟨h, _⟩ | ⟨k', h1, h2⟩)
          · omega
          · have : k' = k := by omega
            subst this; exact h2
        · intro h
          exact Or.inr ⟨k, rfl, h⟩
    · have hblank' : is_blank b = false := by simpa using hblank
      by_cases h91 : b = 91
      · subst h91
        by_cases h93 : 93 ∈ S'
        · obtain ⟨name, S'', hcut, hno⟩ := cut_at 93 S' h93
          subst hcut
          simp only [List.length_append, List.length_cons] at hn he hi
          have hname : ∀ x ∈ name, x ≠ 0 ∧ x ≠ 10 ∧ x ≠ 93 := fun x hx =>
            ⟨(hS' x (List.mem_append_left _ hx)).1, (hS' x (List.mem_append_left _ hx)).2,
              fun h => hno (h ▸ hx)⟩
          have hS'' : ∀ x ∈ S'', x ≠ 0 ∧ x ≠ 10 := fun x hx =>
            hS' x (List.mem_append_right _ (List.mem_cons_of_mem _ hx))
          obtain ⟨e', rfl⟩ : ∃ e', e = name.length + 2 + e' :=
            ⟨e - (name.length + 2), by omega⟩
          have hd : (91 :: (name ++ 93 :: S'')) ++ T = 91 :: (name ++ 93 :: (S'' ++ T)) := by
            simp
          rw [hd, dispatch_header_closed name (S'' ++ T) e' i c hname]
          rcases Nat.lt_or_ge i (name.length + 2) with hlt | hge
          · cases i with
            | zero =>
              rw [List.take_zero, rd_cons_zero]
              constructor
              · rintro (⟨_, h⟩ | ⟨h, _⟩ | ⟨k, h, _⟩)
                · exact ⟨rfl, h.symm⟩
                · omega
                · omega
              · rintro ⟨_, h⟩
                exact Or.inl ⟨rfl, h.symm⟩
            | succ k =>
              have htk : (91 :: (name ++ 93 :: S'')).take (k + 1) = 91 :: name.take k := by
                rw [List.take_succ_cons, List.take_append_of_le_length (by omega)]
              have hnt : 93 ∉ name.take k := fun h => hno (List.mem_of_mem_take h)
              rw [htk, headers_only_open _ hnt]
              constructor
              · rintro (⟨h, _⟩ | ⟨_, h⟩ | ⟨k', h, _⟩)
                · omega
                · rcases hc with h' | h' <;> omega
                · omega
              · rintro ⟨h, _⟩
                exact absurd h (by decide)
          · obtain ⟨k, rfl⟩ : ∃ k, i = name.length + 2 + k := ⟨i - (name.length + 2), by omega⟩
            have ih := line_dispatch n S'' (by omega) hS'' T e' (by omega) k c (by omega) hc
            have htk : (91 :: (name ++ 93 :: S'')).take (name.length + 2 + k) =
                91 :: (name ++ 93 :: S''.take k) := by
              have h1 : name.length + 2 + k = (k + 1 + name.length) + 1 := by omega
              rw [h1, List.take_succ_cons, Nat.add_comm (k + 1) name.length,
                List.take_append, List.take_succ_cons]
            have hrk : rd (91 :: (name ++ 93 :: S'')) (name.length + 2 + k) = rd S'' k := by
              have h1 : name.length + 2 + k = (91 :: (name ++ [93])).length + k := by
                have : (91 :: (name ++ [93])).length = name.length + 2 := by simp
                omega
              have h2 : 91 :: (name ++ 93 :: S'') = (91 :: (name ++ [93])) ++ S'' := by simp
              rw [h1, h2, rd_append_right]
            rw [htk, headers_only_closed name _ hno, hrk, ← ih]
            constructor
            · rintro (⟨h, _⟩ | ⟨h, _⟩ | ⟨k', h1, h2⟩)
              · omega
              · omega
              · have : k' = k := by omega
                subst this; exact h2
            · intro h
              exact Or.inr (Or.inr ⟨k, rfl, h⟩)
        · have hreach := split_step_header_open ((91 :: S') ++ T) e (91 :: S').length rfl
            (fun k hk => by
              refine ⟨(hbytes k hk).1, (hbytes k hk).2, ?_⟩
              rw [rd_append_left T hk]
              cases k with
              | zero => simp [rd]
              | succ k =>
                rw [rd_cons_succ]
                intro h
                exact h93 (h ▸ rd_mem_of_lt S' k (by simpa using hk)))
          rw [dispatch_head_only _ e (91 :: S').length i c (by omega) hreach (by simpa using hi)]
          cases i with
          | zero =>
            rw [List.take_zero, List.cons_append, rd_cons_zero, rd_cons_zero]
            exact ⟨fun h => ⟨rfl, h.2.symm⟩, fun h => ⟨rfl, h.2.symm⟩⟩
          | succ k =>
            have hnt : 93 ∉ S'.take k := fun h => h93 (List.mem_of_mem_take h)
            rw [List.take_succ_cons, headers_only_open _ hnt]
            constructor
            · rintro ⟨h, _⟩; omega
            · rintro ⟨h, _⟩; exact absurd h (by decide)
      · have hnb : ¬ (b = 32 ∨ b = 9 ∨ b = 13) := fun h => by
          have := (is_blank_iff b).2 h
          rw [hblank'] at this
          exact absurd this (by decide)
        have hreach := split_step_reach ((b :: S') ++ T) e (b :: S').length
          (by simpa using he) (by simp) hbytes (by simpa [rd] using hnb) (by simpa [rd] using h91)
        rw [dispatch_head_only _ e (b :: S').length i c (by omega) hreach (by simpa using hi)]
        cases i with
        | zero =>
          rw [List.take_zero, List.cons_append, rd_cons_zero, rd_cons_zero]
          exact ⟨fun h => ⟨rfl, h.2.symm⟩, fun h => ⟨rfl, h.2.symm⟩⟩
        | succ k =>
          rw [List.take_succ_cons, headers_only_other b _ hblank' h91]
          constructor
          · rintro ⟨h, _⟩; omega
          · rintro ⟨h, _⟩; exact absurd h (by decide)

/-! # The claims -/

/-- C1: plain key/value round trip.  For a key text `K`, an unquoted value text
`V` and any padding of spaces, tabs and carriage returns before `K`, around
`=` and after `V`, loading the buffer `pad K pad = pad V pad LF` and looking
`K` up with an absent section returns exactly `V`. -/
theorem plain_key_value_round_trip (pad1 K pad2 pad3 V pad4 : List Nat)
    (hK : key_ok K = true) (hV : value_ok V = true) (h1 : pad_ok pad1 = true)
    (h2 : pad_ok pad2 = true) (h3 : pad_ok pad3 = true) (h4 : pad_ok pad4 = true) :
    ini_get_text (ini_load (pad1 ++ K ++ pad2 ++ [61] ++ pad3 ++ V ++ pad4 ++ [10])) none K =
      some V := by
  obtain ⟨hKne, hK0, hK91⟩ := key_ok_bytes K hK
  obtain ⟨hVne, hV0⟩ := value_ok_bytes V hV
  have ht := tokenizes_to_pad pad1 _ _ h1 (tokenizes_to_plain K pad2 pad3 V pad4 hK hV h2 h3 h4)
  have hb : pad1 ++ K ++ pad2 ++ [61] ++ pad3 ++ V ++ pad4 ++ [10] =
      (pad1 ++ ((K ++ pad2) ++ 61 :: (pad3 ++ (V ++ pad4)))) ++ [10] := by
    simp
  rw [hb, (ini_get_text_one_line _ _ ht none K).1, tokens_key_value _ _ _ _ K V hKne hK0 hVne hV0,
    tok_lookup_key_value none [] K K V [] hK91, strcmpci_refl]
  rfl

/-- Witness for C1: the line ` Key = some value`, a tab, CR, LF gives `some value`
for the key `Key`. -/
theorem plain_key_value_round_trip_witness :
    key_ok [75, 101, 121] = true ∧
    value_ok [115, 111, 109, 101, 32, 118, 97, 108, 117, 101] = true ∧
    pad_ok [32] = true ∧ pad_ok [9, 13] = true ∧
    ini_get_text (ini_load ([32] ++ [75, 101, 121] ++ [32] ++ [61] ++ [32] ++
      [115, 111, 109, 101, 32, 118, 97, 108, 117, 101] ++ [9, 13] ++ [10])) none [75, 101, 121] =
      some [115, 111, 109, 101, 32, 118, 97, 108, 117, 101] :=
  ⟨by decide, by decide, by decide, by decide,
    plain_key_value_round_trip [32] [75, 101, 121] [32] [32]
      [115, 111, 109, 101, 32, 118, 97, 108, 117, 101] [9, 13]
      (by decide) (by decide) (by decide) (by decide) (by decide) (by decide)⟩

/-- C2: first match wins, against the reference lookup.  For a file made only
of section header lines `[name]` and well-formed key/value lines (blanks as
padding, unquoted value), with or without the line feed of its last line, and
for NUL-free section and key arguments, `ini_get` returns what the reference
lookup returns: the value of the earliest line whose key equals the requested
key up to case and whose enclosing section is accepted by the section
argument, and not-found when there is none. -/
theorem first_match_wins (ls : List ini_line) (hls : ∀ l ∈ ls, line_ok l = true)
    (sec : Option (List Nat)) (key : List Nat) (hsec : ∀ s, sec = some s → 0 ∉ s)
    (hkey : 0 ∉ key) :
    ini_get_text (ini_load (render ls)) sec key = ref_lookup sec key [] ls ∧
    (∀ input, input ++ [10] = render ls →
      ini_get_text (ini_load input) sec key = ref_lookup sec key [] ls) := by
  have href := tok_lookup_eq_ref sec key hsec hkey ls [] hls (by simp)
  constructor
  · have := tokens_ini_load_render ls [] hls
    rw [List.append_nil, ini_load_nil] at this
    rw [ini_get_text_load, this]
    simpa [tokens] using href
  · intro input hin
    rw [ini_get_text_load, tokens_ini_load_render_open ls input hls hin]
    exact href

/-- Witness for C2: in `[s]`, `k=1`, `k=2` (the last line without line feed)
the lookup of `("s", "k")` returns `1`. -/
theorem first_match_wins_witness :
    (∀ l ∈ [ini_line.header [115], ini_line.pair [] [107] [] [] [49] [],
        ini_line.pair [] [107] [] [] [50] []], line_ok l = true) ∧
    [91, 115, 93, 10, 107, 61, 49, 10, 107, 61, 50] ++ [10] =
      render [ini_line.header [115], ini_line.pair [] [107] [] [] [49] [],
        ini_line.pair [] [107] [] [] [50] []] ∧
    ini_get_text (ini_load [91, 115, 93, 10, 107, 61, 49, 10, 107, 61, 50])
      (some [115]) [107] = some [49] :=
  ⟨by decide, by decide,
    ((first_match_wins [ini_line.header [115], ini_line.pair [] [107] [] [] [49] [],
        ini_line.pair [] [107] [] [] [50] []] (by decide) (some [115]) [107]
        (by intro s hs; cases hs; decide) (by decide)).2
      [91, 115, 93, 10, 107, 61, 49, 10, 107, 61, 50] (by decide)).trans (by decide)⟩

/-- C3: the lookup does not see the case of ASCII letters in its section and
key arguments: when `s'`, `k'` differ from `s`, `k` only in letter case,
`ini_get` returns the same pointer (same found / not-found, same value
position) and the same value text; and the text handed back is the bytes of
the buffer at the returned position, unchanged. -/
theorem ini_get_case_insensitive (ini : ini_file) (s s' : Option (List Nat)) (k k' : List Nat)
    (hs : same_section_up_to_case s s' = true) (hk : same_up_to_case k k' = true) :
    ini_get ini s' k' = ini_get ini s k ∧
    ini_get_text ini s' k' = ini_get_text ini s k ∧
    (∀ p, ini_get ini s k = some p →
      ini_get_text ini s' k' = some (cstr (ini.data.drop p))) := by
  have h : ini_get ini s' k' = ini_get ini s k := by
    unfold ini_get
    exact ini_get_loop_congr ini s s' k k' hs hk _ _ _
  refine ⟨h, by simp only [ini_get_text, h], ?_⟩
  intro p hp
  simp only [ini_get_text, h, hp, Option.map_some']

/-- Witness for C3: after loading `[Foo]`, `Key=VaLuE`, the lookup with
section `foo` and key `KEY` finds the value `VaLuE`, letter case kept. -/
theorem ini_get_case_insensitive_witness :
    same_section_up_to_case (some [70, 111, 111]) (some [102, 111, 111]) = true ∧
    same_up_to_case [75, 101, 121] [75, 69, 89] = true ∧
    ini_get_text (ini_load [91, 70, 111, 111, 93, 10, 75, 101, 121, 61, 86, 97, 76, 117, 69, 10])
      (some [102, 111, 111]) [75, 69, 89] = some [86, 97, 76, 117, 69] :=
  ⟨by decide, by decide,
    ((ini_get_case_insensitive
      (ini_load [91, 70, 111, 111, 93, 10, 75, 101, 121, 61, 86, 97, 76, 117, 69, 10])
      (some [70, 111, 111]) (some [102, 111, 111]) [75, 101, 121] [75, 69, 89]
      (by decide) (by decide)).2.1).trans (by decide)⟩

/-- C4: quoted-value decoding equals the escape mapping of the specification.
For a key `K`, any padding, and a quoted body `B` (no raw CR, LF or NUL, ended
by the first unescaped double quote) whose decoding is not empty, loading
`pad K pad = pad "B"` LF and looking `K` up returns `decode B`. -/
theorem quoted_value_decoding (pad1 K pad2 pad3 B : List Nat) (hK : key_ok K = true)
    (h1 : pad_ok pad1 = true) (h2 : pad_ok pad2 = true) (h3 : pad_ok pad3 = true)
    (hB : quoted_body_ok B = true) (hne : decode B ≠ []) :
    ini_get_text (ini_load (pad1 ++ K ++ pad2 ++ [61] ++ pad3 ++ [34] ++ B ++ [34] ++ [10]))
      none K = some (decode B) := by
  obtain ⟨hu, hB0, _⟩ := unquote_body B.length B (Nat.le_refl _) hB []
  obtain ⟨_, _, hK91⟩ := key_ok_bytes K hK
  have hS : ∀ x ∈ B ++ [34], x ≠ 10 ∧ x ≠ 0 := by
    intro x hx
    rcases List.mem_append.1 hx with h | h
    · exact hB0 x h
    · rw [List.mem_singleton] at h; subst h; exact ⟨by decide, by decide⟩
  obtain ⟨img, ht, htok⟩ := quoted_line_tokens pad1 K pad2 pad3 (B ++ [34]) hK h1 h2 h3 hS
    (by rw [hu]; exact hne)
  have hb : pad1 ++ K ++ pad2 ++ [61] ++ pad3 ++ [34] ++ B ++ [34] ++ [10] =
      (pad1 ++ ((K ++ pad2) ++ 61 :: (pad3 ++ 34 :: (B ++ [34])))) ++ [10] := by
    simp
  rw [hb, (ini_get_text_one_line _ _ ht none K).1, htok,
    tok_lookup_key_value none [] K K _ [] hK91, strcmpci_refl, hu]
  rfl

/-- Witness for C4: `k = "a\nb"` (backslash, `n`) gives the three bytes `a`,
LF, `b`, and `k = "\q"` gives `q`. -/
theorem quoted_value_decoding_witness :
    key_ok [107] = true ∧ quoted_body_ok [97, 92, 110, 98] = true ∧
    ini_get_text (ini_load ([] ++ [107] ++ [32] ++ [61] ++ [32] ++ [34] ++ [97, 92, 110, 98] ++
      [34] ++ [10])) none [107] = some [97, 10, 98] ∧
    ini_get_text (ini_load ([] ++ [107] ++ [32] ++ [61] ++ [32] ++ [34] ++ [92, 113] ++
      [34] ++ [10])) none [107] = some [113] :=
  ⟨by decide, by decide,
    quoted_value_decoding [] [107] [32] [32] [97, 92, 110, 98]
      (by decide) (by decide) (by decide) (by decide) (by decide) (by decide),
    quoted_value_decoding [] [107] [32] [32] [92, 113]
      (by decide) (by decide) (by decide) (by decide) (by decide) (by decide)⟩

/-- C5: malformed key/value lines are discarded whole.  Let `pad ++ body` be a
physical line of a file (the block `A` of whole lines before it, `rest` from
its line end on), without NUL, its first non-blank byte neither `[` nor `;`,
and (a) without `=`, or (b) with only blanks after its first `=`, or (c) with
an empty quoted value `""` after its first `=`.  Then every byte of that line
is NUL after loading, and a file that consists of that line alone (with or
without its line feed) answers not-found to every lookup. -/
theorem malformed_line_discarded (A pad body rest : List Nat) (hA : whole_lines A)
    (hrest : at_line_end rest) (hpad : pad_ok pad = true) (hfirst : first_ok body = true)
    (hbytes : ∀ x ∈ body, x ≠ 0 ∧ x ≠ 10) (hmal : malformed_body body) :
    (∀ i, A.length ≤ i → i < A.length + (pad ++ body).length →
      rd (ini_load (A ++ (pad ++ body) ++ rest)).data i = 0) ∧
    (∀ sec key, ini_get_text (ini_load (pad ++ body)) sec key = none ∧
      ini_get_text (ini_load ((pad ++ body) ++ [10])) sec key = none) := by
  have ht := tokenizes_to_malformed pad body hpad hfirst hbytes hmal
  refine ⟨fun i h1 h2 => rd_blank_line A _ rest ht hA hrest i h1 h2, fun sec key => ?_⟩
  obtain ⟨g1, g2⟩ := ini_get_text_one_line _ _ ht sec key
  rw [g1, g2, tokens_replicate_nul]
  exact ⟨rfl, rfl⟩

/-- Witness for C5: in the file `a=b`, ` k = ""`, `x=y` the second line is
blanked, and the file `k = ""` alone does not know the key `k`. -/
theorem malformed_line_discarded_witness :
    whole_lines [97, 61, 98, 10] ∧ at_line_end [10, 120, 61, 121] ∧
    malformed_body [107, 32, 61, 32, 34, 34] ∧
    (∀ i, 4 ≤ i → i < 4 + 7 →
      rd (ini_load ([97, 61, 98, 10] ++ ([32] ++ [107, 32, 61, 32, 34, 34]) ++
        [10, 120, 61, 121])).data i = 0) ∧
    ini_get_text (ini_load ([] ++ [107, 32, 61, 32, 34, 34])) none [107] = none :=
  ⟨Or.inr ⟨[97, 61, 98], rfl⟩, Or.inr ⟨[120, 61, 121], rfl⟩,
    Or.inr (Or.inr ⟨[107, 32], [32], [], rfl, by decide, by decide⟩),
    (malformed_line_discarded [97, 61, 98, 10] [32] [107, 32, 61, 32, 34, 34]
      [10, 120, 61, 121] (Or.inr ⟨[97, 61, 98], rfl⟩) (Or.inr ⟨[120, 61, 121], rfl⟩)
      (by decide) (by decide) (by decide)
      (Or.inr (Or.inr ⟨[107, 32], [32], [], rfl, by decide, by decide⟩))).1,
    ((malformed_line_discarded [] [] [107, 32, 61, 32, 34, 34] [] (Or.inl rfl) (Or.inl rfl)
      (by decide) (by decide) (by decide)
      (Or.inr (Or.inr ⟨[107, 32], [32], [], rfl, by decide, by decide⟩))).2 none [107]).1⟩

/-- C6 (counterexample): the line `k = "abc` LF has an unterminated quote, yet
it is not blanked and its key is found, with value `abc`. -/
theorem unterminated_quote_counterexample :
    ¬ ((∀ i, i < 8 → rd (ini_load [107, 32, 61, 32, 34, 97, 98, 99, 10]).data i = 0) ∧
      ini_get_text (ini_load [107, 32, 61, 32, 34, 97, 98, 99, 10]) none [107] = none) := by
  decide

/-- C6 (amended): a key/value line whose value starts with a double quote (in
particular one with no closing quote before the end of the line) is blanked
only when the text decoded up to the end of the line, `unquote S`, is empty;
then every lookup fails.  Otherwise the line is kept and the lookup of its key
returns that decoded text. -/
theorem unterminated_quote_line (pad1 K pad2 pad3 S : List Nat) (hK : key_ok K = true)
    (h1 : pad_ok pad1 = true) (h2 : pad_ok pad2 = true) (h3 : pad_ok pad3 = true)
    (hS : ∀ x ∈ S, x ≠ 10 ∧ x ≠ 0) :
    (unquote S ≠ [] →
      ini_get_text (ini_load (pad1 ++ K ++ pad2 ++ [61] ++ pad3 ++ [34] ++ S ++ [10]))
        none K = some (unquote S)) ∧
    (unquote S = [] →
      (ini_load (pad1 ++ K ++ pad2 ++ [61] ++ pad3 ++ [34] ++ S ++ [10])).data =
          List.replicate ((pad1 ++ K ++ pad2 ++ [61] ++ pad3 ++ [34] ++ S ++ [10]).length + 1) 0 ∧
        ∀ sec key,
          ini_get_text (ini_load (pad1 ++ K ++ pad2 ++ [61] ++ pad3 ++ [34] ++ S ++ [10]))
            sec key = none) := by
  obtain ⟨_, _, hK91⟩ := key_ok_bytes K hK
  have hb : pad1 ++ K ++ pad2 ++ [61] ++ pad3 ++ [34] ++ S ++ [10] =
      (pad1 ++ ((K ++ pad2) ++ 61 :: (pad3 ++ 34 :: S))) ++ [10] := by
    simp
  constructor
  · intro hu
    obtain ⟨img, ht, htok⟩ := quoted_line_tokens pad1 K pad2 pad3 S hK h1 h2 h3 hS hu
    rw [hb, (ini_get_text_one_line _ _ ht none K).1, htok,
      tok_lookup_key_value none [] K K _ [] hK91, strcmpci_refl]
    rfl
  · intro hu
    obtain ⟨hbytes, hf⟩ := key_pad_bytes K pad2 hK h2
    have ht := quoted_line_blank pad1 (K ++ pad2) pad3 S hf hbytes h1 h3 hS hu
    constructor
    · have := ini_load_append (pad1 ++ ((K ++ pad2) ++ 61 :: (pad3 ++ 34 :: S))) []
      rw [List.append_nil] at this
      rw [hb, this, split_block_of_tokenizes_to _ _ ht, ini_load_nil]
      simp only [List.length_append, List.length_cons, List.length_nil]
      rw [show ([0] : List Nat) = List.replicate 1 0 from rfl, ← List.replicate_add,
        ← List.replicate_add]
    · intro sec key
      rw [hb, (ini_get_text_one_line _ _ ht sec key).1, tokens_replicate_nul]
      rfl

/-- Witness for C6 (amended): `k = "abc` LF gives `abc` for `k`; `k = "` LF is
blanked. -/
theorem unterminated_quote_line_witness :
    key_ok [107] = true ∧ unquote [97, 98, 99] ≠ [] ∧ unquote [] = [] ∧
    ini_get_text (ini_load ([] ++ [107] ++ [32] ++ [61] ++ [32] ++ [34] ++ [97, 98, 99] ++ [10]))
      none [107] = some (unquote [97, 98, 99]) ∧
    (ini_load ([] ++ [107] ++ [32] ++ [61] ++ [32] ++ [34] ++ [] ++ [10])).data =
      List.replicate (([] ++ [107] ++ [32] ++ [61] ++ [32] ++ [34] ++ [] ++ [10]).length + 1) 0 :=
  ⟨by decide, by decide, by decide,
    (unterminated_quote_line [] [107] [32] [32] [97, 98, 99] (by decide) (by decide) (by decide)
      (by decide) (by decide)).1 (by decide),
    ((unterminated_quote_line [] [107] [32] [32] [] (by decide) (by decide) (by decide)
      (by decide) (by decide)).2 (by decide)).1⟩

/-- C7: ignored lines are transparent to every lookup.  For a block `A` of
whole lines, any text `B`, and a line `pad ++ body` without line feed that is a
comment (its first non-skipped byte is `;`) or has no `=` and does not have `[`
as its first non-skipped byte, every lookup gives the same outcome and the
same value text on `A ++ T ++ LF ++ B` as on `A ++ B`. -/
theorem ignored_line_transparent (A pad body B : List Nat) (hA : whole_lines A)
    (hT : ignored_line pad body = true) (sec : Option (List Nat)) (key : List Nat) :
    ini_get_text (ini_load (A ++ (pad ++ body) ++ [10] ++ B)) sec key =
      ini_get_text (ini_load (A ++ B)) sec key := by
  rw [ini_get_text_load, ini_get_text_load,
    tokens_ini_load_line A _ _ B (tokenizes_to_ignored pad body hT) hA, tokens_replicate_nul,
    List.nil_append, ini_load_whole_lines A B hA, tokens_whole_lines _ _ hA]

/-- Witness for C7: the comment `; k = v` and the line `justtext` between
`[s]` and `k=1` change nothing: the key `k` of section `s` is found with value
1 in both files. -/
theorem ignored_line_transparent_witness :
    whole_lines [91, 115, 93, 10] ∧
    ignored_line [32] [59, 32, 107, 32, 61, 32, 118] = true ∧
    ignored_line [] [106, 117, 115, 116, 116, 101, 120, 116] = true ∧
    ini_get_text (ini_load ([91, 115, 93, 10] ++ ([32] ++ [59, 32, 107, 32, 61, 32, 118]) ++
      [10] ++ [107, 61, 49, 10])) (some [115]) [107] = some [49] ∧
    ini_get_text (ini_load ([91, 115, 93, 10] ++
      ([] ++ [106, 117, 115, 116, 116, 101, 120, 116]) ++ [10] ++ [107, 61, 49, 10]))
      none [106, 117, 115, 116, 116, 101, 120, 116] = none :=
  ⟨Or.inr ⟨[91, 115, 93], rfl⟩, by decide, by decide,
    (ignored_line_transparent [91, 115, 93, 10] [32] [59, 32, 107, 32, 61, 32, 118]
      [107, 61, 49, 10] (Or.inr ⟨[91, 115, 93], rfl⟩) (by decide) (some [115]) [107]).trans
      (by decide),
    (ignored_line_transparent [91, 115, 93, 10] [] [106, 117, 115, 116, 116, 101, 120, 116]
      [107, 61, 49, 10] (Or.inr ⟨[91, 115, 93], rfl⟩) (by decide) none
      [106, 117, 115, 116, 116, 101, 120, 116]).trans (by decide)⟩

/-- C8: `ini_getint` reports `ok = false` when the key is not found and when
`strtoll` stops before the end of the matched text (here `123abc`); `ok = true`
means a value was found and `strtoll` consumed all of its text. -/
theorem ini_getint_full_consumption (ini : ini_file) (sec : Option (List Nat)) (key : List Nat) :
    (ini_get ini sec key = none → (ini_getint ini sec key).ok = false) ∧
    (∀ p, ini_get ini sec key = some p →
      (strtoll (ini.data.drop p)).consumed < (cstr (ini.data.drop p)).length →
      (ini_getint ini sec key).ok = false) ∧
    ((ini_getint ini sec key).ok = true →
      ∃ p, ini_get ini sec key = some p ∧
        (strtoll (ini.data.drop p)).consumed = (cstr (ini.data.drop p)).length) := by
  refine ⟨?_, ?_, ?_⟩
  · intro h; simp [ini_getint, h, zero_value]
  · intro p hp hlt
    have hne : ¬ rd (ini.data.drop p) (strtoll (ini.data.drop p)).consumed = 0 :=
      fun h0 => by rw [eptr_zero_iff] at h0; omega
    simp only [ini_getint, hp]
    generalize rd (ini.data.drop p) (strtoll (ini.data.drop p)).consumed = e at hne
    simp [hne]
  · intro hok
    cases hp : ini_get ini sec key with
    | none => simp [ini_getint, hp, zero_value] at hok
    | some p =>
      refine ⟨p, rfl, ?_⟩
      rw [← eptr_zero_iff]
      by_contra hne
      simp only [ini_getint, hp] at hok
      generalize rd (ini.data.drop p) (strtoll (ini.data.drop p)).consumed = e at hne hok
      simp [hne] at hok

/-- Witness for C8: the value text `123abc` (file `k=123abc`) is not accepted
as 123. -/
theorem ini_getint_full_consumption_witness :
    ini_get_text (ini_load [107, 61, 49, 50, 51, 97, 98, 99, 10]) none [107] =
      some [49, 50, 51, 97, 98, 99] ∧
    (ini_getint (ini_load [107, 61, 49, 50, 51, 97, 98, 99, 10]) none [107]).ok = false :=
  ⟨by decide,
    (ini_getint_full_consumption (ini_load [107, 61, 49, 50, 51, 97, 98, 99, 10]) none [107]).2.1
      2 (by decide) (by decide)⟩

/-- C9 (evaluation of the code at the failing input): for the file
`k=3000000000` the accessor reports success although 3000000000 does not fit
the 32-bit `Integer` member, which then holds -1294967296. -/
theorem ini_getint_overflow_accepted :
    ini_getint (ini_load [107, 61, 51, 48, 48, 48, 48, 48, 48, 48, 48, 48, 10]) none [107] =
      { ok := true, Integer := -1294967296, String := none, Boolean := false } := by
  decide

/-- C10: `ini_getbool` answers `(ok, Boolean) = (true, true)` exactly when the
key is found with value text `true`, `(true, false)` exactly when it is found
with value text `false`, and `ok = false` in every other case. -/
theorem ini_getbool_exact (ini : ini_file) (sec : Option (List Nat)) (key : List Nat) :
    (((ini_getbool ini sec key).ok = true ∧ (ini_getbool ini sec key).Boolean = true) ↔
      ini_get_text ini sec key = some [116, 114, 117, 101]) ∧
    (((ini_getbool ini sec key).ok = true ∧ (ini_getbool ini sec key).Boolean = false) ↔
      ini_get_text ini sec key = some [102, 97, 108, 115, 101]) ∧
    ((ini_getbool ini sec key).ok = false ↔
      (ini_get_text ini sec key ≠ some [116, 114, 117, 101] ∧
       ini_get_text ini sec key ≠ some [102, 97, 108, 115, 101])) := by
  have ht : cstr [116, 114, 117, 101] = [116, 114, 117, 101] := by decide
  have hf : cstr [102, 97, 108, 115, 101] = [102, 97, 108, 115, 101] := by decide
  cases hp : ini_get ini sec key with
  | none => simp [ini_getbool, ini_get_text, hp, zero_value]
  | some p =>
    simp only [ini_getbool, ini_get_text, hp, streq, ht, hf, beq_iff_eq, Option.map_some',
      Option.some.injEq, zero_value]
    by_cases h1 : cstr (ini.data.drop p) = [116, 114, 117, 101]
    · simp [h1]
    · by_cases h2 : cstr (ini.data.drop p) = [102, 97, 108, 115, 101]
      · simp [h2]
      · simp [h1, h2]

/-- C11 (counterexample): in the file ` [x]`, `k=v` the first line does not
start with `[` (it starts with a space) and has no key, and `k=v` is a
well-formed line; yet the lookup of `k` with the empty section argument finds
nothing: the indented `[x]` is a section header. -/
theorem indented_header_counterexample :
    (∀ x ∈ [32, 91, 120, 93, 10, 107, 61, 118, 10], x ≠ 0) ∧
    rd [32, 91, 120, 93] 0 ≠ 91 ∧ 61 ∉ [32, 91, 120, 93] ∧
    line_ok (ini_line.pair [] [107] [] [] [118] []) = true ∧
    [32, 91, 120, 93, 10, 107, 61, 118, 10] =
      [32, 91, 120, 93] ++ [10] ++ render_line (ini_line.pair [] [107] [] [] [118] []) ++ [10] ∧
    ¬ (ini_get_text (ini_load [32, 91, 120, 93, 10, 107, 61, 118, 10]) none [107] = some [118] ∧
      ini_get_text (ini_load [32, 91, 120, 93, 10, 107, 61, 118, 10]) (some []) [107] =
        some [118]) := by
  decide

/-- C11 (amended): default-section keys are reachable with an absent or an
empty section argument.  Let the input be lines `ls` (each without NUL, its
first non-blank byte neither `[` nor `=`, and, when it has a `=`, its key
segment different from `K` up to case), then a well-formed line `K = V`, then
`rest` (empty, or from the line feed of that line on).  Then both
`ini_get(absent, K)` and `ini_get("", K)` return `V`. -/
theorem default_section_keys_reachable (ls : List (List Nat))
    (pad1 K pad2 pad3 V pad4 rest : List Nat)
    (hls : ∀ l ∈ ls, (∀ x ∈ l, x ≠ 0 ∧ x ≠ 10) ∧ first_nonblank l ≠ 91 ∧
      first_nonblank l ≠ 61 ∧ (61 ∈ l → eq_ignoring_case (key_segment l) K = false))
    (hl : line_ok (ini_line.pair pad1 K pad2 pad3 V pad4) = true) (hrest : at_line_end rest) :
    ini_get_text (ini_load (unlines ls ++
      (render_line (ini_line.pair pad1 K pad2 pad3 V pad4) ++ rest))) none K = some V ∧
    ini_get_text (ini_load (unlines ls ++
      (render_line (ini_line.pair pad1 K pad2 pad3 V pad4) ++ rest))) (some []) K = some V := by
  have hK : key_ok K = true := by
    simp only [line_ok, Bool.and_eq_true] at hl
    exact hl.1.1.1.1.2
  obtain ⟨_, hK0, hK91⟩ := key_ok_bytes K hK
  obtain ⟨T, t1, t2⟩ := tokens_unlines_inert K (fun h0 => hK0 0 h0 rfl) ls hls
  have hone : ∀ l ∈ [ini_line.pair pad1 K pad2 pad3 V pad4], line_ok l = true := by
    intro l h; rw [List.mem_singleton] at h; subst h; exact hl
  have hline : ∃ X, tokens (ini_load
      (render_line (ini_line.pair pad1 K pad2 pad3 V pad4) ++ rest)).data = [K, V] ++ X := by
    rcases hrest with h | ⟨r, h⟩
    · subst h
      refine ⟨[], ?_⟩
      rw [List.append_nil, tokens_ini_load_render_open [ini_line.pair pad1 K pad2 pad3 V pad4] _
        hone (by simp [render])]
      simp [line_tokens]
    · subst h
      refine ⟨tokens (ini_load r).data, ?_⟩
      have := tokens_ini_load_render [ini_line.pair pad1 K pad2 pad3 V pad4] r hone
      simpa [render, line_tokens] using this
  obtain ⟨X, hX⟩ := hline
  have hfound : ∀ sec, section_matches sec [] = true →
      tok_lookup sec K [] (T ++ ([K, V] ++ X)) = some V := by
    intro sec hs
    rw [t2 sec]
    simp only [List.cons_append, List.nil_append]
    rw [tok_lookup_key_value sec [] K K V X hK91, hs, strcmpci_refl]
    rfl
  constructor
  · rw [ini_get_text_load, t1, hX]; exact hfound none rfl
  · rw [ini_get_text_load, t1, hX]; exact hfound (some []) rfl

/-- Witness for C11 (amended): after the comment `; k=0`, the line `x=y` and the
line `junk`, the key `k` of ` k = v` is found with the absent and with the
empty section argument, whatever follows. -/
theorem default_section_keys_reachable_witness :
    (∀ l ∈ [[59, 32, 107, 61, 48], [120, 61, 121], [106, 117, 110, 107]],
      (∀ x ∈ l, x ≠ 0 ∧ x ≠ 10) ∧ first_nonblank l ≠ 91 ∧ first_nonblank l ≠ 61 ∧
      (61 ∈ l → eq_ignoring_case (key_segment l) [107] = false)) ∧
    line_ok (ini_line.pair [32] [107] [32] [32] [118] []) = true ∧
    at_line_end [10, 91, 115, 93, 10, 107, 61, 50, 10] ∧
    ini_get_text (ini_load (unlines [[59, 32, 107, 61, 48], [120, 61, 121], [106, 117, 110, 107]]
      ++ (render_line (ini_line.pair [32] [107] [32] [32] [118] []) ++
        [10, 91, 115, 93, 10, 107, 61, 50, 10]))) (some []) [107] = some [118] :=
  ⟨by decide, by decide, Or.inr ⟨_, rfl⟩,
    (default_section_keys_reachable [[59, 32, 107, 61, 48], [120, 61, 121], [106, 117, 110, 107]]
      [32] [107] [32] [32] [118] [] [10, 91, 115, 93, 10, 107, 61, 50, 10] (by decide)
      (by decide) (Or.inr ⟨_, rfl⟩)).2⟩

/-- C12: `ini_getstring` succeeds exactly when `ini_get` finds the key, and
then its `String` member is the pointer `ini_get` returned; when `ini_get`
finds nothing, `ini_getint`, `ini_getbool`, `ini_getstring` and
`ini_getdecimal` (for any `strtod`) all report `ok = false`; so `ok = true`
from any typed accessor implies `ok = true` from `ini_getstring`. -/
theorem accessors_fail_when_not_found {δ : Type} (strtod : List Nat → strtod_result δ) (z : δ)
    (ini : ini_file) (sec : Option (List Nat)) (key : List Nat) :
    ((ini_getstring ini sec key).ok = true ↔ ∃ p, ini_get ini sec key = some p) ∧
    (∀ p, ini_get ini sec key = some p →
      (ini_getstring ini sec key).ok = true ∧ (ini_getstring ini sec key).String = some p) ∧
    (ini_get ini sec key = none →
      (ini_getint ini sec key).ok = false ∧ (ini_getbool ini sec key).ok = false ∧
      (ini_getstring ini sec key).ok = false ∧
      (ini_getdecimal strtod z ini sec key).1.ok = false) ∧
    ((ini_getint ini sec key).ok = true ∨ (ini_getbool ini sec key).ok = true ∨
        (ini_getdecimal strtod z ini sec key).1.ok = true →
      (ini_getstring ini sec key).ok = true) := by
  cases hp : ini_get ini sec key with
  | none => simp [ini_getstring, ini_getint, ini_getbool, ini_getdecimal, hp, zero_value]
  | some p => simp [ini_getstring, hp, zero_value]

/-- C13: section header span, with a missing `]` tolerated.  For a section
name `N` without `]`, LF or NUL and a following well-formed line `K = V`, on
both `[N]` LF `K = V` LF and `[N` LF `K = V` LF the lookup of `(N, K)`
returns `V`; and for any NUL-free section argument `s` the lookup of `(s, K)`
returns `V` exactly when `s` equals, up to letter case, the whole text `N`
(nothing trimmed), and not-found otherwise. -/
theorem section_header_span (N pad1 K pad2 pad3 V pad4 : List Nat)
    (hN : ∀ x ∈ N, x ≠ 0 ∧ x ≠ 10 ∧ x ≠ 93)
    (hl : line_ok (ini_line.pair pad1 K pad2 pad3 V pad4) = true) :
    ini_get_text (ini_load ([91] ++ N ++ [93] ++ [10] ++
      (render_line (ini_line.pair pad1 K pad2 pad3 V pad4) ++ [10]))) (some N) K = some V ∧
    ini_get_text (ini_load ([91] ++ N ++ [10] ++
      (render_line (ini_line.pair pad1 K pad2 pad3 V pad4) ++ [10]))) (some N) K = some V ∧
    (∀ s, 0 ∉ s →
      ini_get_text (ini_load ([91] ++ N ++ [93] ++ [10] ++
        (render_line (ini_line.pair pad1 K pad2 pad3 V pad4) ++ [10]))) (some s) K =
        (if eq_ignoring_case s N then some V else none) ∧
      ini_get_text (ini_load ([91] ++ N ++ [10] ++
        (render_line (ini_line.pair pad1 K pad2 pad3 V pad4) ++ [10]))) (some s) K =
        (if eq_ignoring_case s N then some V else none)) := by
  have hN0 : 0 ∉ N := fun h => (hN 0 h).1 rfl
  have hK : key_ok K = true := by
    simp only [line_ok, Bool.and_eq_true] at hl
    exact hl.1.1.1.1.2
  obtain ⟨_, _, hK91⟩ := key_ok_bytes K hK
  have hkv : tokens (ini_load (render_line (ini_line.pair pad1 K pad2 pad3 V pad4) ++ [10])).data
      = [K, V] := by
    have := tokens_ini_load_render [ini_line.pair pad1 K pad2 pad3 V pad4] []
      (fun l h => by rw [List.mem_singleton] at h; subst h; exact hl)
    simpa [render, line_tokens, ini_load_nil, tokens] using this
  obtain ⟨t1, t2⟩ := tokens_header_then N
    (render_line (ini_line.pair pad1 K pad2 pad3 V pad4) ++ [10]) hN
  rw [hkv] at t1 t2
  have key : ∀ s, 0 ∉ s → tok_lookup (some s) K [] [91 :: N, K, V] =
      (if eq_ignoring_case s N then some V else none) := by
    intro s hs
    rw [tok_lookup_cons, if_pos (by simp [rd]), List.tail_cons,
      tok_lookup_key_value (some s) N K K V [] hK91, strcmpci_refl, Bool.and_true]
    simp only [section_matches, strcmpci_eq_ignoring_case s N hs hN0]
    rfl
  have hself : eq_ignoring_case N N = true := by simp [eq_ignoring_case]
  refine ⟨?_, ?_, fun s hs => ⟨?_, ?_⟩⟩
  · rw [ini_get_text_load, t1, key N hN0, hself]; rfl
  · rw [ini_get_text_load, t2, key N hN0, hself]; rfl
  · rw [ini_get_text_load, t1, key s hs]
  · rw [ini_get_text_load, t2, key s hs]

/-- Witness for C13: with the header ` S x` (blanks kept, no closing bracket)
the key `k` is found under the section argument ` s X`. -/
theorem section_header_span_witness :
    (∀ x ∈ [32, 83, 32, 120], x ≠ 0 ∧ x ≠ 10 ∧ x ≠ 93) ∧
    line_ok (ini_line.pair [] [107] [32] [32] [118] []) = true ∧
    ini_get_text (ini_load ([91] ++ [32, 83, 32, 120] ++ [10] ++
      (render_line (ini_line.pair [] [107] [32] [32] [118] []) ++ [10])))
      (some [32, 115, 32, 88]) [107] = some [118] :=
  ⟨by decide, by decide,
    ((section_header_span [32, 83, 32, 120] [] [107] [32] [32] [118] [] (by decide)
      (by decide)).2.2 [32, 115, 32, 88] (by decide)).2.trans (by decide)⟩

/-- C14 (counterexample): in the file ` ;k=v` the `;` at index 1 is not the
first byte of its line, yet the `case ';'` arm of the main loop runs there (the
line is a comment: the key `;k` is not found); and in ` [s]`, `k=v` the `[` at
index 1 is taken as a section header (the key `k` is in section `s`). -/
theorem indented_comment_counterexample :
    (∀ x ∈ [32, 59, 107, 61, 118, 10], x ≠ 0) ∧
    ¬ (∀ x ∈ split_dispatch 6 6 ([32, 59, 107, 61, 118, 10] ++ [0]) 0,
        (x.2 = 59 ∨ x.2 = 91) → (x.1 = 0 ∨ rd [32, 59, 107, 61, 118, 10] (x.1 - 1) = 10)) ∧
    ini_get_text (ini_load [32, 59, 107, 61, 118, 10]) none [59, 107] = none ∧
    (1, 91) ∈ split_dispatch 9 9 ([32, 91, 115, 93, 10, 107, 61, 118, 10] ++ [0]) 0 ∧
    ini_get_text (ini_load [32, 91, 115, 93, 10, 107, 61, 118, 10]) (some [115]) [107] =
      some [118] := by
  decide

/-- C14 (amended): where comments and section headers start.  Let `line` be
the text of a physical line (or the beginning of one), without NUL, that
follows a block `A` of whole lines.  The `case ';'` or `case '['` arm of the
main loop of `split_data` runs at offset `i` of the line exactly when the byte
there is `;` or `[` and the text of the line before it is made of blanks and
closed section headers `[...]` only.  So a `;` or `[` after leading blanks, or
after the `]` of a header, starts a comment or a header; one that follows any
other text on its line (a key, a value, a comment) never does. -/
theorem comment_header_start (A line rest : List Nat) (hA : whole_lines A)
    (hline : ∀ x ∈ line, x ≠ 0 ∧ x ≠ 10) (i c : Nat) (hi : i < line.length)
    (hc : c = 59 ∨ c = 91) :
    (A.length + i, c) ∈ split_dispatch (A ++ line ++ rest).length (A ++ line ++ rest).length
        ((A ++ line ++ rest) ++ [0]) 0 ↔
      (headers_only (line.take i) = true ∧ rd line i = c) := by
  obtain ⟨L, hL, hd⟩ := split_dispatch_append A (line ++ (rest ++ [0])) hA (line ++ rest).length
  have e1 : (A ++ line ++ rest).length = A.length + (line ++ rest).length := by
    simp only [List.length_append]; omega
  have e2 : (A ++ line ++ rest) ++ [0] = A ++ (line ++ (rest ++ [0])) := by simp
  rw [e1, e2, hd, List.mem_append, List.mem_map,
    ← line_dispatch line.length line (Nat.le_refl _) hline (rest ++ [0]) (line ++ rest).length
      (by simp) i c hi hc]
  constructor
  · rintro (h | ⟨x, hx, h⟩)
    · have := hL _ h
      simp only at this
      omega
    · simp only [Prod.mk.injEq] at h
      have h1 : x.1 = i := by omega
      have h2 : x = (i, c) := Prod.ext h1 h.2
      rw [← h2]; exact hx
  · intro h
    exact Or.inr ⟨(i, c), h, rfl⟩

/-- Witness for C14 (amended): in the line ` [a] ;k=[;` after the line `[s]`,
the `[` at offset 1 and the `;` at offset 5 start a header and a comment; the
`[` at offset 8, inside the comment, starts nothing. -/
theorem comment_header_start_witness :
    whole_lines [91, 115, 93, 10] ∧
    (∀ x ∈ [32, 91, 97, 93, 32, 59, 107, 61, 91, 59], x ≠ 0 ∧ x ≠ 10) ∧
    (4 + 1, 91) ∈ split_dispatch
      ([91, 115, 93, 10] ++ [32, 91, 97, 93, 32, 59, 107, 61, 91, 59] ++ [10]).length
      ([91, 115, 93, 10] ++ [32, 91, 97, 93, 32, 59, 107, 61, 91, 59] ++ [10]).length
      (([91, 115, 93, 10] ++ [32, 91, 97, 93, 32, 59, 107, 61, 91, 59] ++ [10]) ++ [0]) 0 ∧
    (4 + 5, 59) ∈ split_dispatch
      ([91, 115, 93, 10] ++ [32, 91, 97, 93, 32, 59, 107, 61, 91, 59] ++ [10]).length
      ([91, 115, 93, 10] ++ [32, 91, 97, 93, 32, 59, 107, 61, 91, 59] ++ [10]).length
      (([91, 115, 93, 10] ++ [32, 91, 97, 93, 32, 59, 107, 61, 91, 59] ++ [10]) ++ [0]) 0 ∧
    (4 + 8, 91) ∉ split_dispatch
      ([91, 115, 93, 10] ++ [32, 91, 97, 93, 32, 59, 107, 61, 91, 59] ++ [10]).length
      ([91, 115, 93, 10] ++ [32, 91, 97, 93, 32, 59, 107, 61, 91, 59] ++ [10]).length
      (([91, 115, 93, 10] ++ [32, 91, 97, 93, 32, 59, 107, 61, 91, 59] ++ [10]) ++ [0]) 0 :=
  ⟨Or.inr ⟨[91, 115, 93], rfl⟩, by decide,
    (comment_header_start [91, 115, 93, 10] [32, 91, 97, 93, 32, 59, 107, 61, 91, 59] [10]
      (Or.inr ⟨[91, 115, 93], rfl⟩) (by decide) 1 91 (by decide) (Or.inr rfl)).2
      ⟨by decide, by decide⟩,
    (comment_header_start [91, 115, 93, 10] [32, 91, 97, 93, 32, 59, 107, 61, 91, 59] [10]
      (Or.inr ⟨[91, 115, 93], rfl⟩) (by decide) 5 59 (by decide) (Or.inl rfl)).2
      ⟨by decide, by decide⟩,
    fun h => absurd
      ((comment_header_start [91, 115, 93, 10] [32, 91, 97, 93, 32, 59, 107, 61, 91, 59] [10]
        (Or.inr ⟨[91, 115, 93], rfl⟩) (by decide) 8 91 (by decide) (Or.inr rfl)).1 h).1
      (by decide)⟩

/-- C15: trailing bytes after a closing quote are dropped, not parsed.  For a
block `A` of whole lines, a well-formed line `K = "B"` whose decoding is not
empty, any trailing text `G` without LF or NUL, and any `C`, every lookup gives
the same result on `A ++ K = "B" ++ G ++ LF ++ C` as on
`A ++ K = "B" ++ LF ++ C`. -/
theorem trailing_bytes_dropped (A pad1 K pad2 pad3 B G C : List Nat)
    (hA : whole_lines A) (hK : key_ok K = true) (h1 : pad_ok pad1 = true)
    (h2 : pad_ok pad2 = true) (h3 : pad_ok pad3 = true) (hB : quoted_body_ok B = true)
    (hne : decode B ≠ []) (hG : ∀ x ∈ G, x ≠ 10 ∧ x ≠ 0) (sec : Option (List Nat))
    (key : List Nat) :
    ini_get_text (ini_load (A ++ (pad1 ++ K ++ pad2 ++ [61] ++ pad3 ++ [34] ++ B ++ [34] ++ G) ++
      [10] ++ C)) sec key =
    ini_get_text (ini_load (A ++ (pad1 ++ K ++ pad2 ++ [61] ++ pad3 ++ [34] ++ B ++ [34]) ++
      [10] ++ C)) sec key := by
  have g1 := tokens_quoted_line_in_context A pad1 K pad2 pad3 B G C hA hK h1 h2 h3 hB hne hG
  have g2 := tokens_quoted_line_in_context A pad1 K pad2 pad3 B [] C hA hK h1 h2 h3 hB hne
    (by simp)
  rw [List.append_nil] at g2
  rw [ini_get_text_load, ini_get_text_load, g1, g2]

/-- Witness for C15: in `[s]`, `k = "v" ; [t] = "w"`, `j=1` the trailing text
gives no section `t`: the key `j` is still found in section `s`, and `k` has
the value `v`. -/
theorem trailing_bytes_dropped_witness :
    whole_lines [91, 115, 93, 10] ∧ key_ok [107] = true ∧ quoted_body_ok [118] = true ∧
    ini_get_text (ini_load ([91, 115, 93, 10] ++ ([] ++ [107] ++ [32] ++ [61] ++ [32] ++ [34] ++
      [118] ++ [34] ++ [32, 59, 32, 91, 116, 93, 32, 61, 32, 34, 119, 34]) ++ [10] ++
      [106, 61, 49, 10])) (some [115]) [106] = some [49] ∧
    ini_get_text (ini_load ([91, 115, 93, 10] ++ ([] ++ [107] ++ [32] ++ [61] ++ [32] ++ [34] ++
      [118] ++ [34] ++ [32, 59, 32, 91, 116, 93, 32, 61, 32, 34, 119, 34]) ++ [10] ++
      [106, 61, 49, 10])) none [107] = some [118] :=
  ⟨Or.inr ⟨[91, 115, 93], rfl⟩, by decide, by decide,
    (trailing_bytes_dropped [91, 115, 93, 10] [] [107] [32] [32] [118]
      [32, 59, 32, 91, 116, 93, 32, 61, 32, 34, 119, 34] [106, 61, 49, 10]
      (Or.inr ⟨[91, 115, 93], rfl⟩) (by decide) (by decide) (by decide) (by decide) (by decide)
      (by decide) (by decide) (some [115]) [106]).trans (by decide),
    (trailing_bytes_dropped [91, 115, 93, 10] [] [107] [32] [32] [118]
      [32, 59, 32, 91, 116, 93, 32, 61, 32, 34, 119, 34] [106, 61, 49, 10]
      (Or.inr ⟨[91, 115, 93], rfl⟩) (by decide) (by decide) (by decide) (by decide) (by decide)
      (by decide) (by decide) none [107]).trans (by decide)⟩

/-- C16: `strcmpci` is whole-string equality up to the case of ASCII letters.
For C strings with NUL-free texts `a` and `b` (whatever bytes follow their
terminators) it returns true exactly when the texts have the same length and
`tolower` agrees at every index; it returns false when one text is a proper
prefix of the other, in either argument order; it is reflexive and
symmetric. -/
theorem strcmpci_whole_string (a b ra rb : List Nat) (ha : 0 ∉ a) (hb : 0 ∉ b) :
    (strcmpci (a ++ 0 :: ra) (b ++ 0 :: rb) = true ↔
      (a.length = b.length ∧ ∀ i, i < a.length → tolower (rd a i) = tolower (rd b i))) ∧
    (∀ c, c ≠ [] → 0 ∉ c →
      strcmpci (a ++ 0 :: ra) ((a ++ c) ++ 0 :: rb) = false ∧
      strcmpci ((a ++ c) ++ 0 :: ra) (a ++ 0 :: rb) = false) ∧
    strcmpci (a ++ 0 :: ra) (a ++ 0 :: rb) = true ∧
    strcmpci (a ++ 0 :: ra) (b ++ 0 :: rb) = strcmpci (b ++ 0 :: rb) (a ++ 0 :: ra) := by
  refine ⟨?_, ?_, ?_, ?_⟩
  · rw [strcmpci_text a b ra rb ha hb, eq_ignoring_case_iff]
  · intro c hc hc0
    have hac : 0 ∉ a ++ c := by
      intro h
      rcases List.mem_append.1 h with h | h
      · exact ha h
      · exact hc0 h
    have hlen : (a ++ c).length ≠ a.length := by
      have : 0 < c.length := List.length_pos.2 hc
      simp only [List.length_append]; omega
    constructor
    · rw [strcmpci_text a (a ++ c) ra rb ha hac, Bool.eq_false_iff, ne_eq, eq_ignoring_case_iff]
      exact fun h => hlen h.1.symm
    · rw [strcmpci_text (a ++ c) a ra rb hac ha, Bool.eq_false_iff, ne_eq, eq_ignoring_case_iff]
      exact fun h => hlen h.1
  · rw [strcmpci_text a a ra rb ha ha, eq_ignoring_case_iff]
    exact ⟨rfl, fun _ _ => rfl⟩
  · rw [strcmpci_text a b ra rb ha hb, strcmpci_text b a rb ra hb ha, Bool.eq_iff_iff,
      eq_ignoring_case_iff, eq_ignoring_case_iff]
    constructor
    · rintro ⟨hl, hi⟩
      exact ⟨hl.symm, fun i h => (hi i (hl ▸ h)).symm⟩
    · rintro ⟨hl, hi⟩
      exact ⟨hl.symm, fun i h => (hi i (hl ▸ h)).symm⟩

/-- Witness for C16: `Key` equals `kEY` (whatever follows the terminators),
and `ke` does not equal `key` in either order. -/
theorem strcmpci_whole_string_witness :
    0 ∉ [75, 101, 121] ∧ 0 ∉ [107, 69, 89] ∧
    strcmpci ([75, 101, 121] ++ 0 :: [61, 49]) ([107, 69, 89] ++ 0 :: []) = true ∧
    strcmpci ([107, 101] ++ 0 :: []) (([107, 101] ++ [121]) ++ 0 :: []) = false ∧
    strcmpci (([107, 101] ++ [121]) ++ 0 :: []) ([107, 101] ++ 0 :: []) = false :=
  ⟨by decide, by decide,
    (strcmpci_whole_string [75, 101, 121] [107, 69, 89] [61, 49] [] (by decide) (by decide)).1.2
      ⟨by decide, by decide⟩,
    ((strcmpci_whole_string [107, 101] [107, 101] [] [] (by decide) (by decide)).2.1
      [121] (by decide) (by decide)).1,
    ((strcmpci_whole_string [107, 101] [107, 101] [] [] (by decide) (by decide)).2.1
      [121] (by decide) (by decide)).2⟩

/-- C17: postcondition of `next`.  In a buffer `C` followed by its sentinel NUL
(`end` is the index of the sentinel), for every position `p` with `p ≤ end`
the result `r` of `next` satisfies `p ≤ r ≤ end`; `r = end` or the byte at `r`
is not NUL; every byte from `p + strlen(p)` up to `r` is NUL; and `p < r` when
the byte at `p` is not NUL. -/
theorem next_postcondition (C : List Nat) (p : Nat) (hp : p ≤ C.length) :
    p ≤ next ⟨C ++ [0], C.length⟩ p ∧
    next ⟨C ++ [0], C.length⟩ p ≤ C.length ∧
    (next ⟨C ++ [0], C.length⟩ p = C.length ∨
      rd (C ++ [0]) (next ⟨C ++ [0], C.length⟩ p) ≠ 0) ∧
    (∀ i, p + strlen ((C ++ [0]).drop p) ≤ i → i < next ⟨C ++ [0], C.length⟩ p →
      rd (C ++ [0]) i = 0) ∧
    (rd (C ++ [0]) p ≠ 0 → p < next ⟨C ++ [0], C.length⟩ p) := by
  have hle := next_le C p hp
  have hsl : strlen ((C ++ [0]).drop p) = strlen (C.drop p) := by
    rw [List.drop_append_of_le_length hp, show ([0] : List Nat) = 0 :: [] from rfl,
      strlen_append_nul]
  refine ⟨next_ge C p hp, hle, ?_, ?_, ?_⟩
  · rcases Nat.lt_or_ge (next ⟨C ++ [0], C.length⟩ p) C.length with h | h
    · right
      rw [rd_append_left _ h]
      exact rd_next_ne_zero C p hp h
    · left; omega
  · intro i h1 h2
    rw [hsl] at h1
    rw [next_eq C p hp] at h2
    have hi : i < C.length := by rw [next_eq C p hp] at hle; omega
    rw [rd_append_left _ hi]
    have := rd_lt_lead_nul ((C.drop p).drop (strlen (C.drop p))) (i - (p + strlen (C.drop p)))
      (by omega)
    rw [List.drop_drop, rd_drop] at this
    rw [← this]
    congr 1
    omega
  · intro h
    rcases Nat.lt_or_ge p C.length with hlt | hge
    · rw [rd_append_left _ hlt] at h
      exact next_gt C p hp h
    · have : p = C.length := by omega
      subst this
      exact absurd (by simp [rd]) h

/-- Witness for C17: in the tokenized buffer `k`, NUL, NUL, `v`, NUL (and the
sentinel) the token after `k` starts at index 3, and after `v` comes `end`. -/
theorem next_postcondition_witness :
    (0 : Nat) ≤ [107, 0, 0, 118, 0].length ∧
    next ⟨[107, 0, 0, 118, 0] ++ [0], 5⟩ 0 = 3 ∧ next ⟨[107, 0, 0, 118, 0] ++ [0], 5⟩ 3 = 5 ∧
    (0 : Nat) < next ⟨[107, 0, 0, 118, 0] ++ [0], [107, 0, 0, 118, 0].length⟩ 0 :=
  ⟨by decide, by decide, by decide,
    (next_postcondition [107, 0, 0, 118, 0] 0 (by decide)).2.2.2.2 (by decide)⟩

/-- C18: escape decoding is overlap-safe.  In a run of `unescape_quoted_value`
from the opening quote at `start` (the instrumented run computes what
`unescape_quoted_value` computes, and is left through the guard or a `return`
of the loop whatever the fuel beyond `end - (start + 1)`): at every write the
write head is strictly behind the read head; the returned write head `q`
satisfies `start ≤ q ≤ p - 1` for the read head `p` on return, so the decoded
length `q - start` is at most the raw length `p - (start + 1)`; and no byte at
or after `p` (indeed none at or after `q`) is modified. -/
theorem unescape_overlap_safe (data : List Nat) (end_ start : Nat) :
    ((unescape_quoted_value_run data end_ start).data,
      (unescape_quoted_value_run data end_ start).q) = unescape_quoted_value data end_ start ∧
    (∀ f, end_ - (start + 1) ≤ f →
      unescape_run end_ f data (start + 1) start = unescape_quoted_value_run data end_ start) ∧
    (∀ w ∈ (unescape_quoted_value_run data end_ start).writes, w.1 < w.2) ∧
    start ≤ (unescape_quoted_value_run data end_ start).q ∧
    (unescape_quoted_value_run data end_ start).q ≤
      (unescape_quoted_value_run data end_ start).p - 1 ∧
    (unescape_quoted_value_run data end_ start).q - start ≤
      (unescape_quoted_value_run data end_ start).p - (start + 1) ∧
    (∀ i, (unescape_quoted_value_run data end_ start).q ≤ i →
      rd (unescape_quoted_value_run data end_ start).data i = rd data i) ∧
    (∀ i, (unescape_quoted_value_run data end_ start).p ≤ i →
      rd (unescape_quoted_value_run data end_ start).data i = rd data i) := by
  have hh := unescape_run_heads end_ (end_ - (start + 1)) data (start + 1) start (by omega)
  have hr := rd_unescape_run end_ (end_ - (start + 1)) data (start + 1) start
  refine ⟨unescape_run_loop _ _ _ _ _, fun f hf => unescape_run_fuel _ f _ _ _ hf,
    unescape_run_writes _ _ _ _ _ (by omega), hh.1, ?_, ?_, fun i hi => hr i (by omega) hi,
    fun i hi => hr i (by omega) ?_⟩
  · unfold unescape_quoted_value_run; omega
  · unfold unescape_quoted_value_run; omega
  · unfold unescape_quoted_value_run at hi; omega

/-- C19: the tokenizer is total and stays inside the buffer.  For every
content `C` (any bytes, NUL included) followed by its sentinel NUL, with
`L = C.length`: the bounds-checked `split_data`, in which an access outside the
indices `0 .. L` or a loop that does not come to its end gives `none`, returns
the result of `split_data` with the cursor at `end`, for any iteration bound
from `L` on; and the cursor of the main loop moves strictly forward from one
guard test to the next, never exceeds `end`, and reaches `end`. -/
theorem split_data_total_in_bounds (C : List Nat) :
    split_data_chk ⟨C ++ [0], C.length⟩ = some (split_data ⟨C ++ [0], C.length⟩, C.length) ∧
    (∀ f, C.length ≤ f →
      split_loop_chk C.length f (C ++ [0]) 0 =
        some ((split_data ⟨C ++ [0], C.length⟩).data, C.length)) ∧
    (split_cursors C.length C.length (C ++ [0]) 0).Pairwise (· < ·) ∧
    (∀ c ∈ split_cursors C.length C.length (C ++ [0]) 0, c ≤ C.length) ∧
    (split_cursors C.length C.length (C ++ [0]) 0).getLast? = some C.length := by
  have he : C.length < (C ++ [0]).length := by simp
  have h0 : rd (C ++ [0]) C.length = 0 := by
    have := rd_length_append C 0 []
    simpa using this
  have hf : ∀ f, C.length ≤ f →
      split_loop_chk C.length f (C ++ [0]) 0 =
        some ((split_data ⟨C ++ [0], C.length⟩).data, C.length) := by
    intro f hf
    rw [split_loop_chk_eq C.length f (C ++ [0]) 0 he h0 (Nat.zero_le _) (by omega),
      split_loop_fuel C.length f _ 0 (by omega)]
    rfl
  obtain ⟨c1, c2, c3⟩ := split_cursors_spec C.length C.length (C ++ [0]) 0 he h0
    (Nat.zero_le _) (by omega)
  refine ⟨?_, hf, c1, fun c hc => (c2 c hc).2, c3⟩
  simp only [split_data_chk, hf C.length (Nat.le_refl _), Option.map_some']
  rfl

/-- C20 (evaluation of the code at the failing input): in the file `=k`, `x=y`
the first line has an empty key and leaves the single token `k`; the tokens
`k`, `x`, `y` are then read as the pair (`k`, `x`) and a lone `y`: the lookup
of `k` returns `x`, which is the key of the second line, and the key `x` of
the well-formed line `x=y` is not found. -/
theorem empty_key_line_shifts_pairs :
    tokens (ini_load [61, 107, 10, 120, 61, 121, 10]).data = [[107], [120], [121]] ∧
    ini_get_text (ini_load [61, 107, 10, 120, 61, 121, 10]) none [107] = some [120] ∧
    ini_get_text (ini_load [61, 107, 10, 120, 61, 121, 10]) none [120] = none := by
  decide

end Ini
